import Mathlib

/-!
# M680x0 machine-code emitter: the bead interpreter

A shallow embedding of `lib/Target/M680x0/MCTargetDesc/M680x0MCCodeEmitter.cpp`.

* The accumulator `Buffer` (`uint64_t`) is a natural number; every value that is
  OR-ed into it is first reduced to the width of the C++ expression that
  computes it (`int`, `uint32_t` or `uint64_t`).
* `assert`, `llvm_unreachable` and the checked accessors of `MCInst` /
  `MCOperand` are modelled as fatal failures (`Except.error`), i.e. the
  semantics of a build with assertions enabled.
* Enumerators and services that live in headers outside this file
  (`M680x0Beads::*`, `M680x0::Mem*`, `isTargetType`, `isPCRelOpd`,
  `getEncodingValue`, `isAddressRegister`) are fields of `Target`.
* Definitions in the namespace `Spec` follow the wording of the specification
  and are compared with the embedded code; they are not used by it.
-/

namespace M680x0

/-! ## Data model -/

/-- Expression carried by an operand or a fixup (`MCExpr`): either a constant
expression (`MCConstantExpr::create`) or a reference to a symbol. -/
inductive MCExpr where
  | constant (v : Int)
  | symbol (id : Nat)
  deriving DecidableEq, Repr

/-- Instruction operand (`MCOperand`): register id, integer immediate
(`int64_t`), or expression. -/
inductive MCOperand where
  | reg (r : Nat)
  | imm (v : Int)
  | expr (e : MCExpr)
  deriving DecidableEq, Repr

/-- Instruction (`MCInst`): only its operand list is read by the emitter. -/
structure MCInst where
  Operands : List MCOperand
  deriving DecidableEq, Repr

/-- Per logical operand metadata (`MIOperandInfo`): first index into the
operand list, operand type, number of list entries it occupies. -/
structure MIOperandInfo where
  MINo : Nat
  OpType : Nat
  OpsNum : Nat
  deriving DecidableEq, Repr

/-- Instruction descriptor (`MCInstrDesc`): the array `MIOpInfo`; its length is
`NumMIOperands`. -/
structure MCInstrDesc where
  MIOpInfo : List MIOperandInfo
  deriving DecidableEq, Repr

/-- Number of logical operands of the descriptor. -/
def MCInstrDesc.NumMIOperands (Desc : MCInstrDesc) : Nat := Desc.MIOpInfo.length

/-- Fixup kind as selected by `getFixupForSize(Size, isPCRel)`: the header that
defines it is not part of this file, so the kind is identified with the two
arguments of the call. -/
structure FixupKind where
  Size : Nat
  PCRel : Bool
  deriving DecidableEq, Repr

/-- Relocation request (`MCFixup::create(Offset, Value, Kind, Loc)`). -/
structure MCFixup where
  Offset : Nat
  Value : MCExpr
  Kind : FixupKind
  deriving DecidableEq, Repr

/-- Fixup kind for a field of `Size` bits. -/
def getFixupForSize (Size : Nat) (isPCRel : Bool) : FixupKind := ⟨Size, isPCRel⟩

/-- The bead kinds `encodeInstruction` dispatches on (enumerators of
`M680x0Beads`), in the order of its `case` labels. -/
inductive BeadKind where
  | Bits1
  | Bits2
  | Bits3
  | Bits4
  | DAReg
  | DA
  | Reg
  | Imm8
  | Imm16
  | Imm32
  deriving DecidableEq, Repr

/-- Enumerators and services the emitter takes from other headers. The numeric
values of the kind enumerators are not in this file: `kindOf k` tells which
enumerator, if any, the nibble `k` equals, so that `case M680x0Beads::X:` of a
`switch (Bead & 0xF)` reads `kindOf (Bead &&& 0xF) = some X`. -/
structure Target where
  kindOf : Nat → Option BeadKind
  Ignore : Nat
  MemBase : Nat
  MemScale : Nat
  MemDisp : Nat
  MemOuter : Nat
  isTargetType : Nat → Bool
  isPCRelOpd : Nat → Bool
  getEncodingValue : Nat → Nat
  isAddressRegister : Nat → Bool

/-- Well-formed enumerators: no kind has the value zero, the low nibble of a
control bead. -/
def Target.WF (T : Target) : Prop := T.kindOf 0 = none

instance (T : Target) : Decidable T.WF := by
  unfold Target.WF; infer_instance

/-- Reasons for which encoding aborts. -/
inductive Fatal where
  | noBeads
  | unknownBead
  | uninitMode
  | opIndex
  | altSimple
  | altPCRel
  | operandAccess
  | operandKind
  | sizeZero
  | capacity
  | valueFit
  | residualOffset
  | byteCount
  deriving DecidableEq, Repr

deriving instance DecidableEq for Except

/-! ## Machine arithmetic -/

/-- Conversion `int64_t → uint64_t`. -/
def toU64 (v : Int) : Nat := (v % 2 ^ 64).toNat

/-- Left shift of a non-negative `int` (32 bit) followed by the conversion to
`uint64_t` (sign extension). Shift counts of 32 and more are outside what C++
defines. -/
def shlInt (v off : Nat) : Nat :=
  let x := (v <<< off) % 2 ^ 32
  if x < 2 ^ 31 then x else x + (2 ^ 64 - 2 ^ 32)

/-- Left shift of a `uint32_t`, zero-extended to `uint64_t`. -/
def shlU32 (v off : Nat) : Nat := (v <<< off) % 2 ^ 32

/-- Left shift of a `uint64_t`. -/
def shlU64 (v off : Nat) : Nat := (v <<< off) % 2 ^ 64

/-! ## Operand accessors -/

/-- Checked `MI.getOperand(i)`. -/
def getOperand (MI : MCInst) (i : Nat) : Except Fatal MCOperand :=
  match MI.Operands[i]? with
  | some MCO => .ok MCO
  | none => .error .operandAccess

/-- Checked `MCO.getReg()`. -/
def getReg : MCOperand → Except Fatal Nat
  | .reg r => .ok r
  | _ => .error .operandKind

/-- Checked `MCO.getImm()`, converted to `uint64_t` as every caller does. -/
def getImm : MCOperand → Except Fatal Nat
  | .imm v => .ok (toU64 v)
  | _ => .error .operandKind

/-- Checked `MCO.getExpr()`. -/
def getExpr : MCOperand → Except Fatal MCExpr
  | .expr e => .ok e
  | _ => .error .operandKind

/-! ## Field encoders -/

/-- The flag `bool Alt = (Bead & 0x80)` of `EncodeReg` and `EncodeImm`. -/
def Alt (Bead : Nat) : Bool := decide (Bead &&& 0x80 ≠ 0)

/-- `EncodeBits`: returns `(Num, Buffer)`. -/
def EncodeBits (T : Target) (Bead Buffer Offset : Nat) : Nat × Nat :=
  let Num :=
    match T.kindOf (Bead &&& 0xF) with
    | some .Bits1 => 1
    | some .Bits2 => 2
    | some .Bits3 => 3
    | some .Bits4 => 4
    | _ => 0
  let Val := (Bead &&& 0xF0) >>> 4
  (Num, Buffer ||| shlInt Val Offset)

/-- The `switch` opening `EncodeReg`: `(Reg, DA)` for the three register kinds.
For any other kind both flags stay uninitialised. -/
def regMode (T : Target) (k : Nat) : Option (Bool × Bool) :=
  match T.kindOf k with
  | some .DAReg => some (true, true)
  | some .DA => some (false, true)
  | some .Reg => some (true, false)
  | _ => none

/-- Operand-list index read by `EncodeReg` for the slot `Info`. -/
def regOperandIndex (T : Target) (Info : MIOperandInfo) (alt : Bool) : Except Fatal Nat :=
  if T.isTargetType Info.OpType ∧ Info.OpsNum > 1 then
    .ok (Info.MINo + (if alt then T.MemScale else T.MemBase))
  else if alt then .error .altSimple
  else .ok Info.MINo

/-- `EncodeReg`: returns `(Written, Buffer)`. -/
def EncodeReg (T : Target) (Bead : Nat) (MI : MCInst) (Desc : MCInstrDesc)
    (Buffer Offset : Nat) : Except Fatal (Nat × Nat) :=
  match regMode T (Bead &&& 0xF) with
  | none => .error .uninitMode
  | some (Reg, DA) =>
    let Op := (Bead &&& 0x70) >>> 4
    match Desc.MIOpInfo[Op]? with
    | none => .error .opIndex
    | some Info => do
      let idx ← regOperandIndex T Info (Alt Bead)
      let MCO ← getOperand MI idx
      let RegNum ← getReg MCO
      let Val := T.getEncodingValue RegNum % 2 ^ 16
      let Buffer1 := if Reg then Buffer ||| shlU32 Val Offset else Buffer
      let Offset1 := if Reg then Offset + 3 else Offset
      let Written1 := if Reg then 3 else 0
      let Flag := if T.isAddressRegister RegNum then 1 else 0
      let Buffer2 := if DA then Buffer1 ||| shlInt Flag Offset1 else Buffer1
      let Written2 := if DA then Written1 + 1 else Written1
      .ok (Written2, Buffer2)

/-- `EmitConstant`: returns `(Size, Buffer)`. -/
def EmitConstant (Val Size Buffer Offset : Nat) : Except Fatal (Nat × Nat) :=
  if Size = 0 then .error .sizeZero
  else if ¬ (Size + Offset ≤ 64) then .error .capacity
  else if ¬ (Val = Val &&& (0xFFFFFFFFFFFFFFFF >>> (64 - Size))) then .error .valueFit
  else .ok (Size, Buffer ||| shlU64 Val Offset)

/-- The `switch` opening `EncodeImm`. -/
def immSize (T : Target) (k : Nat) : Nat :=
  match T.kindOf k with
  | some .Imm8 => 8
  | some .Imm16 => 16
  | some .Imm32 => 32
  | _ => 0

/-- The deferred branches of `EncodeImm`: push one fixup at byte offset 2 and
write zeros. Returns `(Size, Buffer, Fixups)`. -/
def emitFixup (Expr : MCExpr) (Size : Nat) (isPCRel : Bool) (Buffer Offset : Nat)
    (Fixups : List MCFixup) : Except Fatal (Nat × Nat × List MCFixup) := do
  let Fixups1 := Fixups ++ [⟨2, Expr, getFixupForSize Size isPCRel⟩]
  let (n, Buffer1) ← EmitConstant 0 Size Buffer Offset
  .ok (n, Buffer1, Fixups1)

/-- The tail of `EncodeImm` (from `if (Size == 32)` on): a constant operand. -/
def emitImm (MCO : MCOperand) (Size Buffer Offset : Nat) (Fixups : List MCFixup) :
    Except Fatal (Nat × Nat × List MCFixup) :=
  if Size = 32 then do
    let Imm ← getImm MCO
    let (n1, Buffer1) ← EmitConstant ((Imm >>> 16) &&& 0xFFFF) 16 Buffer Offset
    let (_, Buffer2) ← EmitConstant (Imm &&& 0xFFFF) 16 Buffer1 (Offset + n1)
    .ok (Size, Buffer2, Fixups)
  else do
    let Imm ← getImm MCO
    let (n, Buffer1) ← EmitConstant Imm Size Buffer Offset
    .ok (n, Buffer1, Fixups)

/-- Expression of a PC-relative fixup: a constant expression for an integer
operand, the operand's own expression otherwise. -/
def pcRelExpr : MCOperand → Except Fatal MCExpr
  | .imm v => .ok (MCExpr.constant v)
  | other => getExpr other

/-- `EncodeImm`: returns `(bits, Buffer, Fixups)`. -/
def EncodeImm (T : Target) (Bead : Nat) (MI : MCInst) (Desc : MCInstrDesc)
    (Buffer Offset : Nat) (Fixups : List MCFixup) :
    Except Fatal (Nat × Nat × List MCFixup) :=
  let Size := immSize T (Bead &&& 0xF)
  let Op := (Bead &&& 0x70) >>> 4
  match Desc.MIOpInfo[Op]? with
  | none => .error .opIndex
  | some Info =>
    if T.isTargetType Info.OpType then do
      let isPCRel := T.isPCRelOpd Info.OpType
      let MCO ← getOperand MI (Info.MINo + (if Alt Bead then T.MemOuter else T.MemDisp))
      if isPCRel then
        if Alt Bead then .error .altPCRel
        else do
          let Expr ← pcRelExpr MCO
          emitFixup Expr Size true Buffer Offset Fixups
      else emitImm MCO Size Buffer Offset Fixups
    else
      if Alt Bead then .error .altSimple
      else do
        let MCO ← getOperand MI Info.MINo
        match MCO with
        | .expr e => emitFixup e Size false Buffer Offset Fixups
        | other => emitImm other Size Buffer Offset Fixups

/-! ## Recipe interpreter -/

/-- Local state of `encodeInstruction` together with the two outputs. -/
structure EmitState where
  Buffer : Nat
  Offset : Nat
  Bytes : Nat
  OS : List Nat
  Fixups : List MCFixup
  deriving DecidableEq, Repr

/-- The loop `while (Offset / 16)` with an iteration budget. -/
def flushLoop : Nat → EmitState → EmitState
  | 0, s => s
  | fuel + 1, s =>
    if s.Offset / 16 ≠ 0 then
      flushLoop fuel
        { s with
          OS := s.OS ++ [(s.Buffer >>> 8) &&& 0xFF, (s.Buffer >>> 0) &&& 0xFF]
          Buffer := s.Buffer >>> 16
          Offset := s.Offset - 16
          Bytes := s.Bytes + 2 }
    else s

/-- The word rotation loop; `Offset` iterations always suffice because every
iteration lowers `Offset` by 16. -/
def flush (s : EmitState) : EmitState := flushLoop s.Offset s

/-- Code shared by the three groups of `case` labels: add the returned bit
count to `Offset`, then rotate out the completed words. -/
def advance (s : EmitState) (Buffer bits : Nat) (Fixups : List MCFixup) : EmitState :=
  flush { s with Buffer := Buffer, Offset := s.Offset + bits, Fixups := Fixups }

/-- One iteration of the main loop on the non-zero bead `Bead`. -/
def beadStep (T : Target) (MI : MCInst) (Desc : MCInstrDesc) (s : EmitState) (Bead : Nat) :
    Except Fatal EmitState :=
  if Bead &&& 0xF = 0 ∧ Bead >>> 4 = T.Ignore then .ok s
  else
    match T.kindOf (Bead &&& 0xF) with
    | none => .error .unknownBead
    | some .Bits1 | some .Bits2 | some .Bits3 | some .Bits4 =>
      let r := EncodeBits T Bead s.Buffer s.Offset
      .ok (advance s r.2 r.1 s.Fixups)
    | some .DAReg | some .DA | some .Reg => do
      let r ← EncodeReg T Bead MI Desc s.Buffer s.Offset
      .ok (advance s r.2 r.1 s.Fixups)
    | some .Imm8 | some .Imm16 | some .Imm32 => do
      let r ← EncodeImm T Bead MI Desc s.Buffer s.Offset s.Fixups
      .ok (advance s r.2.1 r.1 r.2.2)

/-- The main loop `while (*Beads)`. `Beads` is the table memory from the recipe
pointer on, read through `const uint8_t *`; the end of the list stands for the
terminating zero byte. -/
def encodeLoop (T : Target) (MI : MCInst) (Desc : MCInstrDesc) :
    List Nat → EmitState → Except Fatal EmitState
  | [], s => .ok s
  | b :: rest, s =>
    if b % 256 = 0 then .ok s
    else do
      let s1 ← beadStep T MI Desc s (b % 256)
      encodeLoop T MI Desc rest s1

/-- The first byte of the recipe (`*Beads`). -/
def firstBead : List Nat → Nat
  | [] => 0
  | b :: _ => b % 256

/-- `encodeInstruction`: `Desc` is `MCII.get(Opcode)`, `Beads` is
`getGenInstrBeads(MI)`; returns the output stream and the fixup list. -/
def encodeInstruction (T : Target) (MI : MCInst) (Desc : MCInstrDesc) (Beads : List Nat)
    (OS : List Nat) (Fixups : List MCFixup) : Except Fatal (List Nat × List MCFixup) :=
  if firstBead Beads = 0 then .error .noBeads
  else do
    let s ← encodeLoop T MI Desc Beads ⟨0, 0, 0, OS, Fixups⟩
    if s.Offset ≠ 0 then .error .residualOffset
    else if ¬ (s.Bytes ≠ 0 ∧ s.Bytes % 2 = 0) then .error .byteCount
    else .ok (s.OS, s.Fixups)

/-- Enumerator values used for concrete runs: kinds 1 to 10 in the order of
the `case` labels, operand types from 8 on composite, type 9 PC-relative,
registers 0-7 data, 8-15 address, 16-23 with encodings 8-15. -/
def demoTarget : Target where
  kindOf := fun k =>
    match k with
    | 1 => some .Bits1
    | 2 => some .Bits2
    | 3 => some .Bits3
    | 4 => some .Bits4
    | 5 => some .DAReg
    | 6 => some .DA
    | 7 => some .Reg
    | 8 => some .Imm8
    | 9 => some .Imm16
    | 10 => some .Imm32
    | _ => none
  Ignore := 1
  MemBase := 1
  MemScale := 2
  MemDisp := 0
  MemOuter := 3
  isTargetType := fun t => decide (8 ≤ t)
  isPCRelOpd := fun t => decide (t = 9)
  getEncodingValue := fun r => r % 8 + (if 16 ≤ r then 8 else 0)
  isAddressRegister := fun r => decide (8 ≤ r ∧ r < 16)

/-! ## Operand shapes, specification-side definitions, invariants -/

/-- Shape of the slot an immediate bead names, with the operand-list entry
`EncodeImm` reads from it. -/
inductive ImmSlot where
  | plain (MCO : MCOperand)
  | pcRel (MCO : MCOperand)
  | composite (MCO : MCOperand)
  deriving DecidableEq, Repr

/-- The slot and operand `EncodeImm` reads for `Bead`: the entry `MINo` of a
plain slot, the displacement entry (the outer entry when bit 7 is set) of a
composite slot. `none` when the index or the entry does not exist. -/
def immSlot (T : Target) (MI : MCInst) (Desc : MCInstrDesc) (Bead : Nat) : Option ImmSlot :=
  match Desc.MIOpInfo[(Bead &&& 0x70) >>> 4]? with
  | none => none
  | some Info =>
    if T.isTargetType Info.OpType then
      match MI.Operands[Info.MINo + (if Alt Bead then T.MemOuter else T.MemDisp)]? with
      | none => none
      | some MCO => if T.isPCRelOpd Info.OpType then some (.pcRel MCO) else some (.composite MCO)
    else
      match MI.Operands[Info.MINo]? with
      | none => none
      | some MCO => some (.plain MCO)

/-- The constant an immediate bead encodes directly: an integer entry of a
plain slot (bit 7 clear) or of a composite slot that is not PC-relative. -/
def immConstant (T : Target) (MI : MCInst) (Desc : MCInstrDesc) (Bead : Nat) : Option Int :=
  match immSlot T MI Desc Bead with
  | some (.plain (.imm v)) => if Alt Bead then none else some v
  | some (.composite (.imm v)) => some v
  | _ => none

/-- Beads visited by the main loop: the bytes before the first zero byte. -/
def activeBeads : List Nat → List Nat
  | [] => []
  | b :: rest => if b % 256 = 0 then [] else (b % 256) :: activeBeads rest

namespace Spec

/-- Operand slot named by the 3-bit index in the high nibble of a bead. -/
def slot (Desc : MCInstrDesc) (Bead : Nat) : Option MIOperandInfo :=
  Desc.MIOpInfo[Bead / 16 % 8]?

/-- Alternate-slot flag: bit 7 of a bead. -/
def alt (Bead : Nat) : Bool := decide (Bead / 128 % 2 = 1)

/-- Register named by a register bead: the base entry of a composite slot (the
alternate entry when the flag is set), the only entry of a plain slot. -/
def regOf (T : Target) (MI : MCInst) (Desc : MCInstrDesc) (Bead : Nat) : Option Nat :=
  match slot Desc Bead with
  | none => none
  | some Info =>
    let idx :=
      if T.isTargetType Info.OpType ∧ 1 < Info.OpsNum then
        Info.MINo + (if alt Bead then T.MemScale else T.MemBase)
      else Info.MINo
    match MI.Operands[idx]? with
    | some (.reg r) => some r
    | _ => none

/-- Value named by an immediate bead: `some none` for a deferred field
(PC-relative composite slot, or plain slot holding an expression),
`some (some v)` for the constant `v` read as unsigned 64-bit. -/
def immOf (T : Target) (MI : MCInst) (Desc : MCInstrDesc) (Bead : Nat) : Option (Option Nat) :=
  match slot Desc Bead with
  | none => none
  | some Info =>
    if T.isTargetType Info.OpType then
      if T.isPCRelOpd Info.OpType then some none
      else
        match MI.Operands[Info.MINo + (if alt Bead then T.MemOuter else T.MemDisp)]? with
        | some (.imm v) => some (some (toU64 v))
        | _ => none
    else
      match MI.Operands[Info.MINo]? with
      | some (.imm v) => some (some (toU64 v))
      | some (.expr _) => some none
      | _ => none

/-- Fields of a register bead for the register `r`. -/
def regFields (T : Target) (r : Nat) : BeadKind → List (Nat × Nat)
  | .Reg => [(3, T.getEncodingValue r)]
  | .DA => [(1, if T.isAddressRegister r then 1 else 0)]
  | .DAReg => [(3, T.getEncodingValue r), (1, if T.isAddressRegister r then 1 else 0)]
  | _ => []

/-- Fields of an immediate bead: a deferred field is `w` zero bits, a 32-bit
constant is its high half followed by its low half. -/
def immFields (x : Option Nat) : BeadKind → List (Nat × Nat)
  | .Imm8 => [(8, x.getD 0)]
  | .Imm16 => [(16, x.getD 0)]
  | .Imm32 =>
    match x with
    | none => [(32, 0)]
    | some v => [(16, v / 2 ^ 16 % 2 ^ 16), (16, v % 2 ^ 16)]
  | _ => []

/-- Fields `(width, value)` a bead contributes, in the order they are placed. -/
def fields (T : Target) (MI : MCInst) (Desc : MCInstrDesc) (Bead : Nat) : List (Nat × Nat) :=
  match T.kindOf (Bead % 16) with
  | none => []
  | some .Bits1 => [(1, Bead / 16)]
  | some .Bits2 => [(2, Bead / 16)]
  | some .Bits3 => [(3, Bead / 16)]
  | some .Bits4 => [(4, Bead / 16)]
  | some .Reg => (regOf T MI Desc Bead).elim [] (fun r => regFields T r .Reg)
  | some .DA => (regOf T MI Desc Bead).elim [] (fun r => regFields T r .DA)
  | some .DAReg => (regOf T MI Desc Bead).elim [] (fun r => regFields T r .DAReg)
  | some .Imm8 => (immOf T MI Desc Bead).elim [] (fun x => immFields x .Imm8)
  | some .Imm16 => (immOf T MI Desc Bead).elim [] (fun x => immFields x .Imm16)
  | some .Imm32 => (immOf T MI Desc Bead).elim [] (fun x => immFields x .Imm32)

/-- Sum of the widths of a field list. -/
def width (fs : List (Nat × Nat)) : Nat := (fs.map Prod.fst).sum

/-- Concatenation of fields, least significant first: the first field sits at
bit `pos`, every later field right above its predecessor. -/
def concatAt : Nat → List (Nat × Nat) → Nat
  | _, [] => 0
  | pos, f :: fs => (f.2 <<< pos) + concatAt (pos + f.1) fs

/-- All fields of a recipe, in recipe order. -/
def recipeFields (T : Target) (MI : MCInst) (Desc : MCInstrDesc) (Beads : List Nat) :
    List (Nat × Nat) :=
  (activeBeads Beads).flatMap (fields T MI Desc)

/-- Bytes of the words `t = 0, ..., total / 16 - 1` of `N`: for each word the
byte `(N >> (16t+8)) & 0xFF` followed by `(N >> 16t) & 0xFF`. -/
def bytes (N total : Nat) : List Nat :=
  (List.range (total / 16)).flatMap
    (fun t => [(N >>> (16 * t + 8)) &&& 0xFF, (N >>> (16 * t)) &&& 0xFF])

/-- The two bytes of a 16-bit word, most significant first. -/
def wordBE (w : Nat) : List Nat := [(w >>> 8) &&& 0xFF, w &&& 0xFF]

/-- Bit count a bead returns: 1-4 for literals, 3/1/4 for the register modes,
8/16/32 for immediates, 0 for anything else (the ignore directive). -/
def beadBits (T : Target) (Bead : Nat) : Nat :=
  match T.kindOf (Bead % 16) with
  | some .Bits1 => 1
  | some .Bits2 => 2
  | some .Bits3 => 3
  | some .Bits4 => 4
  | some .Reg => 3
  | some .DA => 1
  | some .DAReg => 4
  | some .Imm8 => 8
  | some .Imm16 => 16
  | some .Imm32 => 32
  | none => 0

end Spec

/-- The bytes of the `k` lowest 16-bit words of `N`, each word high byte first. -/
def wordBytes : Nat → Nat → List Nat
  | 0, _ => []
  | k + 1, N => [(N >>> 8) &&& 0xFF, (N >>> 0) &&& 0xFF] ++ wordBytes k (N >>> 16)

/-- The state `s` of the main loop holds the `P` bits of `N`: the complete
words have been written after `OS0`, the rest is pending in the accumulator. -/
def Pending (OS0 : List Nat) (N P : Nat) (s : EmitState) : Prop :=
  s.Offset = P % 16 ∧ N < 2 ^ P ∧ s.Buffer = N >>> (16 * (P / 16)) ∧
    s.OS = OS0 ++ wordBytes (P / 16) N ∧ s.Bytes = 2 * (P / 16)

/-- Bit and byte accounting of the main loop after `P` bits. -/
def Counted (OS0 : List Nat) (P : Nat) (s : EmitState) : Prop :=
  s.Offset = P % 16 ∧ s.Bytes = 2 * (P / 16) ∧
    ∃ new, s.OS = OS0 ++ new ∧ new.length = 2 * (P / 16)

/-- Bit count of the beads the main loop visits. -/
def Spec.recipeBits (T : Target) (Beads : List Nat) : Nat :=
  ((activeBeads Beads).map (Spec.beadBits T)).sum

/-- The `case` group of the register kinds. -/
def BeadKind.isReg : BeadKind → Bool
  | .DAReg | .DA | .Reg => true
  | _ => false

/-- The `case` group of the immediate kinds. -/
def BeadKind.isImm : BeadKind → Bool
  | .Imm8 | .Imm16 | .Imm32 => true
  | _ => false

/-- The `case` group of the literal kinds, with the width each one stands for. -/
def BeadKind.litWidth : BeadKind → Option Nat
  | .Bits1 => some 1
  | .Bits2 => some 2
  | .Bits3 => some 3
  | .Bits4 => some 4
  | _ => none

namespace Spec

/-- Fixup of a bead: an immediate bead on a PC-relative slot of a target type
(relative kind; the constant expression of an integer entry, or the entry's
expression) or on a plain slot holding an expression (non-relative kind)
carries one fixup at byte offset 2; every other bead carries none. -/
def fixupOf (T : Target) (MI : MCInst) (Desc : MCInstrDesc) (Bead : Nat) : Option MCFixup :=
  match T.kindOf (Bead % 16) with
  | none => none
  | some kind =>
    if kind.isImm then
      match slot Desc Bead with
      | none => none
      | some Info =>
        if T.isTargetType Info.OpType then
          if T.isPCRelOpd Info.OpType then
            match MI.Operands[Info.MINo + T.MemDisp]? with
            | some (.imm v) => some ⟨2, .constant v, ⟨beadBits T Bead, true⟩⟩
            | some (.expr e) => some ⟨2, e, ⟨beadBits T Bead, true⟩⟩
            | _ => none
          else none
        else
          match MI.Operands[Info.MINo]? with
          | some (.expr e) => some ⟨2, e, ⟨beadBits T Bead, false⟩⟩
          | _ => none
    else none

/-- Fixups of a recipe, in recipe order. -/
def recipeFixups (T : Target) (MI : MCInst) (Desc : MCInstrDesc) (Beads : List Nat) :
    List MCFixup :=
  (activeBeads Beads).flatMap (fun b => (fixupOf T MI Desc b).toList)

end Spec

/-- Descriptor with two plain operand slots. -/
def demoDesc : MCInstrDesc := ⟨[⟨0, 0, 1⟩, ⟨1, 0, 1⟩]⟩

/-- Operand list of the example scenario: data register 3, constant `0x1234`. -/
def demoInst : MCInst := ⟨[.reg 3, .imm 0x1234]⟩

/-- The recipe of the example scenario: literal `0b0101` on 4 bits, register
code of operand 0, address flag of operand 0, 16-bit immediate of operand 1. -/
def demoRecipe : List Nat := [0x54, 0x07, 0x06, 0x19]

/-- The example recipe padded by an 8-bit literal zero to two full words. -/
def demoRecipe32 : List Nat := [0x54, 0x07, 0x06, 0x19, 0x04, 0x04]

/-- Operand list with a 32-bit constant as operand 1. -/
def demoInst32 : MCInst := ⟨[.reg 3, .imm 0x12345678]⟩

/-- Descriptor with one composite slot of two entries that is not PC-relative
(type 8). -/
def demoMemDesc : MCInstrDesc := ⟨[⟨0, 8, 2⟩]⟩

/-- Composite operand whose displacement entry is the symbol 7. -/
def demoMemSym : MCInst := ⟨[.expr (.symbol 7), .reg 9]⟩

/-- Descriptor with one PC-relative composite slot of two entries (type 9). -/
def demoPCDesc : MCInstrDesc := ⟨[⟨0, 9, 2⟩]⟩

/-- PC-relative operand whose displacement entry is the integer 6. -/
def demoPCImm : MCInst := ⟨[.imm 6, .reg 9]⟩

/-- Plain operand holding the symbol 7. -/
def demoSym : MCInst := ⟨[.expr (.symbol 7)]⟩

/-- Descriptor with one plain slot. -/
def demoDesc1 : MCInstrDesc := ⟨[⟨0, 0, 1⟩]⟩

/-- Plain register operand whose encoding value is 8 (register id 16). -/
def demoWide : MCInst := ⟨[.reg 16]⟩

/-- Operand list whose operand 1 is the 33-bit constant `2^32 + 0x12345678`. -/
def demoInst33 : MCInst := ⟨[.reg 3, .imm 0x112345678]⟩

/-- Descriptor with three plain operand slots. -/
def demoDesc3 : MCInstrDesc := ⟨[⟨0, 0, 1⟩, ⟨1, 0, 1⟩, ⟨2, 0, 1⟩]⟩

/-- Operand list for `demoDesc3`. -/
def demoInst3 : MCInst := ⟨[.reg 3, .reg 9, .imm 0x1234]⟩

/-- Descriptor whose slot 0 is of a target type that is not PC-relative (type 8)
and occupies a single operand-list entry; three plain slots follow. -/
def demoSingleDesc : MCInstrDesc := ⟨[⟨0, 8, 1⟩, ⟨1, 0, 1⟩, ⟨2, 0, 1⟩, ⟨3, 0, 1⟩]⟩

/-- Operand list for `demoSingleDesc`; entry 3 belongs to slot 3. -/
def demoSingleInst : MCInst := ⟨[.imm 1, .reg 3, .reg 4, .imm 0x1234]⟩

/-- Two plain operands holding the symbols 7 and 8. -/
def demoTwoSyms : MCInst := ⟨[.expr (.symbol 7), .expr (.symbol 8)]⟩

/-- Descriptor with one composite slot of three entries that is not PC-relative
(type 8): displacement, base register, scale register. -/
def demoIdxDesc : MCInstrDesc := ⟨[⟨0, 8, 3⟩]⟩

/-- Operand list for `demoIdxDesc`: displacement 4, base address register 13
(encoding 5), scale data register 2 (encoding 2). -/
def demoIdxInst : MCInst := ⟨[.imm 4, .reg 13, .reg 2]⟩

/-- Operand list whose operand 0 has the encoding value 8 (register id 16) and
whose operand 1 is the 32-bit constant `0x12345678`. -/
def demoWideInst32 : MCInst := ⟨[.reg 16, .imm 0x12345678]⟩

/-- Operand list whose operand 1 is the 8-bit constant `0x12`. -/
def demoInst8 : MCInst := ⟨[.reg 3, .imm 0x12]⟩

/-! ## Lemmas -/

theorem fitMask_eq (Size : Nat) (h : Size ≤ 64) :
    0xFFFFFFFFFFFFFFFF >>> (64 - Size) = 2 ^ Size - 1 := by
  interval_cases Size <;> rfl

theorem fits_iff (Val Size : Nat) (h : Size ≤ 64) :
    Val = Val &&& (0xFFFFFFFFFFFFFFFF >>> (64 - Size)) ↔ Val < 2 ^ Size := by
  rw [fitMask_eq Size h, Nat.and_pow_two_sub_one_eq_mod]
  constructor
  · intro h1
    rw [h1]
    exact Nat.mod_lt _ (Nat.two_pow_pos _)
  · intro h1
    exact (Nat.mod_eq_of_lt h1).symm

theorem or_shl_eq_add (B v off : Nat) (h : B < 2 ^ off) :
    B ||| (v <<< off) = B + 2 ^ off * v := by
  rw [Nat.shiftLeft_eq, Nat.lor_comm, Nat.mul_comm v, ← Nat.mul_add_lt_is_or h, Nat.add_comm]

theorem shl_lt (v off w n : Nat) (hv : v < 2 ^ w) (hn : off + w ≤ n) : v <<< off < 2 ^ n := by
  rw [Nat.shiftLeft_eq]
  calc v * 2 ^ off < 2 ^ w * 2 ^ off := Nat.mul_lt_mul_of_pos_right hv (Nat.two_pow_pos _)
    _ = 2 ^ (off + w) := by rw [← Nat.pow_add, Nat.add_comm]
    _ ≤ 2 ^ n := Nat.pow_le_pow_right (by decide) hn

theorem shlInt_eq (v off w : Nat) (hv : v < 2 ^ w) (h : off + w ≤ 31) :
    shlInt v off = v <<< off := by
  have h1 : v <<< off < 2 ^ 31 := shl_lt v off w 31 hv h
  have h2 : (v <<< off) % 2 ^ 32 = v <<< off := Nat.mod_eq_of_lt (by omega)
  simp only [shlInt, h2, h1, if_true]

theorem shlU32_eq (v off w : Nat) (hv : v < 2 ^ w) (h : off + w ≤ 32) :
    shlU32 v off = v <<< off :=
  Nat.mod_eq_of_lt (shl_lt v off w 32 hv h)

theorem shlU64_eq (v off w : Nat) (hv : v < 2 ^ w) (h : off + w ≤ 64) :
    shlU64 v off = v <<< off :=
  Nat.mod_eq_of_lt (shl_lt v off w 64 hv h)

theorem flushLoop_eq (fuel : Nat) (s : EmitState) (h : s.Offset / 16 ≤ fuel) :
    flushLoop fuel s =
      { Buffer := s.Buffer >>> (16 * (s.Offset / 16))
        Offset := s.Offset % 16
        Bytes := s.Bytes + 2 * (s.Offset / 16)
        OS := s.OS ++ wordBytes (s.Offset / 16) s.Buffer
        Fixups := s.Fixups } := by
  induction fuel generalizing s with
  | zero =>
    have h0 : s.Offset / 16 = 0 := by omega
    have h1 : s.Offset % 16 = s.Offset := by omega
    simp [flushLoop, h0, h1, wordBytes]
  | succ n ih =>
    by_cases h0 : s.Offset / 16 = 0
    · have h1 : s.Offset % 16 = s.Offset := by omega
      simp [flushLoop, h0, h1, wordBytes]
    · obtain ⟨j, hj⟩ : ∃ j, s.Offset / 16 = j + 1 := ⟨s.Offset / 16 - 1, by omega⟩
      have h2 : (s.Offset - 16) / 16 = j := by omega
      have h3 : (s.Offset - 16) % 16 = s.Offset % 16 := by omega
      rw [flushLoop, if_pos h0, ih _ (by simp only; omega)]
      simp only [h2, h3, hj, wordBytes, EmitState.mk.injEq, List.append_assoc, and_true, true_and]
      refine ⟨?_, by omega⟩
      rw [← Nat.shiftRight_add]
      congr 1
      omega

theorem flush_eq (s : EmitState) :
    flush s =
      { Buffer := s.Buffer >>> (16 * (s.Offset / 16))
        Offset := s.Offset % 16
        Bytes := s.Bytes + 2 * (s.Offset / 16)
        OS := s.OS ++ wordBytes (s.Offset / 16) s.Buffer
        Fixups := s.Fixups } :=
  flushLoop_eq s.Offset s (Nat.div_le_self _ _)

theorem and_15 (b : Nat) : b &&& 0xF = b % 16 := Nat.and_pow_two_sub_one_eq_mod b 4

set_option maxRecDepth 100000 in
theorem hiNibble (b : Nat) (h : b < 256) : (b &&& 0xF0) >>> 4 = b / 16 := by
  revert b; decide

set_option maxRecDepth 100000 in
theorem opIndex_eq (b : Nat) (h : b < 256) : (b &&& 0x70) >>> 4 = b / 16 % 8 := by
  revert b; decide

set_option maxRecDepth 100000 in
theorem altFlag_eq (b : Nat) (h : b < 256) : Alt b = Spec.alt b := by
  revert b; unfold Spec.alt Alt; decide

theorem EncodeBits_eq (T : Target) (Bead B O n : Nat) (hB : Bead < 256)
    (hv : Bead / 16 < 2 ^ n) (hn : n ≤ 4) (hO : O < 16) (hc : B < 2 ^ O) :
    (EncodeBits T Bead B O).2 = B + 2 ^ O * (Bead / 16) := by
  simp only [EncodeBits, hiNibble Bead hB]
  rw [shlInt_eq (Bead / 16) O n hv (by omega), or_shl_eq_add B _ O hc]

theorem bind_ok {ε α β : Type} {x : Except ε α} {f : α → Except ε β} {b : β}
    (h : (x >>= f) = .ok b) : ∃ a, x = .ok a ∧ f a = .ok b := by
  cases x with
  | error e => simp [bind, Except.bind] at h
  | ok a => exact ⟨a, rfl, h⟩

theorem getOperand_ok {MI : MCInst} {i : Nat} {MCO : MCOperand}
    (h : getOperand MI i = .ok MCO) : MI.Operands[i]? = some MCO := by
  unfold getOperand at h
  cases hq : MI.Operands[i]? with
  | none => simp [hq] at h
  | some x => simp [hq] at h; rw [h]

theorem getReg_ok {MCO : MCOperand} {r : Nat} (h : getReg MCO = .ok r) : MCO = .reg r := by
  cases MCO <;> simp [getReg] at h
  rw [h]

theorem getImm_ok {MCO : MCOperand} {v : Nat} (h : getImm MCO = .ok v) :
    ∃ i, MCO = .imm i ∧ v = toU64 i := by
  cases MCO <;> simp [getImm] at h
  exact ⟨_, rfl, h.symm⟩

theorem EncodeReg_ok (T : Target) (Bead : Nat) (MI : MCInst) (Desc : MCInstrDesc)
    (B O : Nat) (r : Nat × Nat) (hB : Bead < 256)
    (h : EncodeReg T Bead MI Desc B O = .ok r) :
    ∃ RegNum Reg DA, regMode T (Bead % 16) = some (Reg, DA) ∧
      Spec.regOf T MI Desc Bead = some RegNum ∧
      r = (if DA then (if Reg then 3 else 0) + 1 else (if Reg then 3 else 0),
           if DA then
             (if Reg then B ||| shlU32 (T.getEncodingValue RegNum % 2 ^ 16) O else B) |||
               shlInt (if T.isAddressRegister RegNum then 1 else 0) (if Reg then O + 3 else O)
           else (if Reg then B ||| shlU32 (T.getEncodingValue RegNum % 2 ^ 16) O else B)) := by
  unfold EncodeReg at h
  rw [and_15, opIndex_eq Bead hB, altFlag_eq Bead hB] at h
  cases hm : regMode T (Bead % 16) with
  | none => simp [hm] at h
  | some m =>
    obtain ⟨Reg, DA⟩ := m
    simp only [hm] at h
    cases hs : Desc.MIOpInfo[Bead / 16 % 8]? with
    | none => simp [hs] at h
    | some Info =>
      simp only [hs] at h
      obtain ⟨idx, hidx, h⟩ := bind_ok h
      obtain ⟨MCO, hMCO, h⟩ := bind_ok h
      obtain ⟨RegNum, hReg, h⟩ := bind_ok h
      have hop := getOperand_ok hMCO
      rw [getReg_ok hReg] at hop
      refine ⟨RegNum, Reg, DA, rfl, ?_, ?_⟩
      · unfold regOperandIndex at hidx
        simp only [Spec.regOf, Spec.slot, hs]
        by_cases hc : T.isTargetType Info.OpType = true ∧ Info.OpsNum > 1
        · rw [if_pos hc] at hidx
          have hc2 : T.isTargetType Info.OpType = true ∧ 1 < Info.OpsNum := hc
          injection hidx with hidx
          simp only [hc2, and_self, if_true]
          rw [hidx, hop]
        · rw [if_neg hc] at hidx
          have hc2 : ¬ (T.isTargetType Info.OpType = true ∧ 1 < Info.OpsNum) := hc
          by_cases ha : Spec.alt Bead = true
          · simp [ha] at hidx
          · simp only [ha] at hidx
            injection hidx with hidx
            simp only [hc2, if_false]
            rw [hidx, hop]
      · injection h with h
        exact h.symm

theorem EmitConstant_ok_iff (Val Size B O : Nat) (r : Nat × Nat) :
    EmitConstant Val Size B O = .ok r ↔
      Size ≠ 0 ∧ Size + O ≤ 64 ∧ Val < 2 ^ Size ∧ r = (Size, B ||| shlU64 Val O) := by
  unfold EmitConstant
  by_cases h0 : Size = 0
  · simp [h0]
  · by_cases h1 : Size + O ≤ 64
    · have h2 := fits_iff Val Size (by omega)
      by_cases h3 : Val < 2 ^ Size
      · have h4 := h2.mpr h3
        simp only [h0, h1, h3, if_false, not_true_eq_false, not_false_eq_true, ne_eq, true_and]
        rw [if_neg (by intro hn; exact hn h4)]
        constructor
        · intro h; injection h with h; exact h.symm
        · intro h; rw [h]
      · have h4 : ¬ (Val = Val &&& (0xFFFFFFFFFFFFFFFF >>> (64 - Size))) := fun hn => h3 (h2.mp hn)
        simp only [h0, h1, h3, if_false, not_true_eq_false, ne_eq, false_and, and_false, iff_false]
        rw [if_pos h4]
        simp
    · simp [h0, h1]

theorem shlU64_zero (O : Nat) : shlU64 0 O = 0 := by
  simp [shlU64]

theorem emitFixup_ok_iff (e : MCExpr) (Size : Nat) (rel : Bool) (B O : Nat)
    (F : List MCFixup) (r : Nat × Nat × List MCFixup) :
    emitFixup e Size rel B O F = .ok r ↔
      Size ≠ 0 ∧ Size + O ≤ 64 ∧ r = (Size, B, F ++ [⟨2, e, ⟨Size, rel⟩⟩]) := by
  unfold emitFixup
  constructor
  · intro h
    obtain ⟨a, ha, h⟩ := bind_ok h
    obtain ⟨h0, h1, _, h3⟩ := (EmitConstant_ok_iff _ _ _ _ _).mp ha
    rw [shlU64_zero, Nat.or_zero] at h3
    subst h3
    refine ⟨h0, h1, ?_⟩
    injection h with h
    rw [← h]
    rfl
  · rintro ⟨h0, h1, h2⟩
    have : EmitConstant 0 Size B O = .ok (Size, B) := by
      rw [EmitConstant_ok_iff]
      refine ⟨h0, h1, Nat.two_pow_pos _, ?_⟩
      rw [shlU64_zero, Nat.or_zero]
    rw [this, h2]
    rfl

theorem emitImm_ok (i : Int) (Size B O : Nat) (F : List MCFixup)
    (r : Nat × Nat × List MCFixup) (h : emitImm (.imm i) Size B O F = .ok r) :
    (Size = 32 ∧ O + 32 ≤ 64 ∧
      r = (32, (B ||| shlU64 ((toU64 i >>> 16) &&& 0xFFFF) O) |||
              shlU64 (toU64 i &&& 0xFFFF) (O + 16), F)) ∨
    (Size ≠ 32 ∧ Size ≠ 0 ∧ Size + O ≤ 64 ∧ toU64 i < 2 ^ Size ∧
      r = (Size, B ||| shlU64 (toU64 i) O, F)) := by
  unfold emitImm at h
  by_cases hs : Size = 32
  · left
    rw [if_pos hs] at h
    obtain ⟨v, hv, h⟩ := bind_ok h
    obtain ⟨a, ha, h⟩ := bind_ok h
    obtain ⟨b, hb, h⟩ := bind_ok h
    simp only [getImm] at hv
    injection hv with hv
    subst hv
    obtain ⟨_, h1, _, h3⟩ := (EmitConstant_ok_iff _ _ _ _ _).mp ha
    subst h3
    obtain ⟨_, h1', _, h3'⟩ := (EmitConstant_ok_iff _ _ _ _ _).mp hb
    subst h3'
    refine ⟨hs, by omega, ?_⟩
    injection h with h
    rw [← h, hs]
  · right
    rw [if_neg hs] at h
    obtain ⟨v, hv, h⟩ := bind_ok h
    obtain ⟨a, ha, h⟩ := bind_ok h
    simp only [getImm] at hv
    injection hv with hv
    subst hv
    obtain ⟨h0, h1, h2, h3⟩ := (EmitConstant_ok_iff _ _ _ _ _).mp ha
    subst h3
    refine ⟨hs, h0, h1, h2, ?_⟩
    injection h with h
    exact h.symm

theorem emitImm_kind (MCO : MCOperand) (Size B O : Nat) (F : List MCFixup)
    (r : Nat × Nat × List MCFixup) (h : emitImm MCO Size B O F = .ok r) :
    ∃ i, MCO = .imm i := by
  unfold emitImm at h
  by_cases hs : Size = 32
  · rw [if_pos hs] at h
    obtain ⟨v, hv, _⟩ := bind_ok h
    obtain ⟨i, hi, _⟩ := getImm_ok hv
    exact ⟨i, hi⟩
  · rw [if_neg hs] at h
    obtain ⟨v, hv, _⟩ := bind_ok h
    obtain ⟨i, hi, _⟩ := getImm_ok hv
    exact ⟨i, hi⟩

/-- What a successful `EncodeImm` did, in terms of the operand the bead names. -/
theorem EncodeImm_ok (T : Target) (Bead : Nat) (MI : MCInst) (Desc : MCInstrDesc)
    (B O : Nat) (F : List MCFixup) (r : Nat × Nat × List MCFixup) (hB : Bead < 256)
    (h : EncodeImm T Bead MI Desc B O F = .ok r) :
    (Spec.immOf T MI Desc Bead = some none ∧
      ∃ e rel, emitFixup e (immSize T (Bead % 16)) rel B O F = .ok r) ∨
    (∃ i, Spec.immOf T MI Desc Bead = some (some (toU64 i)) ∧
      emitImm (.imm i) (immSize T (Bead % 16)) B O F = .ok r) := by
  unfold EncodeImm at h
  rw [and_15, opIndex_eq Bead hB, altFlag_eq Bead hB] at h
  cases hs : Desc.MIOpInfo[Bead / 16 % 8]? with
  | none => simp [hs] at h
  | some Info =>
    simp only [hs] at h
    by_cases ht : T.isTargetType Info.OpType = true
    · rw [if_pos ht] at h
      obtain ⟨MCO, hMCO, h⟩ := bind_ok h
      have hop := getOperand_ok hMCO
      by_cases hp : T.isPCRelOpd Info.OpType = true
      · rw [if_pos hp] at h
        by_cases ha : Spec.alt Bead = true
        · simp [ha] at h
        · rw [if_neg ha] at h
          obtain ⟨e, _, h⟩ := bind_ok h
          left
          refine ⟨?_, e, true, h⟩
          simp [Spec.immOf, Spec.slot, hs, ht, hp]
      · rw [if_neg hp] at h
        obtain ⟨i, hi⟩ := emitImm_kind _ _ _ _ _ _ h
        subst hi
        right
        refine ⟨i, ?_, h⟩
        simp [Spec.immOf, Spec.slot, hs, ht, hp, hop]
    · rw [if_neg ht] at h
      by_cases ha : Spec.alt Bead = true
      · simp [ha] at h
      · rw [if_neg ha] at h
        obtain ⟨MCO, hMCO, h⟩ := bind_ok h
        have hop := getOperand_ok hMCO
        cases MCO with
        | expr e =>
          left
          refine ⟨?_, e, false, h⟩
          simp [Spec.immOf, Spec.slot, hs, ht, hop]
        | imm i =>
          right
          refine ⟨i, ?_, h⟩
          simp [Spec.immOf, Spec.slot, hs, ht, hop]
        | reg q =>
          obtain ⟨i, hi⟩ := emitImm_kind _ _ _ _ _ _ h
          cases hi

theorem add_field_lt (B v O w : Nat) (hB : B < 2 ^ O) (hv : v < 2 ^ w) :
    B + 2 ^ O * v < 2 ^ (O + w) := by
  have h1 : 2 ^ O * v + 2 ^ O ≤ 2 ^ O * 2 ^ w := by
    have : v + 1 ≤ 2 ^ w := hv
    calc 2 ^ O * v + 2 ^ O = 2 ^ O * (v + 1) := by ring
      _ ≤ 2 ^ O * 2 ^ w := Nat.mul_le_mul_left _ this
  rw [Nat.pow_add]
  omega

theorem flush_small (s : EmitState) (h : s.Offset < 16) : flush s = s := by
  rw [flush_eq]
  have h0 : s.Offset / 16 = 0 := by omega
  have h1 : s.Offset % 16 = s.Offset := by omega
  simp [h0, h1, wordBytes]

theorem and_65535 (v : Nat) : v &&& 0xFFFF = v % 2 ^ 16 := Nat.and_pow_two_sub_one_eq_mod v 16

theorem hiHalf (v : Nat) : (v >>> 16) &&& 0xFFFF = v / 2 ^ 16 % 2 ^ 16 := by
  rw [and_65535, Nat.shiftRight_eq_div_pow]

theorem reg_write (B O e : Nat) (hO : O < 16) (hc : B < 2 ^ O) (he : e < 2 ^ 3) :
    B ||| shlU32 (e % 2 ^ 16) O = B + 2 ^ O * e := by
  have h1 : e % 2 ^ 16 = e := Nat.mod_eq_of_lt (by omega)
  rw [h1, shlU32_eq e O 3 he (by omega), or_shl_eq_add B e O hc]

theorem flag_write (B O a : Nat) (hO : O < 19) (hc : B < 2 ^ O) (ha : a < 2 ^ 1) :
    B ||| shlInt a O = B + 2 ^ O * a := by
  rw [shlInt_eq a O 1 ha (by omega), or_shl_eq_add B a O hc]

theorem reg_flag_write (B O e a : Nat) (hO : O < 16) (hc : B < 2 ^ O) (he : e < 2 ^ 3)
    (ha : a < 2 ^ 1) :
    (B ||| shlU32 (e % 2 ^ 16) O) ||| shlInt a (O + 3) = B + 2 ^ O * (e + a <<< 3) := by
  rw [reg_write B O e hO hc he,
    flag_write _ (O + 3) a (by omega) (add_field_lt B e O 3 hc he) ha, Nat.shiftLeft_eq,
    Nat.pow_add]
  ring

theorem imm_write (B O v w : Nat) (hc : B < 2 ^ O) (hv : v < 2 ^ w) (hw : O + w ≤ 64) :
    B ||| shlU64 v O = B + 2 ^ O * v := by
  rw [shlU64_eq v O w hv hw, or_shl_eq_add B v O hc]

theorem imm32_write (B O v : Nat) (hO : O < 16) (hc : B < 2 ^ O) :
    (B ||| shlU64 ((v >>> 16) &&& 0xFFFF) O) ||| shlU64 (v &&& 0xFFFF) (O + 16) =
      B + 2 ^ O * (v / 2 ^ 16 % 2 ^ 16 + (v % 2 ^ 16) <<< 16) := by
  have h1 : v / 2 ^ 16 % 2 ^ 16 < 2 ^ 16 := Nat.mod_lt _ (Nat.two_pow_pos _)
  have h2 : v % 2 ^ 16 < 2 ^ 16 := Nat.mod_lt _ (Nat.two_pow_pos _)
  rw [hiHalf, and_65535, imm_write B O _ 16 hc h1 (by omega),
    imm_write _ (O + 16) _ 16 (add_field_lt B _ O 16 hc h1) h2 (by omega), Nat.shiftLeft_eq,
    Nat.pow_add]
  ring

/-- A successful bead step ORs the bead's fields above the pending bits and
rotates out the completed words. -/
theorem beadStep_fields (T : Target) (hT : T.WF) (MI : MCInst) (Desc : MCInstrDesc)
    (s s' : EmitState) (Bead : Nat) (hB : Bead < 256) (hO : s.Offset < 16)
    (hc : s.Buffer < 2 ^ s.Offset)
    (hfit : ∀ f ∈ Spec.fields T MI Desc Bead, f.2 < 2 ^ f.1)
    (h : beadStep T MI Desc s Bead = .ok s') :
    Spec.width (Spec.fields T MI Desc Bead) = Spec.beadBits T Bead ∧
    ∃ fx, s' = flush ⟨s.Buffer + 2 ^ s.Offset * Spec.concatAt 0 (Spec.fields T MI Desc Bead),
      s.Offset + Spec.width (Spec.fields T MI Desc Bead), s.Bytes, s.OS, fx⟩ := by
  unfold beadStep at h
  rw [and_15] at h
  by_cases hi : Bead % 16 = 0 ∧ Bead >>> 4 = T.Ignore
  · rw [if_pos hi] at h
    injection h with h
    subst h
    have hk : T.kindOf (Bead % 16) = none := by rw [hi.1]; exact hT
    simp only [Spec.fields, Spec.beadBits, hk, Spec.width, Spec.concatAt, List.map_nil,
      List.sum_nil, Nat.mul_zero, Nat.add_zero, true_and]
    exact ⟨s.Fixups, (flush_small s hO).symm⟩
  · rw [if_neg hi] at h
    cases hk : T.kindOf (Bead % 16) with
    | none => simp [hk] at h
    | some kind =>
      cases kind with
      | Bits1 | Bits2 | Bits3 | Bits4 =>
        simp only [hk] at h
        injection h with h
        simp only [Spec.fields, hk, List.mem_singleton, forall_eq] at hfit
        simp only [Spec.fields, Spec.beadBits, hk, Spec.width, Spec.concatAt, List.map_cons,
          List.map_nil, List.sum_cons, List.sum_nil, Nat.add_zero, Nat.shiftLeft_zero, true_and]
        refine ⟨s.Fixups, ?_⟩
        rw [← h, advance, EncodeBits_eq T Bead s.Buffer s.Offset _ hB hfit (by omega) hO hc]
        simp [EncodeBits, and_15, hk]
      | DAReg | DA | Reg =>
        simp only [hk] at h
        obtain ⟨r, hr, h⟩ := bind_ok h
        injection h with h
        obtain ⟨RegNum, Reg, DA, hm, hreg, hres⟩ := EncodeReg_ok T Bead MI Desc _ _ r hB hr
        simp only [regMode, hk, Option.some.injEq, Prod.mk.injEq] at hm
        obtain ⟨hm1, hm2⟩ := hm
        subst hm1 hm2
        simp only [Spec.fields, hk, hreg, Option.elim, Spec.regFields, List.mem_cons,
          List.mem_singleton, forall_eq_or_imp, forall_eq, List.not_mem_nil, false_imp_iff,
          implies_true, and_true] at hfit
        simp only [Spec.fields, Spec.beadBits, hk, hreg, Option.elim, Spec.regFields, Spec.width,
          Spec.concatAt, List.map_cons, List.map_nil, List.sum_cons, List.sum_nil, Nat.add_zero,
          Nat.shiftLeft_zero, Nat.zero_add, true_and]
        refine ⟨s.Fixups, ?_⟩
        rw [← h, advance, hres]
        first
          | simp only [if_true, reg_flag_write _ _ _ _ hO hc hfit.1 hfit.2]
          | simp only [if_true, if_false, Bool.false_eq_true, Nat.zero_add,
              flag_write _ _ _ (by omega) hc hfit]
          | simp only [if_true, if_false, Bool.false_eq_true, reg_write _ _ _ hO hc hfit]
      | Imm8 | Imm16 | Imm32 =>
        simp only [hk] at h
        obtain ⟨r, hr, h⟩ := bind_ok h
        injection h with h
        have hsz : immSize T (Bead % 16) = Spec.beadBits T Bead := by
          simp only [immSize, Spec.beadBits, hk]
        rcases EncodeImm_ok T Bead MI Desc _ _ _ r hB hr with ⟨himm, e, rel, hfx⟩ | ⟨i, himm, hem⟩
        · obtain ⟨_, _, hres⟩ := (emitFixup_ok_iff _ _ _ _ _ _ _).mp hfx
          simp only [immSize, hk] at hres
          simp only [Spec.fields, Spec.beadBits, hk, himm, Option.elim, Spec.immFields,
            Option.getD, Spec.width, Spec.concatAt, List.map_cons, List.map_nil, List.sum_cons,
            List.sum_nil, Nat.add_zero, Nat.zero_shiftLeft, Nat.mul_zero, true_and]
          refine ⟨r.2.2, ?_⟩
          rw [← h, advance, hres]
        · simp only [Spec.fields, hk, himm, Option.elim, Spec.immFields, Option.getD,
            List.mem_cons, List.mem_singleton, forall_eq_or_imp, forall_eq, List.not_mem_nil,
            false_imp_iff, implies_true, and_true] at hfit
          simp only [Spec.fields, Spec.beadBits, hk, himm, Option.elim, Spec.immFields,
            Option.getD, Spec.width, Spec.concatAt, List.map_cons, List.map_nil, List.sum_cons,
            List.sum_nil, Nat.add_zero, Nat.shiftLeft_zero, Nat.zero_add, true_and]
          refine ⟨s.Fixups, ?_⟩
          rcases emitImm_ok _ _ _ _ _ _ hem with ⟨h32, _, hres⟩ | ⟨hne, _, _, hv, hres⟩
          · simp only [immSize, hk] at h32
            first
              | omega
              | (rw [← h, advance, hres]
                 simp only [imm32_write _ _ _ hO hc])
          · have h32 : immSize T (Bead % 16) = 32 ∨ Spec.beadBits T Bead ≠ 32 := by
              simp only [immSize, Spec.beadBits, hk]
              decide
            rcases h32 with h32 | h32
            · exact absurd h32 hne
            · simp only [Spec.beadBits, hk] at h32
              first
                | omega
                | (simp only [immSize, hk] at hres hv
                   rw [← h, advance, hres]
                   simp only [imm_write _ _ _ _ hc hv (by omega)])

theorem wordBytes_add (p j M : Nat) :
    wordBytes (p + j) M = wordBytes p M ++ wordBytes j (M >>> (16 * p)) := by
  induction p generalizing M with
  | zero => simp [wordBytes]
  | succ n ih =>
    have h1 : n + 1 + j = (n + j) + 1 := by omega
    rw [h1, wordBytes, wordBytes, ih, ← Nat.shiftRight_add]
    have h2 : 16 + 16 * n = 16 * (n + 1) := by omega
    rw [h2, List.append_assoc]

theorem and_255 (v : Nat) : v &&& 0xFF = v % 2 ^ 8 := Nat.and_pow_two_sub_one_eq_mod v 8

theorem word_mod (M : Nat) :
    (M >>> 8) &&& 0xFF = M % 2 ^ 16 / 2 ^ 8 ∧ (M >>> 0) &&& 0xFF = M % 2 ^ 16 % 2 ^ 8 := by
  rw [and_255, and_255, Nat.shiftRight_eq_div_pow, Nat.shiftRight_zero]
  constructor <;> omega

theorem wordBytes_congr (k M M' : Nat) (h : M % 2 ^ (16 * k) = M' % 2 ^ (16 * k)) :
    wordBytes k M = wordBytes k M' := by
  induction k generalizing M M' with
  | zero => simp [wordBytes]
  | succ n ih =>
    have hp : 2 ^ (16 * (n + 1)) = 2 ^ 16 * 2 ^ (16 * n) := by
      rw [← Nat.pow_add]; congr 1; omega
    rw [hp] at h
    have h1 : M % 2 ^ 16 = M' % 2 ^ 16 := by
      have := congrArg (· % 2 ^ 16) h
      simpa [Nat.mod_mul_right_mod] using this
    have h2 : (M >>> 16) % 2 ^ (16 * n) = (M' >>> 16) % 2 ^ (16 * n) := by
      rw [Nat.shiftRight_eq_div_pow, Nat.shiftRight_eq_div_pow, ← Nat.mod_mul_right_div_self,
        ← Nat.mod_mul_right_div_self, h]
    rw [wordBytes, wordBytes, (word_mod M).1, (word_mod M).2, (word_mod M').1, (word_mod M').2,
      h1, ih _ _ h2]

theorem Spec.bytes_eq (N total : Nat) : Spec.bytes N total = wordBytes (total / 16) N := by
  unfold Spec.bytes
  generalize total / 16 = k
  induction k generalizing N with
  | zero => simp [wordBytes]
  | succ n ih =>
    rw [List.range_succ_eq_map, List.flatMap_cons, wordBytes]
    congr 1
    rw [← ih (N >>> 16), List.flatMap_map]
    congr 1
    funext t
    have e2 : 16 * (t + 1) = 16 + 16 * t := by omega
    simp only [Function.comp, ← Nat.shiftRight_add, Nat.succ_eq_add_one, e2, Nat.add_assoc]

theorem Spec.concatAt_shift (pos : Nat) (fs : List (Nat × Nat)) :
    Spec.concatAt pos fs = 2 ^ pos * Spec.concatAt 0 fs := by
  induction fs generalizing pos with
  | nil => simp [Spec.concatAt]
  | cons f fs ih =>
    rw [Spec.concatAt, Spec.concatAt, ih (pos + f.1), ih (0 + f.1), Nat.shiftLeft_eq,
      Nat.shiftLeft_eq, Nat.pow_add, Nat.zero_add]
    ring

theorem Spec.width_append (fs gs : List (Nat × Nat)) :
    Spec.width (fs ++ gs) = Spec.width fs + Spec.width gs := by
  simp [Spec.width]

theorem Spec.concatAt_append (fs gs : List (Nat × Nat)) :
    Spec.concatAt 0 (fs ++ gs) = Spec.concatAt 0 fs + 2 ^ Spec.width fs * Spec.concatAt 0 gs := by
  induction fs with
  | nil => simp [Spec.concatAt, Spec.width]
  | cons f fs ih =>
    rw [List.cons_append, Spec.concatAt, Spec.concatAt, Spec.concatAt_shift (0 + f.1),
      Spec.concatAt_shift (0 + f.1) fs, ih]
    simp only [Spec.width, List.map_cons, List.sum_cons, Nat.pow_add, Nat.zero_add]
    ring

theorem Spec.concatAt_lt (fs : List (Nat × Nat)) (h : ∀ f ∈ fs, f.2 < 2 ^ f.1) :
    Spec.concatAt 0 fs < 2 ^ Spec.width fs := by
  induction fs with
  | nil => simp [Spec.concatAt, Spec.width]
  | cons f fs ih =>
    have h1 := h f (List.mem_cons_self _ _)
    have h2 := ih (fun g hg => h g (List.mem_cons_of_mem _ hg))
    rw [Spec.concatAt, Spec.concatAt_shift, Nat.shiftLeft_zero, Nat.zero_add]
    have := add_field_lt f.2 (Spec.concatAt 0 fs) f.1 (Spec.width fs) h1 h2
    simpa [Spec.width] using this

theorem two_pow_split (P : Nat) : 2 ^ P = 2 ^ (16 * (P / 16)) * 2 ^ (P % 16) := by
  rw [← Nat.pow_add, Nat.div_add_mod]

theorem pending_clean {OS0 : List Nat} {N P : Nat} {s : EmitState} (h : Pending OS0 N P s) :
    s.Offset < 16 ∧ s.Buffer < 2 ^ s.Offset := by
  obtain ⟨h1, h2, h3, _, _⟩ := h
  refine ⟨by omega, ?_⟩
  rw [h3, h1, Nat.shiftRight_eq_div_pow]
  apply Nat.div_lt_of_lt_mul
  rw [← two_pow_split]
  exact h2

theorem pending_init (Fixups : List MCFixup) (OS0 : List Nat) :
    Pending OS0 0 0 ⟨0, 0, 0, OS0, Fixups⟩ := by
  simp [Pending, wordBytes]

theorem pending_step {OS0 : List Nat} {N P : Nat} {s : EmitState} (h : Pending OS0 N P s)
    (c w : Nat) (hcw : c < 2 ^ w) (fx : List MCFixup) :
    Pending OS0 (N + 2 ^ P * c) (P + w)
      (flush ⟨s.Buffer + 2 ^ s.Offset * c, s.Offset + w, s.Bytes, s.OS, fx⟩) := by
  obtain ⟨h1, h2, h3, h4, h5⟩ := h
  have hdiv : (P + w) / 16 = P / 16 + (P % 16 + w) / 16 := by omega
  have hbuf : s.Buffer + 2 ^ s.Offset * c = (N + 2 ^ P * c) >>> (16 * (P / 16)) := by
    rw [h3, h1, Nat.shiftRight_eq_div_pow, Nat.shiftRight_eq_div_pow]
    conv_rhs => rw [two_pow_split P, Nat.mul_assoc]
    rw [Nat.add_mul_div_left _ _ (Nat.two_pow_pos _)]
  rw [flush_eq]
  simp only [Pending]
  refine ⟨by rw [h1]; omega, add_field_lt N c P w h2 hcw, ?_, ?_, by rw [h5, h1, hdiv]; omega⟩
  · rw [hbuf, h1, hdiv, ← Nat.shiftRight_add, Nat.mul_add]
  · rw [hbuf, h4, h1, hdiv, wordBytes_add, List.append_assoc]
    congr 2
    apply wordBytes_congr
    have hp : 2 ^ P = 2 ^ (16 * (P / 16)) * 2 ^ (P % 16) := two_pow_split P
    rw [hp, Nat.mul_assoc, Nat.add_mul_mod_self_left]

theorem activeBeads_lt (Beads : List Nat) : ∀ b ∈ activeBeads Beads, b < 256 ∧ b ≠ 0 := by
  induction Beads with
  | nil => simp [activeBeads]
  | cons a rest ih =>
    intro b hb
    unfold activeBeads at hb
    by_cases h0 : a % 256 = 0
    · simp [h0] at hb
    · rw [if_neg h0] at hb
      rcases List.mem_cons.mp hb with h | h
      · subst h
        exact ⟨Nat.mod_lt _ (by decide), h0⟩
      · exact ih b h

theorem Spec.recipeFields_cons (T : Target) (MI : MCInst) (Desc : MCInstrDesc) (a : Nat)
    (rest : List Nat) (h0 : a % 256 ≠ 0) :
    Spec.recipeFields T MI Desc (a :: rest) =
      Spec.fields T MI Desc (a % 256) ++ Spec.recipeFields T MI Desc rest := by
  simp [Spec.recipeFields, activeBeads, h0]

theorem Spec.recipeFields_stop (T : Target) (MI : MCInst) (Desc : MCInstrDesc) (a : Nat)
    (rest : List Nat) (h0 : a % 256 = 0) :
    Spec.recipeFields T MI Desc (a :: rest) = [] := by
  simp [Spec.recipeFields, activeBeads, h0]

/-- The main loop appends the fields of the recipe to the pending bits. -/
theorem encodeLoop_pending (T : Target) (hT : T.WF) (MI : MCInst) (Desc : MCInstrDesc)
    (OS0 : List Nat) (Beads : List Nat) :
    ∀ (s s' : EmitState) (N P : Nat), Pending OS0 N P s →
      (∀ b ∈ activeBeads Beads, ∀ f ∈ Spec.fields T MI Desc b, f.2 < 2 ^ f.1) →
      encodeLoop T MI Desc Beads s = .ok s' →
      Pending OS0 (N + 2 ^ P * Spec.concatAt 0 (Spec.recipeFields T MI Desc Beads))
        (P + Spec.width (Spec.recipeFields T MI Desc Beads)) s' := by
  induction Beads with
  | nil =>
    intro s s' N P hp _ h
    simp only [encodeLoop] at h
    injection h with h
    subst h
    simpa [Spec.recipeFields, activeBeads, Spec.concatAt, Spec.width] using hp
  | cons a rest ih =>
    intro s s' N P hp hfit h
    unfold encodeLoop at h
    by_cases h0 : a % 256 = 0
    · rw [if_pos h0] at h
      injection h with h
      subst h
      rw [Spec.recipeFields_stop T MI Desc a rest h0]
      simpa [Spec.concatAt, Spec.width] using hp
    · rw [if_neg h0] at h
      obtain ⟨s1, hs1, h⟩ := bind_ok h
      have hact : activeBeads (a :: rest) = (a % 256) :: activeBeads rest := by
        simp [activeBeads, h0]
      have hfa : ∀ f ∈ Spec.fields T MI Desc (a % 256), f.2 < 2 ^ f.1 :=
        hfit _ (by rw [hact]; exact List.mem_cons_self _ _)
      have hfr : ∀ b ∈ activeBeads rest, ∀ f ∈ Spec.fields T MI Desc b, f.2 < 2 ^ f.1 :=
        fun b hb => hfit b (by rw [hact]; exact List.mem_cons_of_mem _ hb)
      obtain ⟨_, fx, hstep⟩ := beadStep_fields T hT MI Desc s s1 (a % 256)
        (Nat.mod_lt _ (by decide)) (pending_clean hp).1 (pending_clean hp).2 hfa hs1
      have hp1 := pending_step hp _ _ (Spec.concatAt_lt _ hfa) fx
      rw [← hstep] at hp1
      have := ih s1 s' _ _ hp1 hfr h
      rw [Spec.recipeFields_cons T MI Desc a rest h0, Spec.concatAt_append, Spec.width_append]
      have e : N + 2 ^ P * (Spec.concatAt 0 (Spec.fields T MI Desc (a % 256)) +
            2 ^ Spec.width (Spec.fields T MI Desc (a % 256)) *
              Spec.concatAt 0 (Spec.recipeFields T MI Desc rest)) =
          N + 2 ^ P * Spec.concatAt 0 (Spec.fields T MI Desc (a % 256)) +
            2 ^ (P + Spec.width (Spec.fields T MI Desc (a % 256))) *
              Spec.concatAt 0 (Spec.recipeFields T MI Desc rest) := by
        rw [Nat.pow_add]; ring
      rw [e, ← Nat.add_assoc]
      exact this

theorem firstBead_ne_zero (T : Target) (MI : MCInst) (Desc : MCInstrDesc) (Beads : List Nat)
    (h : Spec.recipeFields T MI Desc Beads ≠ []) : firstBead Beads ≠ 0 := by
  cases Beads with
  | nil => simp [Spec.recipeFields, activeBeads] at h
  | cons a rest =>
    intro h0
    exact h (Spec.recipeFields_stop T MI Desc a rest h0)

theorem wordBytes_length (k N : Nat) : (wordBytes k N).length = 2 * k := by
  induction k generalizing N with
  | zero => simp [wordBytes]
  | succ n ih =>
    rw [wordBytes, List.length_append, ih]
    simp only [List.length_cons, List.length_nil]
    omega

/-- A successful bead step advances the bit offset by the bead's bit count and
rotates out the completed words. -/
theorem beadStep_bits (T : Target) (hT : T.WF) (MI : MCInst) (Desc : MCInstrDesc)
    (s s' : EmitState) (Bead : Nat) (hB : Bead < 256) (hO : s.Offset < 16)
    (h : beadStep T MI Desc s Bead = .ok s') :
    ∃ B fx, s' = flush ⟨B, s.Offset + Spec.beadBits T Bead, s.Bytes, s.OS, fx⟩ := by
  unfold beadStep at h
  rw [and_15] at h
  by_cases hi : Bead % 16 = 0 ∧ Bead >>> 4 = T.Ignore
  · rw [if_pos hi] at h
    injection h with h
    subst h
    have hk : T.kindOf (Bead % 16) = none := by rw [hi.1]; exact hT
    simp only [Spec.beadBits, hk, Nat.add_zero]
    exact ⟨s.Buffer, s.Fixups, (flush_small s hO).symm⟩
  · rw [if_neg hi] at h
    cases hk : T.kindOf (Bead % 16) with
    | none => simp [hk] at h
    | some kind =>
      cases kind with
      | Bits1 | Bits2 | Bits3 | Bits4 =>
        simp only [hk] at h
        injection h with h
        refine ⟨(EncodeBits T Bead s.Buffer s.Offset).2, s.Fixups, ?_⟩
        rw [← h, advance]
        simp [EncodeBits, Spec.beadBits, and_15, hk]
      | DAReg | DA | Reg =>
        simp only [hk] at h
        obtain ⟨r, hr, h⟩ := bind_ok h
        injection h with h
        obtain ⟨RegNum, Reg, DA, hm, _, hres⟩ := EncodeReg_ok T Bead MI Desc _ _ r hB hr
        simp only [regMode, hk, Option.some.injEq, Prod.mk.injEq] at hm
        obtain ⟨hm1, hm2⟩ := hm
        subst hm1 hm2
        refine ⟨r.2, s.Fixups, ?_⟩
        rw [← h, advance, hres]
        simp [Spec.beadBits, hk]
      | Imm8 | Imm16 | Imm32 =>
        simp only [hk] at h
        obtain ⟨r, hr, h⟩ := bind_ok h
        injection h with h
        have hsz : immSize T (Bead % 16) = Spec.beadBits T Bead := by
          simp only [immSize, Spec.beadBits, hk]
        refine ⟨r.2.1, r.2.2, ?_⟩
        rw [← h, advance]
        have hr1 : r.1 = Spec.beadBits T Bead := by
          rcases EncodeImm_ok T Bead MI Desc _ _ _ r hB hr with ⟨_, e, rel, hfx⟩ | ⟨i, _, hem⟩
          · obtain ⟨_, _, hres⟩ := (emitFixup_ok_iff _ _ _ _ _ _ _).mp hfx
            rw [hres, hsz]
          · rcases emitImm_ok _ _ _ _ _ _ hem with ⟨h32, _, hres⟩ | ⟨_, _, _, _, hres⟩
            · rw [hres, ← hsz, h32]
            · rw [hres, hsz]
        rw [hr1]

theorem counted_step {OS0 : List Nat} {P : Nat} {s : EmitState} (h : Counted OS0 P s)
    (B w : Nat) (fx : List MCFixup) :
    Counted OS0 (P + w) (flush ⟨B, s.Offset + w, s.Bytes, s.OS, fx⟩) := by
  obtain ⟨h1, h2, new, h3, h4⟩ := h
  have hdiv : (P + w) / 16 = P / 16 + (P % 16 + w) / 16 := by omega
  rw [flush_eq]
  refine ⟨by simp only; omega, by simp only; omega, new ++ wordBytes ((s.Offset + w) / 16) B, ?_, ?_⟩
  · simp only [h3, List.append_assoc]
  · rw [List.length_append, wordBytes_length, h4, h1]
    omega

theorem encodeLoop_counted (T : Target) (hT : T.WF) (MI : MCInst) (Desc : MCInstrDesc)
    (OS0 : List Nat) (Beads : List Nat) :
    ∀ (s s' : EmitState) (P : Nat), Counted OS0 P s →
      encodeLoop T MI Desc Beads s = .ok s' →
      Counted OS0 (P + Spec.recipeBits T Beads) s' := by
  induction Beads with
  | nil =>
    intro s s' P hp h
    simp only [encodeLoop] at h
    injection h with h
    subst h
    simpa [Spec.recipeBits, activeBeads] using hp
  | cons a rest ih =>
    intro s s' P hp h
    unfold encodeLoop at h
    by_cases h0 : a % 256 = 0
    · rw [if_pos h0] at h
      injection h with h
      subst h
      simpa [Spec.recipeBits, activeBeads, h0] using hp
    · rw [if_neg h0] at h
      obtain ⟨s1, hs1, h⟩ := bind_ok h
      obtain ⟨B, fx, hstep⟩ := beadStep_bits T hT MI Desc s s1 (a % 256)
        (Nat.mod_lt _ (by decide)) (by have := hp.1; omega) hs1
      have hp1 := counted_step hp B (Spec.beadBits T (a % 256)) fx
      rw [← hstep] at hp1
      have := ih s1 s' _ hp1 h
      have e : Spec.recipeBits T (a :: rest) =
          Spec.beadBits T (a % 256) + Spec.recipeBits T rest := by
        simp [Spec.recipeBits, activeBeads, h0]
      rw [e, ← Nat.add_assoc]
      exact this

theorem getOperand_eq {MI : MCInst} {i : Nat} {MCO : MCOperand}
    (h : MI.Operands[i]? = some MCO) : getOperand MI i = .ok MCO := by
  simp [getOperand, h]

theorem immSlot_some {T : Target} {MI : MCInst} {Desc : MCInstrDesc} {Bead : Nat} {sl : ImmSlot}
    (h : immSlot T MI Desc Bead = some sl) :
    ∃ Info, Desc.MIOpInfo[(Bead &&& 0x70) >>> 4]? = some Info ∧
      ((T.isTargetType Info.OpType = true ∧ T.isPCRelOpd Info.OpType = true ∧ ∃ MCO,
          sl = .pcRel MCO ∧
          MI.Operands[Info.MINo + (if Alt Bead then T.MemOuter else T.MemDisp)]? =
            some MCO) ∨
       (T.isTargetType Info.OpType = true ∧ T.isPCRelOpd Info.OpType = false ∧ ∃ MCO,
          sl = .composite MCO ∧
          MI.Operands[Info.MINo + (if Alt Bead then T.MemOuter else T.MemDisp)]? =
            some MCO) ∨
       (T.isTargetType Info.OpType = false ∧ ∃ MCO, sl = .plain MCO ∧
          MI.Operands[Info.MINo]? = some MCO)) := by
  unfold immSlot at h
  cases hs : Desc.MIOpInfo[(Bead &&& 0x70) >>> 4]? with
  | none => simp [hs] at h
  | some Info =>
    simp only [hs] at h
    refine ⟨Info, rfl, ?_⟩
    by_cases ht : T.isTargetType Info.OpType = true
    · rw [if_pos ht] at h
      cases ho : MI.Operands[Info.MINo + (if Alt Bead then T.MemOuter else T.MemDisp)]? with
      | none => simp [ho] at h
      | some MCO =>
        simp only [ho] at h
        by_cases hp : T.isPCRelOpd Info.OpType = true
        · rw [if_pos hp] at h
          injection h with h
          exact Or.inl ⟨ht, hp, MCO, h.symm, rfl⟩
        · rw [if_neg hp] at h
          injection h with h
          exact Or.inr (Or.inl ⟨ht, by simpa using hp, MCO, h.symm, rfl⟩)
    · rw [if_neg ht] at h
      cases ho : MI.Operands[Info.MINo]? with
      | none => simp [ho] at h
      | some MCO =>
        simp only [ho] at h
        injection h with h
        exact Or.inr (Or.inr ⟨by simpa using ht, MCO, h.symm, rfl⟩)

/-- `EncodeImm` on a PC-relative composite slot, bit 7 clear. -/
theorem EncodeImm_pcRel (T : Target) (Bead : Nat) (MI : MCInst) (Desc : MCInstrDesc)
    (B O : Nat) (F : List MCFixup) (MCO : MCOperand)
    (hs : immSlot T MI Desc Bead = some (.pcRel MCO)) (ha : Alt Bead = false) :
    EncodeImm T Bead MI Desc B O F =
      pcRelExpr MCO >>= fun Expr => emitFixup Expr (immSize T (Bead &&& 0xF)) true B O F := by
  obtain ⟨Info, hI, h⟩ := immSlot_some hs
  rcases h with ⟨ht, hp, M, hM, ho⟩ | ⟨_, _, M, hM, _⟩ | ⟨_, M, hM, _⟩
  · injection hM with hM
    subst hM
    simp only [ha, Bool.false_eq_true, if_false] at ho
    simp [EncodeImm, hI, ht, hp, ha, getOperand_eq ho, bind, Except.bind]
  · cases hM
  · cases hM

/-- `EncodeImm` on a plain slot holding an integer, bit 7 clear. -/
theorem EncodeImm_plain_imm (T : Target) (Bead : Nat) (MI : MCInst) (Desc : MCInstrDesc)
    (B O : Nat) (F : List MCFixup) (v : Int)
    (hs : immSlot T MI Desc Bead = some (.plain (.imm v))) (ha : Alt Bead = false) :
    EncodeImm T Bead MI Desc B O F = emitImm (.imm v) (immSize T (Bead &&& 0xF)) B O F := by
  obtain ⟨Info, hI, h⟩ := immSlot_some hs
  rcases h with ⟨_, _, M, hM, _⟩ | ⟨_, _, M, hM, _⟩ | ⟨ht, M, hM, ho⟩
  · cases hM
  · cases hM
  · injection hM with hM
    subst hM
    simp [EncodeImm, hI, ht, ha, getOperand_eq ho, bind, Except.bind]

/-- `EncodeImm` on a composite slot that is not PC-relative. -/
theorem EncodeImm_composite (T : Target) (Bead : Nat) (MI : MCInst) (Desc : MCInstrDesc)
    (B O : Nat) (F : List MCFixup) (MCO : MCOperand)
    (hs : immSlot T MI Desc Bead = some (.composite MCO)) :
    EncodeImm T Bead MI Desc B O F = emitImm MCO (immSize T (Bead &&& 0xF)) B O F := by
  obtain ⟨Info, hI, h⟩ := immSlot_some hs
  rcases h with ⟨_, _, M, hM, _⟩ | ⟨ht, hp, M, hM, ho⟩ | ⟨_, M, hM, _⟩
  · cases hM
  · injection hM with hM
    subst hM
    simp [EncodeImm, hI, ht, hp, getOperand_eq ho, bind, Except.bind]
  · cases hM

/-- `EncodeImm` on a constant operand runs the constant tail. -/
theorem EncodeImm_constant (T : Target) (Bead : Nat) (MI : MCInst) (Desc : MCInstrDesc)
    (B O : Nat) (F : List MCFixup) (v : Int) (hc : immConstant T MI Desc Bead = some v) :
    EncodeImm T Bead MI Desc B O F = emitImm (.imm v) (immSize T (Bead &&& 0xF)) B O F := by
  unfold immConstant at hc
  cases hs : immSlot T MI Desc Bead with
  | none => simp [hs] at hc
  | some sl =>
    rw [hs] at hc
    cases sl with
    | plain MCO =>
      cases MCO with
      | imm w =>
        cases ha : Alt Bead with
        | true => simp [ha] at hc
        | false =>
          simp [ha] at hc
          subst hc
          exact EncodeImm_plain_imm T Bead MI Desc B O F _ hs ha
      | reg r => simp at hc
      | expr e => simp at hc
    | pcRel MCO => simp at hc
    | composite MCO =>
      cases MCO with
      | imm w =>
        simp at hc
        subst hc
        exact EncodeImm_composite T Bead MI Desc B O F _ hs
      | reg r => simp at hc
      | expr e => simp at hc
theorem EmitConstant_eq (Val Size B O : Nat) (h0 : Size ≠ 0) (h1 : Size + O ≤ 64) :
    EmitConstant Val Size B O =
      if Val < 2 ^ Size then .ok (Size, B ||| shlU64 Val O) else .error .valueFit := by
  have h2 := fits_iff Val Size (by omega)
  unfold EmitConstant
  rw [if_neg h0, if_neg (not_not.mpr h1)]
  by_cases h3 : Val < 2 ^ Size
  · rw [if_neg (not_not.mpr (h2.mpr h3)), if_pos h3]
  · rw [if_pos (fun hn => h3 (h2.mp hn)), if_neg h3]

theorem emitImm32_eq (v : Int) (B O : Nat) (F : List MCFixup) (hO : O ≤ 32) :
    emitImm (.imm v) 32 B O F =
      .ok (32, B ||| (((toU64 v >>> 16) &&& 0xFFFF) <<< O) |||
        ((toU64 v &&& 0xFFFF) <<< (O + 16)), F) := by
  have hhi : (toU64 v >>> 16) &&& 0xFFFF < 2 ^ 16 := by
    rw [and_65535]; exact Nat.mod_lt _ (Nat.two_pow_pos _)
  have hlo : toU64 v &&& 0xFFFF < 2 ^ 16 := by
    rw [and_65535]; exact Nat.mod_lt _ (Nat.two_pow_pos _)
  have e1 := EmitConstant_eq ((toU64 v >>> 16) &&& 0xFFFF) 16 B O (by decide) (by omega)
  rw [if_pos hhi, shlU64_eq _ O 16 hhi (by omega)] at e1
  have e2 := EmitConstant_eq (toU64 v &&& 0xFFFF) 16
    (B ||| (((toU64 v >>> 16) &&& 0xFFFF) <<< O)) (O + 16) (by decide) (by omega)
  rw [if_pos hlo, shlU64_eq _ (O + 16) 16 hlo (by omega)] at e2
  simp only [emitImm, getImm, bind, Except.bind, if_true, e1, e2]

theorem emitImm_small_eq (v : Int) (Size B O : Nat) (F : List MCFixup) (h32 : Size ≠ 32)
    (h0 : Size ≠ 0) (h1 : Size + O ≤ 64) :
    emitImm (.imm v) Size B O F =
      if toU64 v < 2 ^ Size then .ok (Size, B ||| (toU64 v <<< O), F)
      else .error .valueFit := by
  have e1 := EmitConstant_eq (toU64 v) Size B O h0 h1
  simp only [emitImm, if_neg h32, getImm, bind, Except.bind, e1]
  by_cases h3 : toU64 v < 2 ^ Size
  · simp only [if_pos h3, shlU64_eq _ O Size h3 (by omega)]
  · simp only [if_neg h3]

theorem emitFixup_eq (e : MCExpr) (Size : Nat) (rel : Bool) (B O : Nat) (F : List MCFixup)
    (h0 : Size ≠ 0) (h1 : Size + O ≤ 64) :
    emitFixup e Size rel B O F = .ok (Size, B, F ++ [⟨2, e, getFixupForSize Size rel⟩]) :=
  (emitFixup_ok_iff e Size rel B O F _).mpr ⟨h0, h1, rfl⟩

theorem not_ignore (T : Target) (hT : T.WF) (Bead : Nat) (k : BeadKind)
    (hk : T.kindOf (Bead &&& 0xF) = some k) : ¬ (Bead &&& 0xF = 0 ∧ Bead >>> 4 = T.Ignore) := by
  rintro ⟨h0, _⟩
  rw [h0, hT] at hk
  cases hk

theorem two_words (hi lo : Nat) (hhi : hi < 2 ^ 16) (hlo : lo < 2 ^ 16) :
    wordBytes 2 (0 ||| (hi <<< 0) ||| (lo <<< (0 + 16))) = Spec.wordBE hi ++ Spec.wordBE lo ∧
      (0 ||| (hi <<< 0) ||| (lo <<< (0 + 16))) >>> 32 = 0 := by
  have e : 0 ||| (hi <<< 0) ||| (lo <<< (0 + 16)) = hi + 2 ^ 16 * lo := by
    rw [Nat.zero_or, Nat.shiftLeft_zero, Nat.zero_add, or_shl_eq_add _ _ 16 hhi]
  rw [e]
  simp only [wordBytes, Spec.wordBE, and_255, Nat.shiftRight_eq_div_pow, List.cons_append,
    List.nil_append, List.append_nil, List.cons.injEq, and_true, Nat.pow_zero, Nat.div_one]
  refine ⟨⟨?_, ?_, ?_, ?_⟩, ?_⟩ <;> omega
/-- `EncodeReg` on a resolved register operand. -/
theorem EncodeReg_eq (T : Target) (Bead : Nat) (MI : MCInst) (Desc : MCInstrDesc)
    (B O : Nat) (Reg DA : Bool) (Info : MIOperandInfo) (idx r : Nat)
    (hm : regMode T (Bead &&& 0xF) = some (Reg, DA))
    (hI : Desc.MIOpInfo[(Bead &&& 0x70) >>> 4]? = some Info)
    (hidx : regOperandIndex T Info (Alt Bead) = .ok idx)
    (ho : MI.Operands[idx]? = some (.reg r)) :
    EncodeReg T Bead MI Desc B O =
      .ok (if DA then (if Reg then 3 else 0) + 1 else (if Reg then 3 else 0),
           if DA then
             (if Reg then B ||| shlU32 (T.getEncodingValue r % 2 ^ 16) O else B) |||
               shlInt (if T.isAddressRegister r then 1 else 0) (if Reg then O + 3 else O)
           else (if Reg then B ||| shlU32 (T.getEncodingValue r % 2 ^ 16) O else B)) := by
  simp only [EncodeReg, hm, hI, hidx, getOperand_eq ho, getReg, bind, Except.bind]

theorem regOperandIndex_plain (T : Target) (Info : MIOperandInfo)
    (h : T.isTargetType Info.OpType = false) :
    regOperandIndex T Info false = .ok Info.MINo := by
  simp [regOperandIndex, h]

theorem encodeLoop_cons (T : Target) (hT : T.WF) (MI : MCInst) (Desc : MCInstrDesc)
    (b : Nat) (rest : List Nat) (s : EmitState) (k : BeadKind) (hb : b < 256)
    (hk : T.kindOf (b &&& 0xF) = some k) :
    encodeLoop T MI Desc (b :: rest) s =
      beadStep T MI Desc s b >>= encodeLoop T MI Desc rest := by
  have hmod : b % 256 = b := Nat.mod_eq_of_lt hb
  have hne : b ≠ 0 := by
    intro h0
    rw [h0] at hk
    have : T.kindOf 0 = none := hT
    rw [show (0 &&& 0xF) = 0 from rfl, this] at hk
    cases hk
  rw [encodeLoop, hmod, if_neg hne]

/-- The loop iteration of a register bead. -/
theorem beadStep_reg (T : Target) (hT : T.WF) (MI : MCInst) (Desc : MCInstrDesc)
    (s : EmitState) (Bead : Nat) (k : BeadKind) (hk : T.kindOf (Bead &&& 0xF) = some k)
    (hk3 : k = .DAReg ∨ k = .DA ∨ k = .Reg) :
    beadStep T MI Desc s Bead =
      EncodeReg T Bead MI Desc s.Buffer s.Offset >>= fun r =>
        .ok (advance s r.2 r.1 s.Fixups) := by
  unfold beadStep
  rw [if_neg (not_ignore T hT Bead _ hk)]
  rcases hk3 with h | h | h <;> subst h <;> simp only [hk]

/-- The loop iteration of a literal bead. -/
theorem beadStep_lit (T : Target) (hT : T.WF) (MI : MCInst) (Desc : MCInstrDesc)
    (s : EmitState) (Bead : Nat) (k : BeadKind) (hk : T.kindOf (Bead &&& 0xF) = some k)
    (hk4 : k = .Bits1 ∨ k = .Bits2 ∨ k = .Bits3 ∨ k = .Bits4) :
    beadStep T MI Desc s Bead =
      .ok (advance s (EncodeBits T Bead s.Buffer s.Offset).2
        (EncodeBits T Bead s.Buffer s.Offset).1 s.Fixups) := by
  unfold beadStep
  rw [if_neg (not_ignore T hT Bead _ hk)]
  rcases hk4 with h | h | h | h <;> subst h <;> simp only [hk]

/-- The loop iteration of an immediate bead. -/
theorem beadStep_imm (T : Target) (hT : T.WF) (MI : MCInst) (Desc : MCInstrDesc)
    (s : EmitState) (Bead : Nat) (k : BeadKind) (hk : T.kindOf (Bead &&& 0xF) = some k)
    (hk3 : k = .Imm8 ∨ k = .Imm16 ∨ k = .Imm32) :
    beadStep T MI Desc s Bead =
      EncodeImm T Bead MI Desc s.Buffer s.Offset s.Fixups >>= fun r =>
        .ok (advance s r.2.1 r.1 r.2.2) := by
  unfold beadStep
  rw [if_neg (not_ignore T hT Bead _ hk)]
  rcases hk3 with h | h | h <;> subst h <;> simp only [hk]

theorem encodeLoop_append (T : Target) (MI : MCInst) (Desc : MCInstrDesc)
    (pre rest : List Nat) (s : EmitState) (h : ∀ b ∈ pre, b % 256 ≠ 0) :
    encodeLoop T MI Desc (pre ++ rest) s =
      encodeLoop T MI Desc pre s >>= encodeLoop T MI Desc rest := by
  induction pre generalizing s with
  | nil => simp [encodeLoop, bind, Except.bind]
  | cons b pre ih =>
    have hb : b % 256 ≠ 0 := h b (List.mem_cons_self _ _)
    have hp : ∀ c ∈ pre, c % 256 ≠ 0 := fun c hc => h c (List.mem_cons_of_mem _ hc)
    rw [List.cons_append, encodeLoop, encodeLoop, if_neg hb, if_neg hb]
    cases hs : beadStep T MI Desc s (b % 256) with
    | error e => simp [bind, Except.bind]
    | ok s1 =>
      simp only [bind, Except.bind]
      exact ih s1 hp

theorem regMode_of_kind (T : Target) (k : Nat) (kind : BeadKind) (hk : T.kindOf k = some kind)
    (hr : kind.isReg = true) : ∃ m, regMode T k = some m := by
  cases kind <;> simp [BeadKind.isReg] at hr <;> simp [regMode, hk]

theorem EncodeReg_opIndex (T : Target) (Bead : Nat) (MI : MCInst) (Desc : MCInstrDesc)
    (B O : Nat) (hm : ∃ m, regMode T (Bead &&& 0xF) = some m)
    (hop : Desc.MIOpInfo[(Bead &&& 0x70) >>> 4]? = none) :
    EncodeReg T Bead MI Desc B O = .error .opIndex := by
  obtain ⟨m, hm⟩ := hm
  simp only [EncodeReg, hm, hop]

theorem EncodeImm_opIndex (T : Target) (Bead : Nat) (MI : MCInst) (Desc : MCInstrDesc)
    (B O : Nat) (F : List MCFixup) (hop : Desc.MIOpInfo[(Bead &&& 0x70) >>> 4]? = none) :
    EncodeImm T Bead MI Desc B O F = .error .opIndex := by
  simp only [EncodeImm, hop]

theorem recipeBits_ignore (T : Target) (hT : T.WF) (Beads : List Nat)
    (h : ∀ b ∈ activeBeads Beads, b &&& 0xF = 0 ∧ b >>> 4 = T.Ignore) :
    Spec.recipeBits T Beads = 0 := by
  unfold Spec.recipeBits
  apply List.sum_eq_zero
  intro x hx
  obtain ⟨b, hb, rfl⟩ := List.mem_map.mp hx
  have h0 : b % 16 = 0 := by rw [← and_15]; exact (h b hb).1
  have hk : T.kindOf (b % 16) = none := by rw [h0]; exact hT
  simp only [Spec.beadBits, hk]

theorem encodeInstruction_of_loop (T : Target) (MI : MCInst) (Desc : MCInstrDesc)
    (Beads OS : List Nat) (F : List MCFixup) (s : EmitState) (hne : firstBead Beads ≠ 0)
    (hrun : encodeLoop T MI Desc Beads ⟨0, 0, 0, OS, F⟩ = .ok s) :
    encodeInstruction T MI Desc Beads OS F =
      if s.Offset ≠ 0 then .error .residualOffset
      else if ¬ (s.Bytes ≠ 0 ∧ s.Bytes % 2 = 0) then .error .byteCount
      else .ok (s.OS, s.Fixups) := by
  unfold encodeInstruction
  rw [if_neg hne, hrun]
  rfl

theorem firstBead_append (pre : List Nat) (b : Nat) (post : List Nat)
    (hpre : ∀ c ∈ pre, c % 256 ≠ 0) (hb : b % 256 ≠ 0) : firstBead (pre ++ b :: post) ≠ 0 := by
  cases pre with
  | nil => exact hb
  | cons c rest => exact hpre c (List.mem_cons_self _ _)

theorem encodeLoop_bead_error (T : Target) (MI : MCInst) (Desc : MCInstrDesc)
    (pre : List Nat) (b : Nat) (post : List Nat) (s s1 : EmitState) (e : Fatal)
    (hpre : ∀ c ∈ pre, c % 256 ≠ 0) (hb : b % 256 ≠ 0)
    (hrun : encodeLoop T MI Desc pre s = .ok s1)
    (hstep : beadStep T MI Desc s1 (b % 256) = .error e) :
    encodeLoop T MI Desc (pre ++ b :: post) s = .error e := by
  rw [encodeLoop_append T MI Desc pre (b :: post) s hpre, hrun]
  simp only [bind, Except.bind, encodeLoop, if_neg hb, hstep]

theorem beadStep_unknown (T : Target) (MI : MCInst) (Desc : MCInstrDesc) (s : EmitState)
    (Bead : Nat) (hk : T.kindOf (Bead &&& 0xF) = none)
    (hi : Bead &&& 0xF = 0 → Bead >>> 4 ≠ T.Ignore) :
    beadStep T MI Desc s Bead = .error .unknownBead := by
  unfold beadStep
  rw [if_neg (fun h => hi h.1 h.2)]
  simp only [hk]
theorem emitImm_fixups (MCO : MCOperand) (Size B O : Nat) (F : List MCFixup)
    (r : Nat × Nat × List MCFixup) (h : emitImm MCO Size B O F = .ok r) : r.2.2 = F := by
  obtain ⟨i, hi⟩ := emitImm_kind _ _ _ _ _ _ h
  subst hi
  rcases emitImm_ok _ _ _ _ _ _ h with ⟨_, _, hres⟩ | ⟨_, _, _, _, hres⟩ <;> rw [hres]

/-- The fixup list after a successful `EncodeImm`. -/
theorem EncodeImm_fixups (T : Target) (Bead : Nat) (MI : MCInst) (Desc : MCInstrDesc)
    (B O : Nat) (F : List MCFixup) (r : Nat × Nat × List MCFixup) (kind : BeadKind)
    (hB : Bead < 256) (hk : T.kindOf (Bead % 16) = some kind) (hi : kind.isImm = true)
    (h : EncodeImm T Bead MI Desc B O F = .ok r) :
    r.2.2 = F ++ (Spec.fixupOf T MI Desc Bead).toList := by
  have hsz : immSize T (Bead % 16) = Spec.beadBits T Bead := by
    cases kind <;> simp [BeadKind.isImm] at hi <;> simp only [immSize, Spec.beadBits, hk]
  unfold EncodeImm at h
  rw [and_15, opIndex_eq Bead hB, altFlag_eq Bead hB] at h
  cases hs : Desc.MIOpInfo[Bead / 16 % 8]? with
  | none => simp [hs] at h
  | some Info =>
    simp only [hs] at h
    by_cases ht : T.isTargetType Info.OpType = true
    · rw [if_pos ht] at h
      obtain ⟨MCO, hMCO, h⟩ := bind_ok h
      have hop := getOperand_ok hMCO
      by_cases hp : T.isPCRelOpd Info.OpType = true
      · rw [if_pos hp] at h
        by_cases ha : Spec.alt Bead = true
        · simp [ha] at h
        · rw [if_neg ha] at h
          simp only [ha, Bool.false_eq_true, if_false] at hop
          obtain ⟨e, he, h⟩ := bind_ok h
          obtain ⟨_, _, hres⟩ := (emitFixup_ok_iff _ _ _ _ _ _ _).mp h
          rw [hres, hsz]
          cases MCO with
          | imm v =>
            simp only [pcRelExpr] at he
            injection he with he
            subst he
            simp [Spec.fixupOf, hk, hi, Spec.slot, hs, ht, hp, hop]
          | expr x =>
            simp only [pcRelExpr, getExpr] at he
            injection he with he
            subst he
            simp [Spec.fixupOf, hk, hi, Spec.slot, hs, ht, hp, hop]
          | reg q => simp [pcRelExpr, getExpr] at he
      · rw [if_neg hp] at h
        rw [emitImm_fixups _ _ _ _ _ _ h]
        simp [Spec.fixupOf, hk, hi, Spec.slot, hs, ht, hp]
    · rw [if_neg ht] at h
      by_cases ha : Spec.alt Bead = true
      · simp [ha] at h
      · rw [if_neg ha] at h
        obtain ⟨MCO, hMCO, h⟩ := bind_ok h
        have hop := getOperand_ok hMCO
        cases MCO with
        | expr e =>
          obtain ⟨_, _, hres⟩ := (emitFixup_ok_iff _ _ _ _ _ _ _).mp h
          rw [hres, hsz]
          simp [Spec.fixupOf, hk, hi, Spec.slot, hs, ht, hop]
        | imm i =>
          rw [emitImm_fixups _ _ _ _ _ _ h]
          simp [Spec.fixupOf, hk, hi, Spec.slot, hs, ht, hop]
        | reg q =>
          rw [emitImm_fixups _ _ _ _ _ _ h]
          simp [Spec.fixupOf, hk, hi, Spec.slot, hs, ht, hop]

theorem flush_fixups (s : EmitState) : (flush s).Fixups = s.Fixups := by
  rw [flush_eq]

/-- The fixup list after a successful loop iteration. -/
theorem beadStep_fixups (T : Target) (hT : T.WF) (MI : MCInst) (Desc : MCInstrDesc)
    (s s' : EmitState) (Bead : Nat) (hB : Bead < 256)
    (h : beadStep T MI Desc s Bead = .ok s') :
    s'.Fixups = s.Fixups ++ (Spec.fixupOf T MI Desc Bead).toList := by
  unfold beadStep at h
  rw [and_15] at h
  by_cases hi : Bead % 16 = 0 ∧ Bead >>> 4 = T.Ignore
  · rw [if_pos hi] at h
    injection h with h
    subst h
    have hk : T.kindOf (Bead % 16) = none := by rw [hi.1]; exact hT
    simp [Spec.fixupOf, hk]
  · rw [if_neg hi] at h
    cases hk : T.kindOf (Bead % 16) with
    | none => simp [hk] at h
    | some kind =>
      cases kind with
      | Bits1 | Bits2 | Bits3 | Bits4 =>
        simp only [hk] at h
        injection h with h
        rw [← h, advance, flush_fixups]
        simp [Spec.fixupOf, hk, BeadKind.isImm]
      | DAReg | DA | Reg =>
        simp only [hk] at h
        obtain ⟨r, _, h⟩ := bind_ok h
        injection h with h
        rw [← h, advance, flush_fixups]
        simp [Spec.fixupOf, hk, BeadKind.isImm]
      | Imm8 | Imm16 | Imm32 =>
        simp only [hk] at h
        obtain ⟨r, hr, h⟩ := bind_ok h
        injection h with h
        rw [← h, advance, flush_fixups]
        exact EncodeImm_fixups T Bead MI Desc _ _ _ r _ hB hk rfl hr

theorem encodeLoop_fixups (T : Target) (hT : T.WF) (MI : MCInst) (Desc : MCInstrDesc)
    (Beads : List Nat) :
    ∀ (s s' : EmitState), encodeLoop T MI Desc Beads s = .ok s' →
      s'.Fixups = s.Fixups ++ Spec.recipeFixups T MI Desc Beads := by
  induction Beads with
  | nil =>
    intro s s' h
    simp only [encodeLoop] at h
    injection h with h
    subst h
    simp [Spec.recipeFixups, activeBeads]
  | cons a rest ih =>
    intro s s' h
    unfold encodeLoop at h
    by_cases h0 : a % 256 = 0
    · rw [if_pos h0] at h
      injection h with h
      subst h
      simp [Spec.recipeFixups, activeBeads, h0]
    · rw [if_neg h0] at h
      obtain ⟨s1, hs1, h⟩ := bind_ok h
      have h1 := beadStep_fixups T hT MI Desc s s1 (a % 256) (Nat.mod_lt _ (by decide)) hs1
      have h2 := ih s1 s' h
      rw [h2, h1]
      simp [Spec.recipeFixups, activeBeads, h0]

theorem fixupOf_offset (T : Target) (MI : MCInst) (Desc : MCInstrDesc) (Bead : Nat)
    (f : MCFixup) (h : Spec.fixupOf T MI Desc Bead = some f) : f.Offset = 2 := by
  unfold Spec.fixupOf at h
  split at h
  · cases h
  · split at h
    · split at h
      · cases h
      · split at h
        · split at h
          · split at h
            · injection h with h; rw [← h]
            · injection h with h; rw [← h]
            · cases h
          · cases h
        · split at h
          · injection h with h; rw [← h]
          · cases h
    · cases h

theorem fixupOf_none (T : Target) (MI : MCInst) (Desc : MCInstrDesc) (b : Nat)
    (h : T.kindOf (b % 16) = none ∨
      (∃ kind, T.kindOf (b % 16) = some kind ∧ kind.isImm = false) ∨
      (∃ v, Spec.immOf T MI Desc b = some (some v))) :
    Spec.fixupOf T MI Desc b = none := by
  rcases h with hk | ⟨kind, hk, hi⟩ | ⟨v, hv⟩
  · simp [Spec.fixupOf, hk]
  · simp [Spec.fixupOf, hk, hi]
  · unfold Spec.fixupOf
    unfold Spec.immOf at hv
    cases hk : T.kindOf (b % 16) with
    | none => rfl
    | some kind =>
      simp only
      by_cases hi : kind.isImm = true
      · rw [if_pos hi]
        cases hs : Spec.slot Desc b with
        | none => rfl
        | some Info =>
          simp only [hs] at hv
          simp only
          by_cases ht : T.isTargetType Info.OpType = true
          · rw [if_pos ht] at hv
            rw [if_pos ht]
            by_cases hp : T.isPCRelOpd Info.OpType = true
            · rw [if_pos hp] at hv
              cases hv
            · rw [if_neg hp]
          · rw [if_neg ht] at hv
            rw [if_neg ht]
            cases ho : MI.Operands[Info.MINo]? with
            | none => rfl
            | some MCO =>
              cases MCO with
              | reg q => rfl
              | imm i => rfl
              | expr e => simp [ho] at hv
      · rw [if_neg hi]
theorem beadStep_ignore (T : Target) (MI : MCInst) (Desc : MCInstrDesc) (s : EmitState)
    (Bead : Nat) (h0 : Bead &&& 0xF = 0) (hi : Bead >>> 4 = T.Ignore) :
    beadStep T MI Desc s Bead = .ok s := by
  unfold beadStep
  rw [if_pos ⟨h0, hi⟩]

theorem encodeLoop_insert (T : Target) (MI : MCInst) (Desc : MCInstrDesc)
    (pre post : List Nat) (ig : Nat) (hne : ig % 256 ≠ 0) (h0 : (ig % 256) &&& 0xF = 0)
    (hi : (ig % 256) >>> 4 = T.Ignore) (s : EmitState) :
    encodeLoop T MI Desc (pre ++ ig :: post) s = encodeLoop T MI Desc (pre ++ post) s := by
  induction pre generalizing s with
  | nil =>
    rw [List.nil_append, List.nil_append, encodeLoop, if_neg hne,
      beadStep_ignore T MI Desc s _ h0 hi]
    rfl
  | cons b pre ih =>
    rw [List.cons_append, List.cons_append, encodeLoop, encodeLoop]
    by_cases hb : b % 256 = 0
    · rw [if_pos hb, if_pos hb]
    · rw [if_neg hb, if_neg hb]
      cases hs : beadStep T MI Desc s (b % 256) with
      | error e => rfl
      | ok s1 =>
        simp only [bind, Except.bind]
        exact ih s1
theorem bind_error {ε α β : Type} {x : Except ε α} {f : α → Except ε β} {e : ε}
    (h : (x >>= f) = .error e) : x = .error e ∨ ∃ a, x = .ok a ∧ f a = .error e := by
  cases x with
  | error e' =>
    left
    simpa [bind, Except.bind] using h
  | ok a => exact Or.inr ⟨a, rfl, h⟩

theorem EmitConstant_capacity (Val Size B O : Nat)
    (h : EmitConstant Val Size B O = .error .capacity) : ¬ (Size + O ≤ 64) := by
  unfold EmitConstant at h
  by_cases h0 : Size = 0
  · rw [if_pos h0] at h; cases h
  · rw [if_neg h0] at h
    by_cases h1 : ¬ (Size + O ≤ 64)
    · exact h1
    · rw [if_neg h1] at h
      by_cases h2 : ¬ (Val = Val &&& (0xFFFFFFFFFFFFFFFF >>> (64 - Size)))
      · rw [if_pos h2] at h; cases h
      · rw [if_neg h2] at h; cases h

theorem emitFixup_capacity (e : MCExpr) (Size : Nat) (rel : Bool) (B O : Nat)
    (F : List MCFixup) (h : emitFixup e Size rel B O F = .error .capacity) :
    ¬ (Size + O ≤ 64) := by
  unfold emitFixup at h
  rcases bind_error h with h1 | ⟨a, _, h2⟩
  · exact EmitConstant_capacity _ _ _ _ h1
  · cases h2

theorem getImm_capacity (MCO : MCOperand) : getImm MCO ≠ .error .capacity := by
  cases MCO <;> intro h <;> cases h

theorem emitImm_capacity (MCO : MCOperand) (Size B O : Nat) (F : List MCFixup)
    (h : emitImm MCO Size B O F = .error .capacity) : ¬ (Size ≤ 32 ∧ O ≤ 32) := by
  rintro ⟨hS, hO⟩
  unfold emitImm at h
  by_cases h32 : Size = 32
  · rw [if_pos h32] at h
    rcases bind_error h with h1 | ⟨v, _, h⟩
    · exact getImm_capacity MCO h1
    · rcases bind_error h with h1 | ⟨a, ha, h⟩
      · exact EmitConstant_capacity _ _ _ _ h1 (by omega)
      · obtain ⟨_, _, _, ha4⟩ := (EmitConstant_ok_iff _ _ _ _ _).mp ha
        subst ha4
        rcases bind_error h with h1 | ⟨b, _, h⟩
        · have := EmitConstant_capacity _ _ _ _ h1
          omega
        · cases h
  · rw [if_neg h32] at h
    rcases bind_error h with h1 | ⟨v, _, h⟩
    · exact getImm_capacity MCO h1
    · rcases bind_error h with h1 | ⟨a, _, h⟩
      · exact EmitConstant_capacity _ _ _ _ h1 (by omega)
      · cases h

theorem immSize_le (T : Target) (k : Nat) : immSize T k ≤ 32 := by
  unfold immSize
  split <;> decide

theorem EncodeImm_capacity (T : Target) (Bead : Nat) (MI : MCInst) (Desc : MCInstrDesc)
    (B O : Nat) (F : List MCFixup) (hO : O ≤ 32) :
    EncodeImm T Bead MI Desc B O F ≠ .error .capacity := by
  intro h
  have hS := immSize_le T (Bead &&& 0xF)
  unfold EncodeImm at h
  cases hs : Desc.MIOpInfo[(Bead &&& 0x70) >>> 4]? with
  | none => simp [hs] at h
  | some Info =>
    simp only [hs] at h
    by_cases ht : T.isTargetType Info.OpType = true
    · rw [if_pos ht] at h
      rcases bind_error h with h1 | ⟨MCO, _, h⟩
      · unfold getOperand at h1
        split at h1 <;> cases h1
      · by_cases hp : T.isPCRelOpd Info.OpType = true
        · rw [if_pos hp] at h
          by_cases ha : Alt Bead = true
          · rw [if_pos ha] at h; cases h
          · rw [if_neg ha] at h
            rcases bind_error h with h1 | ⟨e, _, h⟩
            · cases MCO <;> cases h1
            · exact emitFixup_capacity _ _ _ _ _ _ h (by omega)
        · rw [if_neg hp] at h
          exact emitImm_capacity _ _ _ _ _ h ⟨hS, hO⟩
    · rw [if_neg ht] at h
      by_cases ha : Alt Bead = true
      · rw [if_pos ha] at h; cases h
      · rw [if_neg ha] at h
        rcases bind_error h with h1 | ⟨MCO, _, h⟩
        · unfold getOperand at h1
          split at h1 <;> cases h1
        · cases MCO with
          | expr e => exact emitFixup_capacity _ _ _ _ _ _ h (by omega)
          | imm i => exact emitImm_capacity _ _ _ _ _ h ⟨hS, hO⟩
          | reg q => exact emitImm_capacity _ _ _ _ _ h ⟨hS, hO⟩

theorem EncodeReg_capacity (T : Target) (Bead : Nat) (MI : MCInst) (Desc : MCInstrDesc)
    (B O : Nat) : EncodeReg T Bead MI Desc B O ≠ .error .capacity := by
  intro h
  unfold EncodeReg at h
  cases hm : regMode T (Bead &&& 0xF) with
  | none => simp [hm] at h
  | some m =>
    obtain ⟨Reg, DA⟩ := m
    simp only [hm] at h
    cases hs : Desc.MIOpInfo[(Bead &&& 0x70) >>> 4]? with
    | none => simp [hs] at h
    | some Info =>
      simp only [hs] at h
      rcases bind_error h with h1 | ⟨idx, _, h⟩
      · unfold regOperandIndex at h1
        split at h1
        · cases h1
        · split at h1 <;> cases h1
      · rcases bind_error h with h1 | ⟨MCO, _, h⟩
        · unfold getOperand at h1
          split at h1 <;> cases h1
        · rcases bind_error h with h1 | ⟨r, _, h⟩
          · cases MCO <;> cases h1
          · cases h

theorem beadStep_capacity (T : Target) (MI : MCInst) (Desc : MCInstrDesc) (s : EmitState)
    (Bead : Nat) (hO : s.Offset ≤ 32) : beadStep T MI Desc s Bead ≠ .error .capacity := by
  intro h
  unfold beadStep at h
  split at h
  · cases h
  · split at h
    · cases h
    all_goals first
      | cases h
      | (rcases bind_error h with h1 | ⟨r, _, h2⟩
         · first
             | exact EncodeReg_capacity _ _ _ _ _ _ h1
             | exact EncodeImm_capacity _ _ _ _ _ _ _ hO h1
         · cases h2)

theorem beadBits_le (T : Target) (Bead : Nat) : Spec.beadBits T Bead ≤ 32 := by
  unfold Spec.beadBits
  split <;> decide

theorem beadStep_offset (T : Target) (hT : T.WF) (MI : MCInst) (Desc : MCInstrDesc)
    (s s' : EmitState) (Bead : Nat) (hB : Bead < 256) (hO : s.Offset < 16)
    (h : beadStep T MI Desc s Bead = .ok s') : s'.Offset < 16 := by
  obtain ⟨B, fx, hs⟩ := beadStep_bits T hT MI Desc s s' Bead hB hO h
  rw [hs, flush_eq]
  exact Nat.mod_lt _ (by decide)

theorem encodeLoop_offset (T : Target) (hT : T.WF) (MI : MCInst) (Desc : MCInstrDesc)
    (Beads : List Nat) :
    ∀ (s : EmitState), s.Offset < 16 →
      (∀ s', encodeLoop T MI Desc Beads s = .ok s' → s'.Offset < 16) ∧
      encodeLoop T MI Desc Beads s ≠ .error .capacity := by
  induction Beads with
  | nil =>
    intro s hO
    refine ⟨?_, ?_⟩
    · intro s' h
      simp only [encodeLoop] at h
      injection h with h
      rw [← h]; exact hO
    · intro h
      simp only [encodeLoop] at h
      cases h
  | cons a rest ih =>
    intro s hO
    unfold encodeLoop
    by_cases h0 : a % 256 = 0
    · rw [if_pos h0]
      refine ⟨?_, ?_⟩
      · intro s' h
        injection h with h
        rw [← h]; exact hO
      · intro h; cases h
    · rw [if_neg h0]
      refine ⟨?_, ?_⟩
      · intro s' h
        obtain ⟨s1, hs1, h⟩ := bind_ok h
        have h1 := beadStep_offset T hT MI Desc s s1 _ (Nat.mod_lt _ (by decide)) hO hs1
        exact (ih s1 h1).1 s' h
      · intro h
        rcases bind_error h with h1 | ⟨s1, hs1, h⟩
        · exact beadStep_capacity T MI Desc s _ (by omega) h1
        · have h1 := beadStep_offset T hT MI Desc s s1 _ (Nat.mod_lt _ (by decide)) hO hs1
          exact (ih s1 h1).2 h
theorem activeBeads_append (pre rest : List Nat) (h : ∀ c ∈ pre, c % 256 ≠ 0) :
    activeBeads (pre ++ rest) = pre.map (fun c => c % 256) ++ activeBeads rest := by
  induction pre with
  | nil => rfl
  | cons c pre ih =>
    have hc : c % 256 ≠ 0 := h c (List.mem_cons_self _ _)
    have hp : ∀ d ∈ pre, d % 256 ≠ 0 := fun d hd => h d (List.mem_cons_of_mem _ hd)
    rw [List.cons_append, activeBeads, if_neg hc, ih hp]
    rfl

theorem activeBeads_prefix (pre rest : List Nat) (h : ∀ c ∈ pre, c % 256 ≠ 0) :
    ∀ b ∈ activeBeads pre, b ∈ activeBeads (pre ++ rest) := by
  intro b hb
  have h1 := activeBeads_append pre [] h
  rw [List.append_nil] at h1
  rw [h1] at hb
  simp only [activeBeads, List.append_nil] at hb
  rw [activeBeads_append pre rest h]
  exact List.mem_append_left _ hb

theorem encodeLoop_clean (T : Target) (hT : T.WF) (MI : MCInst) (Desc : MCInstrDesc)
    (Beads OS : List Nat) (F : List MCFixup) (s : EmitState)
    (hfit : ∀ b ∈ activeBeads Beads, ∀ f ∈ Spec.fields T MI Desc b, f.2 < 2 ^ f.1)
    (hrun : encodeLoop T MI Desc Beads ⟨0, 0, 0, OS, F⟩ = .ok s) :
    s.Offset < 16 ∧ s.Buffer < 2 ^ s.Offset :=
  pending_clean
    (encodeLoop_pending T hT MI Desc OS Beads _ s 0 0 (pending_init F OS) hfit hrun)

theorem field_undisturbed (B O c : Nat) (hB : B < 2 ^ O) :
    (B + 2 ^ O * c) % 2 ^ O = B ∧ (B + 2 ^ O * c) / 2 ^ O = c := by
  constructor
  · rw [Nat.add_mul_mod_self_left, Nat.mod_eq_of_lt hB]
  · rw [Nat.add_mul_div_left _ _ (Nat.two_pow_pos _), Nat.div_eq_of_lt hB, Nat.zero_add]

/-- `EncodeReg` on a bead whose register is named by the slot rule: the base
entry of a composite slot (the scale entry with bit 7 set), the only entry of
any other slot, where bit 7 is not admitted. -/
theorem EncodeReg_regOf (T : Target) (Bead : Nat) (MI : MCInst) (Desc : MCInstrDesc)
    (B O r : Nat) (Reg DA : Bool) (hB : Bead < 256)
    (hm : regMode T (Bead &&& 0xF) = some (Reg, DA))
    (hr : Spec.regOf T MI Desc Bead = some r)
    (ha : Spec.alt Bead = true → ∃ Info, Spec.slot Desc Bead = some Info ∧
      T.isTargetType Info.OpType = true ∧ 1 < Info.OpsNum) :
    EncodeReg T Bead MI Desc B O =
      .ok (if DA then (if Reg then 3 else 0) + 1 else (if Reg then 3 else 0),
           if DA then
             (if Reg then B ||| shlU32 (T.getEncodingValue r % 2 ^ 16) O else B) |||
               shlInt (if T.isAddressRegister r then 1 else 0) (if Reg then O + 3 else O)
           else (if Reg then B ||| shlU32 (T.getEncodingValue r % 2 ^ 16) O else B)) := by
  unfold Spec.regOf at hr
  cases hI : Spec.slot Desc Bead with
  | none =>
    rw [hI] at hr
    cases hr
  | some Info =>
    rw [hI] at hr
    have hI2 : Desc.MIOpInfo[(Bead &&& 0x70) >>> 4]? = some Info := by
      rw [opIndex_eq Bead hB]
      exact hI
    by_cases hc : T.isTargetType Info.OpType = true ∧ 1 < Info.OpsNum
    · simp only [if_pos hc] at hr
      have hidx : regOperandIndex T Info (Alt Bead) =
          .ok (Info.MINo + (if Spec.alt Bead then T.MemScale else T.MemBase)) := by
        rw [altFlag_eq Bead hB]
        simp only [regOperandIndex, gt_iff_lt, if_pos hc]
      cases ho : MI.Operands[Info.MINo + (if Spec.alt Bead then T.MemScale else T.MemBase)]? with
      | none =>
        rw [ho] at hr
        cases hr
      | some MCO =>
        rw [ho] at hr
        cases MCO with
        | reg q =>
          injection hr with hr
          subst hr
          exact EncodeReg_eq T Bead MI Desc B O Reg DA Info _ q hm hI2 hidx ho
        | imm v => cases hr
        | expr e => cases hr
    · simp only [if_neg hc] at hr
      have hna : Spec.alt Bead = false := by
        cases hal : Spec.alt Bead with
        | false => rfl
        | true =>
          obtain ⟨I2, h1, h2⟩ := ha hal
          rw [hI] at h1
          injection h1 with h1
          subst h1
          exact absurd h2 hc
      have hidx : regOperandIndex T Info (Alt Bead) = .ok Info.MINo := by
        rw [altFlag_eq Bead hB, hna]
        simp only [regOperandIndex, gt_iff_lt, if_neg hc, Bool.false_eq_true, if_false]
      cases ho : MI.Operands[Info.MINo]? with
      | none =>
        rw [ho] at hr
        cases hr
      | some MCO =>
        rw [ho] at hr
        cases MCO with
        | reg q =>
          injection hr with hr
          subst hr
          exact EncodeReg_eq T Bead MI Desc B O Reg DA Info _ q hm hI2 hidx ho
        | imm v => cases hr
        | expr e => cases hr

/-- Where bit 7 is rejected: by `EncodeReg` on a slot that is not of a target
type with more than one operand-list entry, by `EncodeImm` on a slot that is
not of a target type and on a PC-relative slot of a target type (there on the
flag assertion, or before it on the operand access). -/
theorem alt_flag_enforced (T : Target) (Bead : Nat) (MI : MCInst) (Desc : MCInstrDesc)
    (Info : MIOperandInfo) (hI : Desc.MIOpInfo[(Bead &&& 0x70) >>> 4]? = some Info)
    (ha : Alt Bead = true) :
    (∀ B O m, regMode T (Bead &&& 0xF) = some m →
      ¬ (T.isTargetType Info.OpType = true ∧ Info.OpsNum > 1) →
      EncodeReg T Bead MI Desc B O = .error .altSimple) ∧
    (∀ B O F, T.isTargetType Info.OpType = false →
      EncodeImm T Bead MI Desc B O F = .error .altSimple) ∧
    (∀ B O F, T.isTargetType Info.OpType = true → T.isPCRelOpd Info.OpType = true →
      EncodeImm T Bead MI Desc B O F = .error .altPCRel ∨
      EncodeImm T Bead MI Desc B O F = .error .operandAccess) := by
  refine ⟨?_, ?_, ?_⟩
  · intro B O m hm hns
    obtain ⟨Reg, DA⟩ := m
    simp only [EncodeReg, hm, hI, regOperandIndex, ha, if_neg hns, if_true, bind, Except.bind]
  · intro B O F ht
    simp [EncodeImm, hI, ht, ha]
  · intro B O F ht hp
    cases ho : MI.Operands[Info.MINo + T.MemOuter]? with
    | none =>
      right
      simp [EncodeImm, hI, ht, hp, ha, getOperand, ho, bind, Except.bind]
    | some MCO =>
      left
      simp [EncodeImm, hI, ht, hp, ha, getOperand, ho, bind, Except.bind]

/-! ## Claims -/

/-- C1: when the main loop runs through a recipe without failure, every field
value fits its width, and the field widths sum to a positive multiple of 16,
`encodeInstruction` succeeds and appends exactly the bytes of the words
`t = 0, ..., total/16 - 1` of `N`, high byte first, where `N` is the recipe's
fields concatenated least-significant-first in recipe order (a 32-bit constant
as high half then low half, a deferred field as zeros). -/
theorem encodeInstruction_bytes (T : Target) (hT : T.WF) (MI : MCInst) (Desc : MCInstrDesc)
    (Beads OS : List Nat) (Fixups : List MCFixup)
    (hrun : ∃ s, encodeLoop T MI Desc Beads ⟨0, 0, 0, OS, Fixups⟩ = .ok s)
    (hfit : ∀ b ∈ activeBeads Beads, ∀ f ∈ Spec.fields T MI Desc b, f.2 < 2 ^ f.1)
    (hpos : 0 < Spec.width (Spec.recipeFields T MI Desc Beads))
    (hmul : Spec.width (Spec.recipeFields T MI Desc Beads) % 16 = 0) :
    ∃ fx, encodeInstruction T MI Desc Beads OS Fixups =
      .ok (OS ++ Spec.bytes (Spec.concatAt 0 (Spec.recipeFields T MI Desc Beads))
        (Spec.width (Spec.recipeFields T MI Desc Beads)), fx) := by
  obtain ⟨s, hs⟩ := hrun
  have hp := encodeLoop_pending T hT MI Desc OS Beads _ s 0 0 (pending_init Fixups OS) hfit hs
  simp only [Nat.pow_zero, Nat.one_mul, Nat.zero_add] at hp
  obtain ⟨h1, _, _, h4, h5⟩ := hp
  have hne : Spec.recipeFields T MI Desc Beads ≠ [] := by
    intro hn
    rw [hn] at hpos
    simp [Spec.width] at hpos
  refine ⟨s.Fixups, ?_⟩
  unfold encodeInstruction
  rw [if_neg (firstBead_ne_zero T MI Desc Beads hne), hs]
  have hO : s.Offset = 0 := by omega
  have hB : s.Bytes ≠ 0 ∧ s.Bytes % 2 = 0 := by omega
  simp only [bind, Except.bind]
  rw [if_neg (not_not.mpr hO), if_neg (not_not.mpr hB), h4, Spec.bytes_eq]

/-- C1 at the padded example recipe (two words, `N = 0x00123435`): the
hypotheses hold and the appended bytes are `34 35 00 12`. -/
theorem encodeInstruction_bytes_witness :
    demoTarget.WF ∧
    (∃ s, encodeLoop demoTarget demoInst demoDesc demoRecipe32 ⟨0, 0, 0, [0xAA], []⟩ = .ok s) ∧
    (∀ b ∈ activeBeads demoRecipe32, ∀ f ∈ Spec.fields demoTarget demoInst demoDesc b,
      f.2 < 2 ^ f.1) ∧
    Spec.width (Spec.recipeFields demoTarget demoInst demoDesc demoRecipe32) = 32 ∧
    Spec.concatAt 0 (Spec.recipeFields demoTarget demoInst demoDesc demoRecipe32) = 0x123435 ∧
    Spec.bytes 0x123435 32 = [0x34, 0x35, 0x00, 0x12] ∧
    ∃ fx, encodeInstruction demoTarget demoInst demoDesc demoRecipe32 [0xAA] [] =
      .ok ([0xAA] ++ Spec.bytes
        (Spec.concatAt 0 (Spec.recipeFields demoTarget demoInst demoDesc demoRecipe32))
        (Spec.width (Spec.recipeFields demoTarget demoInst demoDesc demoRecipe32)), fx) :=
  ⟨by decide, ⟨_, rfl⟩, by decide, by decide, by decide, by decide,
    encodeInstruction_bytes demoTarget (by decide) demoInst demoDesc demoRecipe32 [0xAA] []
      ⟨_, rfl⟩ (by decide) (by decide) (by decide)⟩

/-- C2: whenever `encodeInstruction` succeeds, the bytes it appends are even in
number, at least one, and as many as the sum of the bit counts of the recipe's
beads divided by 8. -/
theorem encodeInstruction_byte_count (T : Target) (hT : T.WF) (MI : MCInst)
    (Desc : MCInstrDesc) (Beads OS : List Nat) (Fixups : List MCFixup)
    (out : List Nat) (fx : List MCFixup)
    (h : encodeInstruction T MI Desc Beads OS Fixups = .ok (out, fx)) :
    ∃ new, out = OS ++ new ∧ new.length % 2 = 0 ∧ 0 < new.length ∧
      Spec.recipeBits T Beads % 8 = 0 ∧ new.length = Spec.recipeBits T Beads / 8 := by
  unfold encodeInstruction at h
  by_cases hf : firstBead Beads = 0
  · simp [hf] at h
  · rw [if_neg hf] at h
    obtain ⟨s, hs, h⟩ := bind_ok h
    by_cases hO : s.Offset ≠ 0
    · simp [hO] at h
    · rw [if_neg hO] at h
      by_cases hB : ¬ (s.Bytes ≠ 0 ∧ s.Bytes % 2 = 0)
      · simp [hB] at h
      · rw [if_neg hB] at h
        injection h with h
        injection h with h1 h2
        have hc := encodeLoop_counted T hT MI Desc OS Beads _ s 0
          ⟨rfl, rfl, [], by simp, rfl⟩ hs
        obtain ⟨c1, c2, new, c3, c4⟩ := hc
        rw [Nat.zero_add] at c1 c2 c4
        refine ⟨new, by rw [← h1, c3], by omega, by omega, by omega, by omega⟩

/-- C2 at the padded example recipe: the run succeeds with 4 new bytes for
32 recipe bits. -/
theorem encodeInstruction_byte_count_witness :
    encodeInstruction demoTarget demoInst demoDesc demoRecipe32 [0xAA] [] =
        .ok ([0xAA, 0x34, 0x35, 0x00, 0x12], []) ∧
    Spec.recipeBits demoTarget demoRecipe32 = 32 ∧
    ∃ new, [0xAA, 0x34, 0x35, 0x00, 0x12] = [0xAA] ++ new ∧ new.length % 2 = 0 ∧
      0 < new.length ∧ Spec.recipeBits demoTarget demoRecipe32 % 8 = 0 ∧
      new.length = Spec.recipeBits demoTarget demoRecipe32 / 8 :=
  ⟨by decide, by decide,
    encodeInstruction_byte_count demoTarget (by decide) demoInst demoDesc demoRecipe32 [0xAA] []
      [0xAA, 0x34, 0x35, 0x00, 0x12] [] (by decide)⟩

/-- C3 fails at a word boundary where the accumulator is not empty: after the
recipe prefix `04 04 04 01 07` on a register with encoding value 8 the loop
stands at offset 0 with the accumulator 1 (the fourth bit of the register
code, carried over the word boundary), and the 32-bit immediate bead on the
constant `0x12345678` then writes the words `0x1235`, `0x5678`: the first
word is not `(v >> 16) & 0xFFFF`. -/
theorem EncodeImm_imm32_residue :
    immConstant demoTarget demoWideInst32 demoDesc 0x1A = some 0x12345678 ∧
    encodeLoop demoTarget demoWideInst32 demoDesc [0x04, 0x04, 0x04, 0x01, 0x07]
      ⟨0, 0, 0, [], []⟩ = .ok ⟨1, 0, 2, [0x00, 0x00], []⟩ ∧
    beadStep demoTarget demoWideInst32 demoDesc ⟨1, 0, 2, [0x00, 0x00], []⟩ 0x1A =
      .ok ⟨0, 0, 6, [0x00, 0x00, 0x12, 0x35, 0x56, 0x78], []⟩ ∧
    encodeInstruction demoTarget demoWideInst32 demoDesc
      [0x04, 0x04, 0x04, 0x01, 0x07, 0x1A] [] [] =
      .ok ([0x00, 0x00, 0x12, 0x35, 0x56, 0x78], []) := by
  decide

/-- C3 amended: a 32-bit immediate bead on a constant `v` ORs `(v >> 16) & 0xFFFF`
at the current offset and `v & 0xFFFF` at offset + 16 and returns 32. Started
at a word boundary with an empty accumulator (offset 0, accumulator 0), the
bead's loop iteration writes the two words in that order, each high byte
first, i.e. the four bytes `(v>>24)&0xFF, (v>>16)&0xFF, (v>>8)&0xFF, v&0xFF`.
The accumulator is empty at every word boundary the main loop reaches through
beads whose field values fit their widths. -/
theorem EncodeImm_imm32_words (T : Target) (hT : T.WF) (Bead : Nat) (MI : MCInst)
    (Desc : MCInstrDesc) (v : Int) (hk : T.kindOf (Bead &&& 0xF) = some .Imm32)
    (hc : immConstant T MI Desc Bead = some v) :
    (∀ B O F, O ≤ 32 → EncodeImm T Bead MI Desc B O F =
      .ok (32, B ||| (((toU64 v >>> 16) &&& 0xFFFF) <<< O) |||
        ((toU64 v &&& 0xFFFF) <<< (O + 16)), F)) ∧
    (∀ Bytes OS F, beadStep T MI Desc ⟨0, 0, Bytes, OS, F⟩ Bead =
      .ok ⟨0, 0, Bytes + 4,
        OS ++ (Spec.wordBE ((toU64 v >>> 16) &&& 0xFFFF) ++ Spec.wordBE (toU64 v &&& 0xFFFF)),
        F⟩) ∧
    (∀ Beads OS F s,
      (∀ b ∈ activeBeads Beads, ∀ f ∈ Spec.fields T MI Desc b, f.2 < 2 ^ f.1) →
      encodeLoop T MI Desc Beads ⟨0, 0, 0, OS, F⟩ = .ok s → s.Offset = 0 →
      beadStep T MI Desc s Bead =
        .ok ⟨0, 0, s.Bytes + 4,
          s.OS ++ (Spec.wordBE ((toU64 v >>> 16) &&& 0xFFFF) ++
            Spec.wordBE (toU64 v &&& 0xFFFF)),
          s.Fixups⟩) ∧
    Spec.wordBE ((toU64 v >>> 16) &&& 0xFFFF) ++ Spec.wordBE (toU64 v &&& 0xFFFF) =
      [(toU64 v >>> 24) &&& 0xFF, (toU64 v >>> 16) &&& 0xFF, (toU64 v >>> 8) &&& 0xFF,
        toU64 v &&& 0xFF] := by
  have hsz : immSize T (Bead &&& 0xF) = 32 := by simp only [immSize, hk]
  have hgen : ∀ B O F, O ≤ 32 → EncodeImm T Bead MI Desc B O F =
      .ok (32, B ||| (((toU64 v >>> 16) &&& 0xFFFF) <<< O) |||
        ((toU64 v &&& 0xFFFF) <<< (O + 16)), F) := by
    intro B O F hO
    rw [EncodeImm_constant T Bead MI Desc B O F v hc, hsz, emitImm32_eq v B O F hO]
  have hbe : Spec.wordBE ((toU64 v >>> 16) &&& 0xFFFF) ++ Spec.wordBE (toU64 v &&& 0xFFFF) =
      [(toU64 v >>> 24) &&& 0xFF, (toU64 v >>> 16) &&& 0xFF, (toU64 v >>> 8) &&& 0xFF,
        toU64 v &&& 0xFF] := by
    simp only [Spec.wordBE, and_255, and_65535, Nat.shiftRight_eq_div_pow, List.cons_append,
      List.nil_append, List.cons.injEq, and_true]
    refine ⟨?_, ?_, ?_, ?_⟩ <;> omega
  have hstep : ∀ Bytes OS F, beadStep T MI Desc ⟨0, 0, Bytes, OS, F⟩ Bead =
      .ok ⟨0, 0, Bytes + 4,
        OS ++ (Spec.wordBE ((toU64 v >>> 16) &&& 0xFFFF) ++ Spec.wordBE (toU64 v &&& 0xFFFF)),
        F⟩ := by
    intro Bytes OS F
    unfold beadStep
    rw [if_neg (not_ignore T hT Bead _ hk)]
    simp only [hk, hgen 0 0 F (by decide), bind, Except.bind, advance]
    have hhi : (toU64 v >>> 16) &&& 0xFFFF < 2 ^ 16 := by
      rw [and_65535]; exact Nat.mod_lt _ (Nat.two_pow_pos _)
    have hlo : toU64 v &&& 0xFFFF < 2 ^ 16 := by
      rw [and_65535]; exact Nat.mod_lt _ (Nat.two_pow_pos _)
    rw [flush_eq]
    simp only [Nat.zero_add, Nat.reduceDiv, Nat.reduceMod, Nat.reduceMul,
      (two_words _ _ hhi hlo).1, (two_words _ _ hhi hlo).2]
  refine ⟨hgen, hstep, ?_, hbe⟩
  intro Beads OS F s hfit hrun hO
  have hcl := (encodeLoop_clean T hT MI Desc Beads OS F s hfit hrun).2
  rw [hO] at hcl
  have hB0 : s.Buffer = 0 := by omega
  have hs : s = ⟨0, 0, s.Bytes, s.OS, s.Fixups⟩ := by
    cases s
    simp only at hO hB0
    subst hO hB0
    rfl
  rw [hs]
  exact hstep s.Bytes s.OS s.Fixups

/-- C3 amended at the constant `0x12345678`, operand 1 of a 32-bit immediate
bead: the accumulator receives `0x1234` at bit 0 and `0x5678` at bit 16, the
loop iteration on the empty accumulator writes `12 34 56 78`, and so does the
iteration that follows the 16-bit literal prefix `54 04 04 04`. -/
theorem EncodeImm_imm32_words_witness :
    demoTarget.WF ∧ demoTarget.kindOf (0x1A &&& 0xF) = some .Imm32 ∧
    immConstant demoTarget demoInst32 demoDesc 0x1A = some 0x12345678 ∧
    EncodeImm demoTarget 0x1A demoInst32 demoDesc 0 0 [] = .ok (32, 0x56781234, []) ∧
    beadStep demoTarget demoInst32 demoDesc ⟨0, 0, 0, [], []⟩ 0x1A =
      .ok ⟨0, 0, 4, [0x12, 0x34, 0x56, 0x78], []⟩ ∧
    encodeLoop demoTarget demoInst32 demoDesc [0x54, 0x04, 0x04, 0x04] ⟨0, 0, 0, [], []⟩ =
      .ok ⟨0, 0, 2, [0x00, 0x05], []⟩ ∧
    beadStep demoTarget demoInst32 demoDesc ⟨0, 0, 2, [0x00, 0x05], []⟩ 0x1A =
      .ok ⟨0, 0, 6, [0x00, 0x05, 0x12, 0x34, 0x56, 0x78], []⟩ :=
  ⟨by decide, by decide, by decide,
    (EncodeImm_imm32_words demoTarget (by decide) 0x1A demoInst32 demoDesc 0x12345678
      (by decide) (by decide)).1 0 0 [] (by decide),
    (EncodeImm_imm32_words demoTarget (by decide) 0x1A demoInst32 demoDesc 0x12345678
      (by decide) (by decide)).2.1 0 [] [],
    by decide,
    (EncodeImm_imm32_words demoTarget (by decide) 0x1A demoInst32 demoDesc 0x12345678
      (by decide) (by decide)).2.2.1 [0x54, 0x04, 0x04, 0x04] [] []
      ⟨0, 0, 2, [0x00, 0x05], []⟩ (by decide) (by decide) rfl⟩

/-- C4 fails for an encoding value of 8: `EncodeReg` in register-code mode
reports 3 bits written, yet it sets bit 3 of the accumulator (the value
truncated to 3 bits would leave it 0); in the output word the bit that
belongs to the following, all-zero literal field is set. -/
theorem EncodeReg_wide_encoding :
    demoTarget.getEncodingValue 16 = 8 ∧
    EncodeReg demoTarget 0x07 demoWide demoDesc1 0 0 = .ok (3, 8) ∧
    encodeInstruction demoTarget demoWide demoDesc1 [0x07, 0x04, 0x04, 0x04, 0x01] [] [] =
      .ok ([0x00, 0x08], []) := by
  decide

/-- C4 amended: let a register bead name the register `r` by the slot rule (the
base entry of a composite slot, its scale entry when bit 7 is set, the only
entry of any other slot, where bit 7 is not admitted), with encoding value
`e`. When `e` is below 8 the register code `EncodeReg` ORs in is `e << offset`,
which touches accumulator bits `[offset, offset + 3)` only. The address/data
bit it ORs in is 1 exactly when `r` is an address register: alone at `offset`
for every encoding value, at `offset + 3` after a register code below 8. -/
theorem EncodeReg_field (T : Target) (Bead : Nat) (MI : MCInst) (Desc : MCInstrDesc)
    (B O r : Nat) (hB : Bead < 256)
    (hr : Spec.regOf T MI Desc Bead = some r)
    (ha : Spec.alt Bead = true → ∃ Info, Spec.slot Desc Bead = some Info ∧
      T.isTargetType Info.OpType = true ∧ 1 < Info.OpsNum)
    (hO : O ≤ 27) :
    (T.kindOf (Bead &&& 0xF) = some .Reg → T.getEncodingValue r < 8 →
      EncodeReg T Bead MI Desc B O = .ok (3, B ||| (T.getEncodingValue r <<< O))) ∧
    (T.kindOf (Bead &&& 0xF) = some .DA →
      EncodeReg T Bead MI Desc B O =
        .ok (1, B ||| ((if T.isAddressRegister r then 1 else 0) <<< O))) ∧
    (T.kindOf (Bead &&& 0xF) = some .DAReg → T.getEncodingValue r < 8 →
      EncodeReg T Bead MI Desc B O =
        .ok (4, B ||| (T.getEncodingValue r <<< O) |||
          ((if T.isAddressRegister r then 1 else 0) <<< (O + 3)))) ∧
    (T.getEncodingValue r < 8 →
      2 ^ O ∣ T.getEncodingValue r <<< O ∧ T.getEncodingValue r <<< O < 2 ^ (O + 3)) := by
  have ha1 : (if T.isAddressRegister r = true then 1 else 0) < 2 ^ 1 := by
    split <;> decide
  refine ⟨?_, ?_, ?_, ?_⟩
  · intro hk he
    have e3 : T.getEncodingValue r < 2 ^ 3 := he
    have e0 : T.getEncodingValue r % 2 ^ 16 = T.getEncodingValue r :=
      Nat.mod_eq_of_lt (by omega)
    rw [EncodeReg_regOf T Bead MI Desc B O r true false hB (by simp only [regMode, hk]) hr ha,
      e0]
    simp only [if_true, if_false, Bool.false_eq_true, shlU32_eq _ O 3 e3 (by omega)]
  · intro hk
    rw [EncodeReg_regOf T Bead MI Desc B O r false true hB (by simp only [regMode, hk]) hr ha]
    simp only [if_true, if_false, Bool.false_eq_true, Nat.zero_add,
      shlInt_eq _ O 1 ha1 (by omega)]
  · intro hk he
    have e3 : T.getEncodingValue r < 2 ^ 3 := he
    have e0 : T.getEncodingValue r % 2 ^ 16 = T.getEncodingValue r :=
      Nat.mod_eq_of_lt (by omega)
    rw [EncodeReg_regOf T Bead MI Desc B O r true true hB (by simp only [regMode, hk]) hr ha,
      e0]
    simp only [if_true, shlU32_eq _ O 3 e3 (by omega), shlInt_eq _ (O + 3) 1 ha1 (by omega)]
  · intro he
    have e3 : T.getEncodingValue r < 2 ^ 3 := he
    constructor
    · rw [Nat.shiftLeft_eq]
      exact Dvd.intro_left _ rfl
    · exact shl_lt _ O 3 (O + 3) e3 (Nat.le_refl _)

/-- C4 amended on the composite slot `demoIdxDesc` at accumulator 5, offset 4:
the combined bead `05` encodes the base register 13 (encoding 5, address
class), the combined bead `85` with bit 7 set the scale register 2 (encoding
2, data class); the flag bead `06` on the plain register 24, whose encoding
value is 8, still writes the address/data bit of that register alone. -/
theorem EncodeReg_field_witness :
    Spec.regOf demoTarget demoIdxInst demoIdxDesc 0x05 = some 13 ∧
    Spec.regOf demoTarget demoIdxInst demoIdxDesc 0x85 = some 2 ∧
    demoTarget.getEncodingValue 13 = 5 ∧ demoTarget.isAddressRegister 13 = true ∧
    demoTarget.getEncodingValue 2 = 2 ∧ demoTarget.isAddressRegister 2 = false ∧
    demoTarget.getEncodingValue 24 = 8 ∧ demoTarget.isAddressRegister 24 = false ∧
    EncodeReg demoTarget 0x05 demoIdxInst demoIdxDesc 5 4 = .ok (4, 0xD5) ∧
    EncodeReg demoTarget 0x85 demoIdxInst demoIdxDesc 5 4 = .ok (4, 0x25) ∧
    EncodeReg demoTarget 0x06 ⟨[.reg 24]⟩ demoDesc1 5 4 = .ok (1, 0x05) :=
  ⟨by decide, by decide, by decide, by decide, by decide, by decide, by decide, by decide,
    (EncodeReg_field demoTarget 0x05 demoIdxInst demoIdxDesc 5 4 13 (by decide) (by decide)
      (fun h => absurd h (by decide)) (by decide)).2.2.1 (by decide) (by decide),
    (EncodeReg_field demoTarget 0x85 demoIdxInst demoIdxDesc 5 4 2 (by decide) (by decide)
      (fun _ => ⟨⟨0, 8, 3⟩, by decide, by decide, by decide⟩) (by decide)).2.2.1
      (by decide) (by decide),
    (EncodeReg_field demoTarget 0x06 ⟨[.reg 24]⟩ demoDesc1 5 4 24 (by decide) (by decide)
      (fun h => absurd h (by decide)) (by decide)).2.1 (by decide)⟩

/-- C5: an immediate bead of width `w` (8, 16 or 32 by its kind), bit 7 clear,
on a PC-relative composite slot whose displacement entry is an integer or an
expression: `EncodeImm` appends exactly one fixup at byte offset 2 of the
relative kind for `w`, carrying the constant expression of the integer resp.
the operand's expression, leaves the accumulator unchanged and returns `w`. -/
theorem EncodeImm_pcRel_fixup (T : Target) (Bead : Nat) (MI : MCInst) (Desc : MCInstrDesc)
    (B O w : Nat) (F : List MCFixup) (hB : Bead < 256)
    (hk : T.kindOf (Bead &&& 0xF) = some .Imm8 ∧ w = 8 ∨
      T.kindOf (Bead &&& 0xF) = some .Imm16 ∧ w = 16 ∨
      T.kindOf (Bead &&& 0xF) = some .Imm32 ∧ w = 32)
    (ha : Spec.alt Bead = false) (hO : O + w ≤ 64) :
    (∀ v, immSlot T MI Desc Bead = some (.pcRel (.imm v)) →
      EncodeImm T Bead MI Desc B O F =
        .ok (w, B, F ++ [⟨2, .constant v, getFixupForSize w true⟩])) ∧
    (∀ e, immSlot T MI Desc Bead = some (.pcRel (.expr e)) →
      EncodeImm T Bead MI Desc B O F = .ok (w, B, F ++ [⟨2, e, getFixupForSize w true⟩])) := by
  have hw : immSize T (Bead &&& 0xF) = w := by
    rcases hk with ⟨h, e⟩ | ⟨h, e⟩ | ⟨h, e⟩ <;> simp only [immSize, h, e]
  have h0 : w ≠ 0 := by
    rcases hk with ⟨_, e⟩ | ⟨_, e⟩ | ⟨_, e⟩ <;> omega
  have h1 : w + O ≤ 64 := by omega
  have ha2 : Alt Bead = false := by rw [altFlag_eq Bead hB]; exact ha
  constructor
  · intro v hs
    rw [EncodeImm_pcRel T Bead MI Desc B O F _ hs ha2, hw]
    simp only [pcRelExpr, bind, Except.bind, emitFixup_eq _ w true B O F h0 h1]
  · intro e hs
    rw [EncodeImm_pcRel T Bead MI Desc B O F _ hs ha2, hw]
    simp only [pcRelExpr, getExpr, bind, Except.bind, emitFixup_eq _ w true B O F h0 h1]

/-- C5 on a PC-relative slot, with the accumulator 5 at offset 4: the 8-bit bead
`08` and the 32-bit bead `0A` on the integer 6, the 16-bit bead `09` on the
symbol 7. -/
theorem EncodeImm_pcRel_fixup_witness :
    demoTarget.kindOf (0x08 &&& 0xF) = some .Imm8 ∧
    demoTarget.kindOf (0x09 &&& 0xF) = some .Imm16 ∧
    demoTarget.kindOf (0x0A &&& 0xF) = some .Imm32 ∧
    immSlot demoTarget demoPCImm demoPCDesc 0x08 = some (.pcRel (.imm 6)) ∧
    immSlot demoTarget demoMemSym demoPCDesc 0x09 = some (.pcRel (.expr (.symbol 7))) ∧
    EncodeImm demoTarget 0x08 demoPCImm demoPCDesc 5 4 [] =
      .ok (8, 5, [] ++ [⟨2, .constant 6, getFixupForSize 8 true⟩]) ∧
    EncodeImm demoTarget 0x09 demoMemSym demoPCDesc 5 4 [] =
      .ok (16, 5, [] ++ [⟨2, .symbol 7, getFixupForSize 16 true⟩]) ∧
    EncodeImm demoTarget 0x0A demoPCImm demoPCDesc 5 4 [] =
      .ok (32, 5, [] ++ [⟨2, .constant 6, getFixupForSize 32 true⟩]) :=
  ⟨by decide, by decide, by decide, by decide, by decide,
    (EncodeImm_pcRel_fixup demoTarget 0x08 demoPCImm demoPCDesc 5 4 8 [] (by decide)
      (Or.inl ⟨by decide, rfl⟩) (by decide) (by decide)).1 6 (by decide),
    (EncodeImm_pcRel_fixup demoTarget 0x09 demoMemSym demoPCDesc 5 4 16 [] (by decide)
      (Or.inr (Or.inl ⟨by decide, rfl⟩)) (by decide) (by decide)).2 (.symbol 7) (by decide),
    (EncodeImm_pcRel_fixup demoTarget 0x0A demoPCImm demoPCDesc 5 4 32 [] (by decide)
      (Or.inr (Or.inr ⟨by decide, rfl⟩)) (by decide) (by decide)).1 6 (by decide)⟩

/-- C6: a 16-bit immediate bead on a composite slot that is not PC-relative and
whose displacement entry is a symbol. `EncodeImm` reaches the constant tail,
where `getImm` rejects the expression operand: no fixup, no placeholder. -/
theorem EncodeImm_composite_symbol_fails :
    immSlot demoTarget demoMemSym demoMemDesc 0x09 = some (.composite (.expr (.symbol 7))) ∧
    EncodeImm demoTarget 0x09 demoMemSym demoMemDesc 0 0 [] = .error .operandKind ∧
    encodeInstruction demoTarget demoMemSym demoMemDesc [0x09] [] [] = .error .operandKind := by
  decide

/-- C8: an immediate bead of width `w` (8 or 16 by its kind) on a constant with
unsigned 64-bit value `v`: `EncodeImm` succeeds exactly when `v < 2^w`; then
the accumulator becomes `old OR (v << offset)`, no fixup is appended and `w`
is returned; otherwise encoding aborts on the fit assertion. -/
theorem EncodeImm_small_constant (T : Target) (Bead : Nat) (MI : MCInst) (Desc : MCInstrDesc)
    (B O w : Nat) (F : List MCFixup) (v : Int)
    (hk : T.kindOf (Bead &&& 0xF) = some .Imm8 ∧ w = 8 ∨
      T.kindOf (Bead &&& 0xF) = some .Imm16 ∧ w = 16)
    (hc : immConstant T MI Desc Bead = some v) (hO : O + w ≤ 64) :
    ((∃ r, EncodeImm T Bead MI Desc B O F = .ok r) ↔ toU64 v < 2 ^ w) ∧
    (toU64 v < 2 ^ w →
      EncodeImm T Bead MI Desc B O F = .ok (w, B ||| (toU64 v <<< O), F)) ∧
    (¬ toU64 v < 2 ^ w → EncodeImm T Bead MI Desc B O F = .error .valueFit) := by
  have hw : immSize T (Bead &&& 0xF) = w := by
    rcases hk with ⟨h, e⟩ | ⟨h, e⟩ <;> simp only [immSize, h, e]
  have hw2 : w = 8 ∨ w = 16 := by
    rcases hk with ⟨_, e⟩ | ⟨_, e⟩
    · exact Or.inl e
    · exact Or.inr e
  have e := EncodeImm_constant T Bead MI Desc B O F v hc
  rw [hw, emitImm_small_eq v w B O F (by omega) (by omega) (by omega)] at e
  refine ⟨?_, ?_, ?_⟩
  · constructor
    · rintro ⟨r, hr⟩
      by_contra hn
      rw [e, if_neg hn] at hr
      cases hr
    · intro hv
      exact ⟨_, by rw [e, if_pos hv]⟩
  · intro hv
    rw [e, if_pos hv]
  · intro hv
    rw [e, if_neg hv]

/-- C8 with the accumulator `0x35` at offset 8: the 8-bit bead `18` writes the
constant `0x12` and aborts on `0x1234`; the 16-bit bead `19` writes `0x1234`
and aborts on `-1` (unsigned `2^64 - 1`). -/
theorem EncodeImm_small_constant_witness :
    demoTarget.kindOf (0x18 &&& 0xF) = some .Imm8 ∧
    demoTarget.kindOf (0x19 &&& 0xF) = some .Imm16 ∧
    immConstant demoTarget demoInst8 demoDesc 0x18 = some 0x12 ∧
    EncodeImm demoTarget 0x18 demoInst8 demoDesc 0x35 8 [] = .ok (8, 0x1235, []) ∧
    immConstant demoTarget demoInst demoDesc 0x18 = some 0x1234 ∧
    EncodeImm demoTarget 0x18 demoInst demoDesc 0x35 8 [] = .error .valueFit ∧
    immConstant demoTarget demoInst demoDesc 0x19 = some 0x1234 ∧
    EncodeImm demoTarget 0x19 demoInst demoDesc 0x35 8 [] = .ok (16, 0x123435, []) ∧
    immConstant demoTarget ⟨[.reg 3, .imm (-1)]⟩ demoDesc 0x19 = some (-1) ∧
    EncodeImm demoTarget 0x19 ⟨[.reg 3, .imm (-1)]⟩ demoDesc 0x35 8 [] = .error .valueFit :=
  ⟨by decide, by decide, by decide,
    (EncodeImm_small_constant demoTarget 0x18 demoInst8 demoDesc 0x35 8 8 [] 0x12
      (Or.inl ⟨by decide, rfl⟩) (by decide) (by decide)).2.1 (by decide),
    by decide,
    (EncodeImm_small_constant demoTarget 0x18 demoInst demoDesc 0x35 8 8 [] 0x1234
      (Or.inl ⟨by decide, rfl⟩) (by decide) (by decide)).2.2 (by decide),
    by decide,
    (EncodeImm_small_constant demoTarget 0x19 demoInst demoDesc 0x35 8 16 [] 0x1234
      (Or.inr ⟨by decide, rfl⟩) (by decide) (by decide)).2.1 (by decide),
    by decide,
    (EncodeImm_small_constant demoTarget 0x19 ⟨[.reg 3, .imm (-1)]⟩ demoDesc 0x35 8 16 [] (-1)
      (Or.inr ⟨by decide, rfl⟩) (by decide) (by decide)).2.2 (by decide)⟩

/-- C9 fails for width 32: the constant `2^32 + 0x12345678` does not fit in 32
bits, yet `EncodeImm` succeeds and writes the low 32 bits only;
`encodeInstruction` emits `12 34 56 78`. -/
theorem EncodeImm_imm32_no_fit_check :
    ¬ (toU64 0x112345678 < 2 ^ 32) ∧
    immConstant demoTarget demoInst33 demoDesc 0x1A = some 0x112345678 ∧
    EncodeImm demoTarget 0x1A demoInst33 demoDesc 0 0 [] = .ok (32, 0x56781234, []) ∧
    encodeInstruction demoTarget demoInst33 demoDesc [0x1A] [] [] =
      .ok ([0x12, 0x34, 0x56, 0x78], []) := by
  decide

/-- C9 amended: for an 8-bit and for a 16-bit immediate bead a constant that
does not fit the width aborts on the fit assertion; a 32-bit immediate bead
accepts every constant `v`, writing bits 16-31 of `v` at the offset and bits
0-15 at offset + 16, so that bits 32 and up are dropped. -/
theorem EncodeImm_constant_fit (T : Target) (Bead : Nat) (MI : MCInst) (Desc : MCInstrDesc)
    (B O : Nat) (F : List MCFixup) (v : Int) (hc : immConstant T MI Desc Bead = some v) :
    (T.kindOf (Bead &&& 0xF) = some .Imm8 → O + 8 ≤ 64 → ¬ toU64 v < 2 ^ 8 →
      EncodeImm T Bead MI Desc B O F = .error .valueFit) ∧
    (T.kindOf (Bead &&& 0xF) = some .Imm16 → O + 16 ≤ 64 → ¬ toU64 v < 2 ^ 16 →
      EncodeImm T Bead MI Desc B O F = .error .valueFit) ∧
    (T.kindOf (Bead &&& 0xF) = some .Imm32 → O ≤ 32 →
      EncodeImm T Bead MI Desc B O F =
        .ok (32, B ||| ((toU64 v % 2 ^ 32 / 2 ^ 16) <<< O) |||
          ((toU64 v % 2 ^ 16) <<< (O + 16)), F)) := by
  have e := EncodeImm_constant T Bead MI Desc B O F v hc
  refine ⟨?_, ?_, ?_⟩
  · intro hk hO hv
    have hw : immSize T (Bead &&& 0xF) = 8 := by simp only [immSize, hk]
    rw [e, hw, emitImm_small_eq v 8 B O F (by omega) (by omega) (by omega), if_neg hv]
  · intro hk hO hv
    have hw : immSize T (Bead &&& 0xF) = 16 := by simp only [immSize, hk]
    rw [e, hw, emitImm_small_eq v 16 B O F (by omega) (by omega) (by omega), if_neg hv]
  · intro hk hO
    have h32 : immSize T (Bead &&& 0xF) = 32 := by simp only [immSize, hk]
    have e1 : toU64 v % 2 ^ 32 / 2 ^ 16 = (toU64 v >>> 16) &&& 0xFFFF := by
      rw [hiHalf]; omega
    rw [e, h32, emitImm32_eq v B O F hO, e1, and_65535 (toU64 v)]

/-- C9 amended at the 8-bit bead `18` on `0x1234` and the 16-bit bead `19` on
`-1` (both rejected) and at the 32-bit bead `1A` on `2^32 + 0x12345678`
(accepted, written as `0x12345678`). -/
theorem EncodeImm_constant_fit_witness :
    demoTarget.kindOf (0x18 &&& 0xF) = some .Imm8 ∧
    demoTarget.kindOf (0x19 &&& 0xF) = some .Imm16 ∧
    demoTarget.kindOf (0x1A &&& 0xF) = some .Imm32 ∧
    immConstant demoTarget demoInst demoDesc 0x18 = some 0x1234 ∧
    EncodeImm demoTarget 0x18 demoInst demoDesc 0 0 [] = .error .valueFit ∧
    immConstant demoTarget ⟨[.reg 3, .imm (-1)]⟩ demoDesc 0x19 = some (-1) ∧
    EncodeImm demoTarget 0x19 ⟨[.reg 3, .imm (-1)]⟩ demoDesc 0 0 [] = .error .valueFit ∧
    immConstant demoTarget demoInst33 demoDesc 0x1A = some 0x112345678 ∧
    EncodeImm demoTarget 0x1A demoInst33 demoDesc 0 0 [] = .ok (32, 0x56781234, []) :=
  ⟨by decide, by decide, by decide, by decide,
    (EncodeImm_constant_fit demoTarget 0x18 demoInst demoDesc 0 0 [] 0x1234
      (by decide)).1 (by decide) (by decide) (by decide),
    by decide,
    (EncodeImm_constant_fit demoTarget 0x19 ⟨[.reg 3, .imm (-1)]⟩ demoDesc 0 0 [] (-1)
      (by decide)).2.1 (by decide) (by decide) (by decide),
    by decide,
    (EncodeImm_constant_fit demoTarget 0x1A demoInst33 demoDesc 0 0 [] 0x112345678
      (by decide)).2.2 (by decide) (by decide)⟩

/-- C10 fails: on the example recipe and operand list `encodeInstruction` does
not complete; it aborts on the residual-offset assertion. -/
theorem example_recipe_aborts :
    encodeInstruction demoTarget demoInst demoDesc demoRecipe [] [] = .error .residualOffset := by
  decide

/-- C10 amended: for the recipe [4-bit literal 0b0101][register code of operand
0][address flag of operand 0][16-bit immediate of operand 1] with operand list
[data register with encoding 3, constant 0x1234], whatever the values of the
kind enumerators, the main loop writes one word, the bytes `34 35`, keeps the
8 bits `0x12` pending, and `encodeInstruction` then aborts on the
residual-offset assertion. -/
theorem example_recipe_residual (T : Target) (hT : T.WF) (b1 b2 b3 b4 r : Nat)
    (i0 i1 : MIOperandInfo) (OS : List Nat) (F : List MCFixup)
    (hb : b1 < 256 ∧ b2 < 256 ∧ b3 < 256 ∧ b4 < 256)
    (h1 : T.kindOf (b1 &&& 0xF) = some .Bits4 ∧ (b1 &&& 0xF0) >>> 4 = 5)
    (h2 : T.kindOf (b2 &&& 0xF) = some .Reg ∧ (b2 &&& 0x70) >>> 4 = 0 ∧ Alt b2 = false)
    (h3 : T.kindOf (b3 &&& 0xF) = some .DA ∧ (b3 &&& 0x70) >>> 4 = 0 ∧ Alt b3 = false)
    (h4 : T.kindOf (b4 &&& 0xF) = some .Imm16 ∧ (b4 &&& 0x70) >>> 4 = 1 ∧ Alt b4 = false)
    (hi0 : i0.MINo = 0 ∧ T.isTargetType i0.OpType = false)
    (hi1 : i1.MINo = 1 ∧ T.isTargetType i1.OpType = false)
    (hr : T.getEncodingValue r = 3 ∧ T.isAddressRegister r = false) :
    encodeLoop T ⟨[.reg r, .imm 0x1234]⟩ ⟨[i0, i1]⟩ [b1, b2, b3, b4] ⟨0, 0, 0, OS, F⟩ =
        .ok ⟨0x12, 8, 2, OS ++ [0x34, 0x35], F⟩ ∧
      encodeInstruction T ⟨[.reg r, .imm 0x1234]⟩ ⟨[i0, i1]⟩ [b1, b2, b3, b4] OS F =
        .error .residualOffset := by
  obtain ⟨hb1, hb2, hb3, hb4⟩ := hb
  obtain ⟨k1, v1⟩ := h1
  obtain ⟨k2, o2, a2⟩ := h2
  obtain ⟨k3, o3, a3⟩ := h3
  obtain ⟨k4, o4, a4⟩ := h4
  obtain ⟨n0, t0⟩ := hi0
  obtain ⟨n1, t1⟩ := hi1
  obtain ⟨re, ra⟩ := hr
  have s1 : beadStep T ⟨[.reg r, .imm 0x1234]⟩ ⟨[i0, i1]⟩ ⟨0, 0, 0, OS, F⟩ b1 =
      .ok ⟨5, 4, 0, OS, F⟩ := by
    rw [beadStep_lit T hT _ _ _ b1 _ k1 (by simp)]
    simp only [EncodeBits, k1, v1, advance]
    rw [flush_small _ (by simp)]
    simp [shlInt]
  have s2 : beadStep T ⟨[.reg r, .imm 0x1234]⟩ ⟨[i0, i1]⟩ ⟨5, 4, 0, OS, F⟩ b2 =
      .ok ⟨0x35, 7, 0, OS, F⟩ := by
    rw [beadStep_reg T hT _ _ _ b2 _ k2 (by simp),
      EncodeReg_eq T b2 _ _ _ _ true false i0 0 r (by simp [regMode, k2]) (by simp [o2])
        (by rw [a2, regOperandIndex_plain T i0 t0, n0]) (by simp)]
    simp only [bind, Except.bind, advance, re]
    rw [flush_small _ (by simp)]
    simp [shlU32]
  have s3 : beadStep T ⟨[.reg r, .imm 0x1234]⟩ ⟨[i0, i1]⟩ ⟨0x35, 7, 0, OS, F⟩ b3 =
      .ok ⟨0x35, 8, 0, OS, F⟩ := by
    rw [beadStep_reg T hT _ _ _ b3 _ k3 (by simp),
      EncodeReg_eq T b3 _ _ _ _ false true i0 0 r (by simp [regMode, k3]) (by simp [o3])
        (by rw [a3, regOperandIndex_plain T i0 t0, n0]) (by simp)]
    simp only [bind, Except.bind, advance, ra]
    rw [flush_small _ (by simp)]
    simp [shlInt]
  have s4 : beadStep T ⟨[.reg r, .imm 0x1234]⟩ ⟨[i0, i1]⟩ ⟨0x35, 8, 0, OS, F⟩ b4 =
      .ok ⟨0x12, 8, 2, OS ++ [0x34, 0x35], F⟩ := by
    have hs : immSlot T ⟨[.reg r, .imm 0x1234]⟩ ⟨[i0, i1]⟩ b4 = some (.plain (.imm 0x1234)) := by
      simp [immSlot, o4, t1, n1]
    rw [beadStep_imm T hT _ _ _ b4 _ k4 (by simp),
      EncodeImm_plain_imm T b4 _ _ _ _ _ _ hs a4]
    have hsz : immSize T (b4 &&& 0xF) = 16 := by simp only [immSize, k4]
    rw [hsz, emitImm_small_eq _ 16 _ _ _ (by decide) (by decide) (by simp)]
    have hv : toU64 0x1234 < 2 ^ 16 := by decide
    rw [if_pos hv]
    simp only [bind, Except.bind, advance]
    rw [flush_eq]
    have e : (0x35 ||| toU64 0x1234 <<< 8) = 0x123435 := by decide
    have e2 : (0x123435 : Nat) >>> (16 * ((8 + 16) / 16)) = 0x12 := by decide
    have e3 : wordBytes ((8 + 16) / 16) 0x123435 = [0x34, 0x35] := by decide
    simp only [e, e2, e3]
  have hl : encodeLoop T ⟨[.reg r, .imm 0x1234]⟩ ⟨[i0, i1]⟩ [b1, b2, b3, b4] ⟨0, 0, 0, OS, F⟩ =
      .ok ⟨0x12, 8, 2, OS ++ [0x34, 0x35], F⟩ := by
    rw [encodeLoop_cons T hT _ _ b1 _ _ _ hb1 k1, s1]
    simp only [bind, Except.bind]
    rw [encodeLoop_cons T hT _ _ b2 _ _ _ hb2 k2, s2]
    simp only [bind, Except.bind]
    rw [encodeLoop_cons T hT _ _ b3 _ _ _ hb3 k3, s3]
    simp only [bind, Except.bind]
    rw [encodeLoop_cons T hT _ _ b4 _ _ _ hb4 k4, s4]
    simp only [bind, Except.bind, encodeLoop]
  refine ⟨hl, ?_⟩
  have hf : firstBead [b1, b2, b3, b4] ≠ 0 := by
    intro h0
    simp only [firstBead, Nat.mod_eq_of_lt hb1] at h0
    rw [h0] at k1
    rw [show (0 &&& 0xF) = 0 from rfl, show T.kindOf 0 = none from hT] at k1
    cases k1
  unfold encodeInstruction
  rw [if_neg hf, hl]
  simp [bind, Except.bind]

/-- C10 amended at the enumerator values of `demoTarget`, where the recipe is
`54 07 06 19`. -/
theorem example_recipe_residual_witness :
    demoTarget.WF ∧
    (demoTarget.kindOf (0x54 &&& 0xF) = some .Bits4 ∧ (0x54 &&& 0xF0) >>> 4 = 5) ∧
    (demoTarget.getEncodingValue 3 = 3 ∧ demoTarget.isAddressRegister 3 = false) ∧
    encodeLoop demoTarget demoInst demoDesc demoRecipe ⟨0, 0, 0, [], []⟩ =
        .ok ⟨0x12, 8, 2, [0x34, 0x35], []⟩ ∧
      encodeInstruction demoTarget demoInst demoDesc demoRecipe [] [] =
        .error .residualOffset :=
  ⟨by decide, by decide, by decide,
    example_recipe_residual demoTarget (by decide) 0x54 0x07 0x06 0x19 3 ⟨0, 0, 1⟩ ⟨1, 0, 1⟩
      [] [] (by decide) (by decide) (by decide) (by decide) (by decide) (by decide) (by decide)
      (by decide)⟩

/-- C11: a register bead or an immediate bead whose 3-bit operand index is not
below the number of logical operands of the descriptor aborts on the index
assertion, whatever the operand list, the accumulator, the offset and the
fixup list are: no operand is read, no accumulator or fixup list results, and
the index is neither wrapped nor clamped. -/
theorem operand_index_out_of_range (T : Target) (hT : T.WF) (Bead : Nat)
    (Desc : MCInstrDesc) (kind : BeadKind) (hk : T.kindOf (Bead &&& 0xF) = some kind)
    (hop : Desc.NumMIOperands ≤ (Bead &&& 0x70) >>> 4) :
    (kind.isReg = true → ∀ MI B O, EncodeReg T Bead MI Desc B O = .error .opIndex) ∧
    (kind.isImm = true → ∀ MI B O F, EncodeImm T Bead MI Desc B O F = .error .opIndex) ∧
    (kind.isReg = true ∨ kind.isImm = true →
      ∀ MI s, beadStep T MI Desc s Bead = .error .opIndex) := by
  have hnone : Desc.MIOpInfo[(Bead &&& 0x70) >>> 4]? = none :=
    List.getElem?_eq_none hop
  refine ⟨?_, ?_, ?_⟩
  · intro hr MI B O
    exact EncodeReg_opIndex T Bead MI Desc B O (regMode_of_kind T _ kind hk hr) hnone
  · intro _ MI B O F
    exact EncodeImm_opIndex T Bead MI Desc B O F hnone
  · intro hri MI s
    rcases hri with hr | hi
    · rw [beadStep_reg T hT MI Desc s Bead kind hk
        (by cases kind <;> simp [BeadKind.isReg] at hr <;> simp),
        EncodeReg_opIndex T Bead MI Desc _ _ (regMode_of_kind T _ kind hk hr) hnone]
      rfl
    · rw [beadStep_imm T hT MI Desc s Bead kind hk
        (by cases kind <;> simp [BeadKind.isImm] at hi <;> simp),
        EncodeImm_opIndex T Bead MI Desc _ _ _ hnone]
      rfl

/-- C11 at operand index 5 on a descriptor with 3 operands: the register bead
`57` and the immediate bead `59` abort on the index assertion. -/
theorem operand_index_out_of_range_witness :
    demoDesc3.NumMIOperands = 3 ∧ (0x57 &&& 0x70) >>> 4 = 5 ∧
    EncodeReg demoTarget 0x57 demoInst3 demoDesc3 0x35 8 = .error .opIndex ∧
    EncodeImm demoTarget 0x59 demoInst3 demoDesc3 0x35 8 [] = .error .opIndex ∧
    beadStep demoTarget demoInst3 demoDesc3 ⟨0x35, 8, 0, [], []⟩ 0x59 = .error .opIndex :=
  ⟨by decide, by decide,
    (operand_index_out_of_range demoTarget (by decide) 0x57 demoDesc3 .Reg (by decide)
      (by decide)).1 rfl demoInst3 0x35 8,
    (operand_index_out_of_range demoTarget (by decide) 0x59 demoDesc3 .Imm16 (by decide)
      (by decide)).2.1 rfl demoInst3 0x35 8 [],
    (operand_index_out_of_range demoTarget (by decide) 0x59 demoDesc3 .Imm16 (by decide)
      (by decide)).2.2 (Or.inr rfl) demoInst3 ⟨0x35, 8, 0, [], []⟩⟩

/-- C12 fails for an immediate bead on a slot of a target type that is not
PC-relative and occupies a single operand-list entry: with bit 7 set
`EncodeImm` does not abort, it reads the entry `MINo + MemOuter`, which
belongs to another slot, and encodes it; `encodeInstruction` completes with
the bytes `12 34`. On the same slot the register bead `87` with bit 7 set is
rejected by `EncodeReg`, which tests the entry count of the slot. -/
theorem EncodeImm_alt_single_entry :
    Alt 0x89 = true ∧
    demoSingleDesc.MIOpInfo[(0x89 &&& 0x70) >>> 4]? = some ⟨0, 8, 1⟩ ∧
    EncodeImm demoTarget 0x89 demoSingleInst demoSingleDesc 0 0 [] = .ok (16, 0x1234, []) ∧
    encodeInstruction demoTarget demoSingleInst demoSingleDesc [0x89] [] [] =
      .ok ([0x12, 0x34], []) ∧
    EncodeReg demoTarget 0x87 demoSingleInst demoSingleDesc 0 0 = .error .altSimple := by
  decide

/-- C13: for a non-empty recipe that the main loop runs through without failure,
`encodeInstruction` succeeds exactly when the bead bit counts sum to a
positive multiple of 16; a sum that is not a multiple of 16 leaves a non-zero
residual offset and aborts, and a recipe of ignore beads only writes no byte
and aborts. -/
theorem encodeInstruction_success_iff (T : Target) (hT : T.WF) (MI : MCInst)
    (Desc : MCInstrDesc) (Beads OS : List Nat) (F : List MCFixup) (s : EmitState)
    (hne : firstBead Beads ≠ 0)
    (hrun : encodeLoop T MI Desc Beads ⟨0, 0, 0, OS, F⟩ = .ok s) :
    ((∃ r, encodeInstruction T MI Desc Beads OS F = .ok r) ↔
      0 < Spec.recipeBits T Beads ∧ Spec.recipeBits T Beads % 16 = 0) ∧
    (Spec.recipeBits T Beads % 16 ≠ 0 →
      s.Offset ≠ 0 ∧ encodeInstruction T MI Desc Beads OS F = .error .residualOffset) ∧
    ((∀ b ∈ activeBeads Beads, b &&& 0xF = 0 ∧ b >>> 4 = T.Ignore) →
      s.OS = OS ∧ s.Bytes = 0 ∧
        encodeInstruction T MI Desc Beads OS F = .error .byteCount) := by
  have he := encodeInstruction_of_loop T MI Desc Beads OS F s hne hrun
  obtain ⟨c1, c2, new, c3, c4⟩ :=
    encodeLoop_counted T hT MI Desc OS Beads _ s 0 ⟨rfl, rfl, [], by simp, rfl⟩ hrun
  rw [Nat.zero_add] at c1 c2 c4
  refine ⟨?_, ?_, ?_⟩
  · constructor
    · rintro ⟨r, hr⟩
      rw [he] at hr
      by_cases hO : s.Offset ≠ 0
      · rw [if_pos hO] at hr; cases hr
      · rw [if_neg hO] at hr
        by_cases hB : ¬ (s.Bytes ≠ 0 ∧ s.Bytes % 2 = 0)
        · rw [if_pos hB] at hr; cases hr
        · omega
    · rintro ⟨hpos, hmul⟩
      have hO : ¬ s.Offset ≠ 0 := by omega
      have hB : ¬ ¬ (s.Bytes ≠ 0 ∧ s.Bytes % 2 = 0) := by omega
      exact ⟨_, by rw [he, if_neg hO, if_neg hB]⟩
  · intro hmul
    have hO : s.Offset ≠ 0 := by omega
    exact ⟨hO, by rw [he, if_pos hO]⟩
  · intro hig
    have h0 := recipeBits_ignore T hT Beads hig
    rw [h0] at c1 c2 c4
    have hO : ¬ s.Offset ≠ 0 := by omega
    have hB : ¬ (s.Bytes ≠ 0 ∧ s.Bytes % 2 = 0) := by omega
    refine ⟨?_, by omega, by rw [he, if_neg hO, if_pos hB]⟩
    have hn : new = [] := List.length_eq_zero.mp (by omega)
    rw [c3, hn, List.append_nil]

/-- C13 at three recipes: the 24-bit example recipe (residual offset 8), two
ignore beads (no byte written), and the padded 32-bit recipe (success). -/
theorem encodeInstruction_success_iff_witness :
    (Spec.recipeBits demoTarget demoRecipe = 24 ∧
      encodeInstruction demoTarget demoInst demoDesc demoRecipe [] [] =
        .error .residualOffset) ∧
    encodeInstruction demoTarget demoInst demoDesc [0x10, 0x10] [0xAA] [] =
      .error .byteCount ∧
    (Spec.recipeBits demoTarget demoRecipe32 = 32 ∧
      ∃ r, encodeInstruction demoTarget demoInst demoDesc demoRecipe32 [] [] = .ok r) :=
  ⟨⟨by decide,
      ((encodeInstruction_success_iff demoTarget (by decide) demoInst demoDesc demoRecipe [] []
        ⟨0x12, 8, 2, [0x34, 0x35], []⟩ (by decide) (by decide)).2.1 (by decide)).2⟩,
    ((encodeInstruction_success_iff demoTarget (by decide) demoInst demoDesc [0x10, 0x10]
      [0xAA] [] ⟨0, 0, 0, [0xAA], []⟩ (by decide) (by decide)).2.2 (by decide)).2.2,
    ⟨by decide,
      (encodeInstruction_success_iff demoTarget (by decide) demoInst demoDesc demoRecipe32 [] []
        ⟨0, 0, 4, [0x34, 0x35, 0x00, 0x12], []⟩ (by decide) (by decide)).1.2
        ⟨by decide, by decide⟩⟩⟩

/-- C14: a malformed recipe is fatal. (1) A recipe whose first byte is the zero
terminator makes `encodeInstruction` abort at once. (2) A non-zero bead with
low nibble zero whose high nibble is not the ignore code aborts. (3) A bead
whose low nibble is none of the ten kinds aborts, the ignore bead of (2)
apart. A bead that aborts at its turn in a recipe makes `encodeInstruction`
abort. -/
theorem malformed_recipe_fatal (T : Target) (hT : T.WF) (MI : MCInst) (Desc : MCInstrDesc) :
    (∀ Beads OS F, firstBead Beads = 0 →
      encodeInstruction T MI Desc Beads OS F = .error .noBeads) ∧
    (∀ s Bead, Bead ≠ 0 → Bead &&& 0xF = 0 → Bead >>> 4 ≠ T.Ignore →
      beadStep T MI Desc s Bead = .error .unknownBead) ∧
    (∀ s Bead, T.kindOf (Bead &&& 0xF) = none →
      (Bead &&& 0xF = 0 → Bead >>> 4 ≠ T.Ignore) →
      beadStep T MI Desc s Bead = .error .unknownBead) ∧
    (∀ pre b post OS F s1 e, (∀ c ∈ pre, c % 256 ≠ 0) → b % 256 ≠ 0 →
      encodeLoop T MI Desc pre ⟨0, 0, 0, OS, F⟩ = .ok s1 →
      beadStep T MI Desc s1 (b % 256) = .error e →
      encodeInstruction T MI Desc (pre ++ b :: post) OS F = .error e) := by
  refine ⟨?_, ?_, ?_, ?_⟩
  · intro Beads OS F h0
    simp only [encodeInstruction, h0, if_true]
  · intro s Bead _ h0 hi
    exact beadStep_unknown T MI Desc s Bead (by rw [h0]; exact hT) (fun _ => hi)
  · intro s Bead hk hi
    exact beadStep_unknown T MI Desc s Bead hk hi
  · intro pre b post OS F s1 e hpre hb hrun hstep
    unfold encodeInstruction
    rw [if_neg (firstBead_append pre b post hpre hb),
      encodeLoop_bead_error T MI Desc pre b post _ s1 e hpre hb hrun hstep]
    rfl

/-- C14 at the empty recipe, at the control bead `20` (code 2, not the ignore
code 1), at the bead `0B` of no kind, and at the recipe `54 0B 04`. -/
theorem malformed_recipe_fatal_witness :
    encodeInstruction demoTarget demoInst demoDesc [] [0xAA] [] = .error .noBeads ∧
    encodeInstruction demoTarget demoInst demoDesc [0x00, 0x54] [0xAA] [] = .error .noBeads ∧
    beadStep demoTarget demoInst demoDesc ⟨0, 0, 0, [], []⟩ 0x20 = .error .unknownBead ∧
    beadStep demoTarget demoInst demoDesc ⟨0, 0, 0, [], []⟩ 0x0B = .error .unknownBead ∧
    encodeInstruction demoTarget demoInst demoDesc ([0x54] ++ 0x0B :: [0x04]) [] [] =
      .error .unknownBead :=
  ⟨(malformed_recipe_fatal demoTarget (by decide) demoInst demoDesc).1 [] [0xAA] [] (by decide),
    (malformed_recipe_fatal demoTarget (by decide) demoInst demoDesc).1 [0x00, 0x54] [0xAA] []
      (by decide),
    (malformed_recipe_fatal demoTarget (by decide) demoInst demoDesc).2.1 ⟨0, 0, 0, [], []⟩ 0x20
      (by decide) (by decide) (by decide),
    (malformed_recipe_fatal demoTarget (by decide) demoInst demoDesc).2.2.1 ⟨0, 0, 0, [], []⟩
      0x0B (by decide) (by decide),
    (malformed_recipe_fatal demoTarget (by decide) demoInst demoDesc).2.2.2 [0x54] 0x0B [0x04]
      [] [] ⟨5, 4, 0, [], []⟩ .unknownBead (by decide) (by decide) (by decide) (by decide)⟩

/-- C15: `encodeInstruction` only appends. On success the output stream is the
previous stream followed by new bytes, and the fixup list is the previous list
followed, in recipe order, by one fixup for every immediate bead that took a
deferred branch; beads of no kind, literal and register beads and immediate
beads on a constant carry none. Every appended fixup has byte offset 2. -/
theorem encodeInstruction_appends (T : Target) (hT : T.WF) (MI : MCInst) (Desc : MCInstrDesc)
    (Beads OS : List Nat) (F : List MCFixup) (out : List Nat) (fx : List MCFixup)
    (h : encodeInstruction T MI Desc Beads OS F = .ok (out, fx)) :
    (∃ new, out = OS ++ new) ∧
    fx = F ++ Spec.recipeFixups T MI Desc Beads ∧
    (∀ f ∈ Spec.recipeFixups T MI Desc Beads, f.Offset = 2) ∧
    (∀ b, (T.kindOf (b % 16) = none ∨
        (∃ kind, T.kindOf (b % 16) = some kind ∧ kind.isImm = false) ∨
        (∃ v, Spec.immOf T MI Desc b = some (some v))) →
      Spec.fixupOf T MI Desc b = none) := by
  unfold encodeInstruction at h
  by_cases hf : firstBead Beads = 0
  · simp [hf] at h
  · rw [if_neg hf] at h
    obtain ⟨s, hs, h⟩ := bind_ok h
    by_cases hO : s.Offset ≠ 0
    · simp [hO] at h
    · rw [if_neg hO] at h
      by_cases hB : ¬ (s.Bytes ≠ 0 ∧ s.Bytes % 2 = 0)
      · simp [hB] at h
      · rw [if_neg hB] at h
        injection h with h
        injection h with h1 h2
        obtain ⟨_, _, new, c3, _⟩ :=
          encodeLoop_counted T hT MI Desc OS Beads _ s 0 ⟨rfl, rfl, [], by simp, rfl⟩ hs
        have hfx := encodeLoop_fixups T hT MI Desc Beads _ s hs
        refine ⟨⟨new, by rw [← h1, c3]⟩, by rw [← h2, hfx], ?_, ?_⟩
        · intro f hmem
          unfold Spec.recipeFixups at hmem
          obtain ⟨b, _, hb⟩ := List.mem_flatMap.mp hmem
          exact fixupOf_offset T MI Desc b f (Option.mem_toList.mp hb)
        · intro b hb
          exact fixupOf_none T MI Desc b hb

/-- C15 at the recipe `19 54 04 04 04 0A` on two symbolic operands: the stream
`AA` grows by zeros and the literal word, the fixup list by the fixup of
operand 1 (16 bit) and then that of operand 0 (32 bit), both at byte offset 2
although the second field starts at byte 4. -/
theorem encodeInstruction_appends_witness :
    encodeInstruction demoTarget demoTwoSyms demoDesc [0x19, 0x54, 0x04, 0x04, 0x04, 0x0A]
        [0xAA] [⟨2, .symbol 1, ⟨8, true⟩⟩] =
      .ok ([0xAA, 0, 0, 0, 5, 0, 0, 0, 0],
        [⟨2, .symbol 1, ⟨8, true⟩⟩, ⟨2, .symbol 8, ⟨16, false⟩⟩,
          ⟨2, .symbol 7, ⟨32, false⟩⟩]) ∧
    Spec.recipeFixups demoTarget demoTwoSyms demoDesc [0x19, 0x54, 0x04, 0x04, 0x04, 0x0A] =
      [⟨2, .symbol 8, ⟨16, false⟩⟩, ⟨2, .symbol 7, ⟨32, false⟩⟩] ∧
    [⟨2, .symbol 1, ⟨8, true⟩⟩, ⟨2, .symbol 8, ⟨16, false⟩⟩, ⟨2, .symbol 7, ⟨32, false⟩⟩] =
      [⟨2, .symbol 1, ⟨8, true⟩⟩] ++
        Spec.recipeFixups demoTarget demoTwoSyms demoDesc
          [0x19, 0x54, 0x04, 0x04, 0x04, 0x0A] :=
  ⟨by decide, by decide,
    (encodeInstruction_appends demoTarget (by decide) demoTwoSyms demoDesc
      [0x19, 0x54, 0x04, 0x04, 0x04, 0x0A] [0xAA] [⟨2, .symbol 1, ⟨8, true⟩⟩]
      [0xAA, 0, 0, 0, 5, 0, 0, 0, 0]
      [⟨2, .symbol 1, ⟨8, true⟩⟩, ⟨2, .symbol 8, ⟨16, false⟩⟩, ⟨2, .symbol 7, ⟨32, false⟩⟩]
      (by decide)).2.1⟩

/-- C16: for a literal bead of width `n` in {1, 2, 3, 4} whose high nibble `v`
is below `2^n`, any accumulator and any offset below 16, `EncodeBits` returns
`n` and the accumulator `old OR (v << offset)`; the loop iteration of the bead
depends on no operand and leaves the fixup list as it was. -/
theorem EncodeBits_literal (T : Target) (hT : T.WF) (Bead B O n : Nat) (kind : BeadKind)
    (hk : T.kindOf (Bead &&& 0xF) = some kind) (hn : kind.litWidth = some n)
    (hv : (Bead &&& 0xF0) >>> 4 < 2 ^ n) (hO : O < 16) :
    EncodeBits T Bead B O = (n, B ||| (((Bead &&& 0xF0) >>> 4) <<< O)) ∧
    (∀ MI Desc Bytes OS F, beadStep T MI Desc ⟨B, O, Bytes, OS, F⟩ Bead =
      .ok (flush ⟨B ||| (((Bead &&& 0xF0) >>> 4) <<< O), O + n, Bytes, OS, F⟩)) := by
  have hn4 : n ≤ 4 := by
    cases kind <;> simp [BeadKind.litWidth] at hn <;> omega
  have hlit : kind = .Bits1 ∨ kind = .Bits2 ∨ kind = .Bits3 ∨ kind = .Bits4 := by
    cases kind <;> simp [BeadKind.litWidth] at hn <;> simp
  have hnum : (EncodeBits T Bead B O).1 = n := by
    cases kind <;> simp [BeadKind.litWidth] at hn <;> simp only [EncodeBits, hk, hn]
  have hbuf : (EncodeBits T Bead B O).2 = B ||| (((Bead &&& 0xF0) >>> 4) <<< O) := by
    simp only [EncodeBits, shlInt_eq _ O n hv (by omega)]
  refine ⟨Prod.ext hnum hbuf, ?_⟩
  intro MI Desc Bytes OS F
  rw [beadStep_lit T hT MI Desc _ Bead kind hk hlit, advance]
  simp only [hnum, hbuf]

/-- C16 at the bead `54` (4-bit literal 5) at offset 4 over the accumulator 3,
and at the bead `11` (1-bit literal 1) at offset 15, which completes a word. -/
theorem EncodeBits_literal_witness :
    demoTarget.kindOf (0x54 &&& 0xF) = some .Bits4 ∧ (0x54 &&& 0xF0) >>> 4 = 5 ∧
    EncodeBits demoTarget 0x54 3 4 = (4, 0x53) ∧
    beadStep demoTarget demoSym demoDesc1 ⟨0x7FFF, 15, 0, [], []⟩ 0x11 =
      .ok ⟨0, 0, 2, [0xFF, 0xFF], []⟩ :=
  ⟨by decide, by decide,
    (EncodeBits_literal demoTarget (by decide) 0x54 3 4 4 .Bits4 (by decide) rfl (by decide)
      (by decide)).1,
    (EncodeBits_literal demoTarget (by decide) 0x11 0x7FFF 15 1 .Bits1 (by decide) rfl
      (by decide) (by decide)).2 demoSym demoDesc1 0 [] []⟩

/-- C17: for a register bead whose operand index is valid and whose operand
resolves to a register with encoding value `e` below 8, with `a` = 1 for an
address register and 0 otherwise: in register-code mode `EncodeReg` returns 3
and `old OR (e << offset)`, in address/data-flag mode 1 and
`old OR (a << offset)`, in combined mode 4 and
`old OR (e << offset) OR (a << (offset + 3))`. A register bead never changes
the fixup list. -/
theorem EncodeReg_modes (T : Target) (hT : T.WF) (Bead : Nat) (MI : MCInst)
    (Desc : MCInstrDesc) (B O r : Nat) (hB : Bead < 256)
    (hr : Spec.regOf T MI Desc Bead = some r)
    (ha : Spec.alt Bead = true → ∃ Info, Spec.slot Desc Bead = some Info ∧
      T.isTargetType Info.OpType = true ∧ 1 < Info.OpsNum)
    (he : T.getEncodingValue r < 8) (hO : O ≤ 27) :
    (T.kindOf (Bead &&& 0xF) = some .Reg →
      EncodeReg T Bead MI Desc B O = .ok (3, B ||| (T.getEncodingValue r <<< O))) ∧
    (T.kindOf (Bead &&& 0xF) = some .DA →
      EncodeReg T Bead MI Desc B O =
        .ok (1, B ||| ((if T.isAddressRegister r then 1 else 0) <<< O))) ∧
    (T.kindOf (Bead &&& 0xF) = some .DAReg →
      EncodeReg T Bead MI Desc B O =
        .ok (4, B ||| (T.getEncodingValue r <<< O) |||
          ((if T.isAddressRegister r then 1 else 0) <<< (O + 3)))) ∧
    (∀ kind s s', T.kindOf (Bead &&& 0xF) = some kind → kind.isReg = true →
      beadStep T MI Desc s Bead = .ok s' → s'.Fixups = s.Fixups) := by
  have e3 : T.getEncodingValue r < 2 ^ 3 := he
  have e0 : T.getEncodingValue r % 2 ^ 16 = T.getEncodingValue r := Nat.mod_eq_of_lt (by omega)
  have ha1 : (if T.isAddressRegister r = true then 1 else 0) < 2 ^ 1 := by
    split <;> decide
  refine ⟨?_, ?_, ?_, ?_⟩
  · intro hk
    rw [EncodeReg_regOf T Bead MI Desc B O r true false hB
      (by simp only [regMode, hk]) hr ha, e0]
    simp only [if_true, if_false, Bool.false_eq_true, shlU32_eq _ O 3 e3 (by omega)]
  · intro hk
    rw [EncodeReg_regOf T Bead MI Desc B O r false true hB
      (by simp only [regMode, hk]) hr ha]
    simp only [if_true, if_false, Bool.false_eq_true, Nat.zero_add,
      shlInt_eq _ O 1 ha1 (by omega)]
  · intro hk
    rw [EncodeReg_regOf T Bead MI Desc B O r true true hB
      (by simp only [regMode, hk]) hr ha, e0]
    simp only [if_true, shlU32_eq _ O 3 e3 (by omega), shlInt_eq _ (O + 3) 1 ha1 (by omega)]
  · intro kind s s' hk hr h
    rw [beadStep_reg T hT MI Desc s Bead kind hk
      (by cases kind <;> simp [BeadKind.isReg] at hr <;> simp)] at h
    obtain ⟨q, _, h⟩ := bind_ok h
    injection h with h
    rw [← h, advance, flush_fixups]

/-- C17 at the accumulator 5, offset 4. On the composite slot `demoIdxDesc` the
register-code bead `07` encodes the base register 13 (encoding 5), the same
bead with bit 7 set, `87`, the scale register 2, the flag bead `06` the
address class of the base register and the combined bead `05` both; on a
plain slot the register-code bead `07` encodes data register 3. -/
theorem EncodeReg_modes_witness :
    Spec.regOf demoTarget demoIdxInst demoIdxDesc 0x07 = some 13 ∧
    Spec.regOf demoTarget demoIdxInst demoIdxDesc 0x87 = some 2 ∧
    Spec.regOf demoTarget demoInst demoDesc 0x07 = some 3 ∧
    demoTarget.getEncodingValue 13 = 5 ∧ demoTarget.isAddressRegister 13 = true ∧
    demoTarget.getEncodingValue 2 = 2 ∧ demoTarget.getEncodingValue 3 = 3 ∧
    EncodeReg demoTarget 0x07 demoIdxInst demoIdxDesc 5 4 = .ok (3, 0x55) ∧
    EncodeReg demoTarget 0x87 demoIdxInst demoIdxDesc 5 4 = .ok (3, 0x25) ∧
    EncodeReg demoTarget 0x06 demoIdxInst demoIdxDesc 5 4 = .ok (1, 0x15) ∧
    EncodeReg demoTarget 0x05 demoIdxInst demoIdxDesc 5 4 = .ok (4, 0xD5) ∧
    EncodeReg demoTarget 0x07 demoInst demoDesc 5 4 = .ok (3, 0x35) :=
  ⟨by decide, by decide, by decide, by decide, by decide, by decide, by decide,
    (EncodeReg_modes demoTarget (by decide) 0x07 demoIdxInst demoIdxDesc 5 4 13 (by decide)
      (by decide) (fun h => absurd h (by decide)) (by decide) (by decide)).1 (by decide),
    (EncodeReg_modes demoTarget (by decide) 0x87 demoIdxInst demoIdxDesc 5 4 2 (by decide)
      (by decide) (fun _ => ⟨⟨0, 8, 3⟩, by decide, by decide, by decide⟩) (by decide)
      (by decide)).1 (by decide),
    (EncodeReg_modes demoTarget (by decide) 0x06 demoIdxInst demoIdxDesc 5 4 13 (by decide)
      (by decide) (fun h => absurd h (by decide)) (by decide) (by decide)).2.1 (by decide),
    (EncodeReg_modes demoTarget (by decide) 0x05 demoIdxInst demoIdxDesc 5 4 13 (by decide)
      (by decide) (fun h => absurd h (by decide)) (by decide) (by decide)).2.2.1 (by decide),
    (EncodeReg_modes demoTarget (by decide) 0x07 demoInst demoDesc 5 4 3 (by decide)
      (by decide) (fun h => absurd h (by decide)) (by decide) (by decide)).1 (by decide)⟩

/-- C18: inserting an ignore bead (a non-zero byte with low nibble zero and the
ignore code as high nibble) at any position of a non-empty recipe leaves the
result of `encodeInstruction` as it is: same failure, or same bytes and same
fixups. -/
theorem ignore_bead_insert (T : Target) (MI : MCInst) (Desc : MCInstrDesc)
    (pre post OS : List Nat) (F : List MCFixup) (ig : Nat)
    (hig : ig % 256 ≠ 0 ∧ (ig % 256) &&& 0xF = 0 ∧ (ig % 256) >>> 4 = T.Ignore)
    (hne : firstBead (pre ++ post) ≠ 0) :
    encodeInstruction T MI Desc (pre ++ ig :: post) OS F =
      encodeInstruction T MI Desc (pre ++ post) OS F := by
  obtain ⟨h1, h2, h3⟩ := hig
  have hf : firstBead (pre ++ ig :: post) ≠ 0 := by
    cases pre with
    | nil => exact h1
    | cons c rest => exact hne
  unfold encodeInstruction
  rw [if_neg hf, if_neg hne, encodeLoop_insert T MI Desc pre post ig h1 h2 h3]

/-- C18 at the ignore bead `10` inserted in front of, inside and behind the
padded example recipe, and inside the example recipe that aborts. -/
theorem ignore_bead_insert_witness :
    (0x10 % 256 ≠ 0 ∧ (0x10 % 256) &&& 0xF = 0 ∧ (0x10 % 256) >>> 4 = demoTarget.Ignore) ∧
    encodeInstruction demoTarget demoInst demoDesc ([] ++ 0x10 :: demoRecipe32) [] [] =
      .ok ([0x34, 0x35, 0x00, 0x12], []) ∧
    encodeInstruction demoTarget demoInst demoDesc
        ([0x54, 0x07, 0x06] ++ 0x10 :: [0x19, 0x04, 0x04]) [] [] =
      .ok ([0x34, 0x35, 0x00, 0x12], []) ∧
    encodeInstruction demoTarget demoInst demoDesc (demoRecipe32 ++ 0x10 :: []) [] [] =
      .ok ([0x34, 0x35, 0x00, 0x12], []) ∧
    encodeInstruction demoTarget demoInst demoDesc ([0x54, 0x07] ++ 0x10 :: [0x06, 0x19])
        [] [] =
      .error .residualOffset :=
  ⟨by decide,
    (ignore_bead_insert demoTarget demoInst demoDesc [] demoRecipe32 [] [] 0x10 (by decide)
      (by decide)).trans (by decide),
    (ignore_bead_insert demoTarget demoInst demoDesc [0x54, 0x07, 0x06] [0x19, 0x04, 0x04] []
      [] 0x10 (by decide) (by decide)).trans (by decide),
    (ignore_bead_insert demoTarget demoInst demoDesc demoRecipe32 [] [] [] 0x10 (by decide)
      (by decide)).trans (by decide),
    (ignore_bead_insert demoTarget demoInst demoDesc [0x54, 0x07] [0x06, 0x19] [] [] 0x10
      (by decide) (by decide)).trans (by decide)⟩

/-- C19: in `encodeInstruction` the bit offset is below 16 at the start of every
bead (the state the main loop reaches after any prefix of the recipe) and
after every flush; between the field write and the flush it is at most
15 + 32 = 47, so the flush loop runs at most twice; and the capacity
assertion of `EmitConstant` never fails, neither in a loop iteration started
below 16 (second half of a 32-bit immediate included) nor in
`encodeInstruction` as a whole. -/
theorem offset_invariant (T : Target) (hT : T.WF) (MI : MCInst) (Desc : MCInstrDesc) :
    (∀ pre rest OS F s, (∀ c ∈ pre, c % 256 ≠ 0) →
      encodeLoop T MI Desc pre ⟨0, 0, 0, OS, F⟩ = .ok s →
      s.Offset < 16 ∧
        encodeLoop T MI Desc (pre ++ rest) ⟨0, 0, 0, OS, F⟩ = encodeLoop T MI Desc rest s) ∧
    (∀ s b s', s.Offset < 16 → b < 256 → beadStep T MI Desc s b = .ok s' →
      s'.Offset < 16 ∧ s.Offset + Spec.beadBits T b ≤ 47 ∧
        ∃ B fx, s' = flushLoop 2 ⟨B, s.Offset + Spec.beadBits T b, s.Bytes, s.OS, fx⟩) ∧
    (∀ s b, s.Offset < 16 → beadStep T MI Desc s b ≠ .error .capacity) ∧
    (∀ Val B O, O < 16 →
      EmitConstant Val 32 B O ≠ .error .capacity ∧
        EmitConstant Val 16 B (O + 16) ≠ .error .capacity) ∧
    (∀ Beads OS F, encodeInstruction T MI Desc Beads OS F ≠ .error .capacity) := by
  refine ⟨?_, ?_, ?_, ?_, ?_⟩
  · intro pre rest OS F s hpre hrun
    refine ⟨(encodeLoop_offset T hT MI Desc pre _ (Nat.zero_lt_succ 15)).1 s hrun, ?_⟩
    rw [encodeLoop_append T MI Desc pre rest _ hpre, hrun]
    rfl
  · intro s b s' hO hb h
    have hle := beadBits_le T b
    obtain ⟨B, fx, hs⟩ := beadStep_bits T hT MI Desc s s' b hb hO h
    refine ⟨beadStep_offset T hT MI Desc s s' b hb hO h, by omega, B, fx, ?_⟩
    rw [hs, flush_eq, flushLoop_eq 2 _ (by simp only; omega)]
  · intro s b hO
    exact beadStep_capacity T MI Desc s b (by omega)
  · intro Val B O hO
    constructor
    · intro h
      exact EmitConstant_capacity _ _ _ _ h (by omega)
    · intro h
      exact EmitConstant_capacity _ _ _ _ h (by omega)
  · intro Beads OS F h
    unfold encodeInstruction at h
    by_cases hf : firstBead Beads = 0
    · rw [if_pos hf] at h; cases h
    · rw [if_neg hf] at h
      rcases bind_error h with h1 | ⟨s, _, h2⟩
      · exact (encodeLoop_offset T hT MI Desc Beads _ (Nat.zero_lt_succ 15)).2 h1
      · by_cases hO : s.Offset ≠ 0
        · rw [if_pos hO] at h2; cases h2
        · rw [if_neg hO] at h2
          by_cases hB : ¬ (s.Bytes ≠ 0 ∧ s.Bytes % 2 = 0)
          · rw [if_pos hB] at h2; cases h2
          · rw [if_neg hB] at h2; cases h2

/-- C19 at a 32-bit immediate bead started at offset 15: 47 bits before the
flush, two words flushed, offset 15 after it; and at the state after the
first three beads of the example recipe (offset 8). -/
theorem offset_invariant_witness :
    encodeLoop demoTarget demoInst demoDesc [0x54, 0x07, 0x06] ⟨0, 0, 0, [], []⟩ =
      .ok ⟨0x35, 8, 0, [], []⟩ ∧
    ((8 : Nat) < 16 ∧
      encodeLoop demoTarget demoInst demoDesc ([0x54, 0x07, 0x06] ++ [0x19])
          ⟨0, 0, 0, [], []⟩ =
        encodeLoop demoTarget demoInst demoDesc [0x19] ⟨0x35, 8, 0, [], []⟩) ∧
    beadStep demoTarget demoInst32 demoDesc ⟨0x7FFF, 15, 0, [], []⟩ 0x1A =
      .ok ⟨0x2B3C, 15, 4, [0x7F, 0xFF, 0x09, 0x1A], []⟩ ∧
    ((15 : Nat) < 16 ∧ 15 + Spec.beadBits demoTarget 0x1A ≤ 47 ∧
      ∃ B fx, (⟨0x2B3C, 15, 4, [0x7F, 0xFF, 0x09, 0x1A], []⟩ : EmitState) =
        flushLoop 2 ⟨B, 15 + Spec.beadBits demoTarget 0x1A, 0, [], fx⟩) :=
  ⟨by decide,
    (offset_invariant demoTarget (by decide) demoInst demoDesc).1 [0x54, 0x07, 0x06] [0x19]
      [] [] ⟨0x35, 8, 0, [], []⟩ (by decide) (by decide),
    by decide,
    (offset_invariant demoTarget (by decide) demoInst32 demoDesc).2.1
      ⟨0x7FFF, 15, 0, [], []⟩ 0x1A ⟨0x2B3C, 15, 4, [0x7F, 0xFF, 0x09, 0x1A], []⟩
      (by decide) (by decide) (by decide)⟩

/-- C20: when every field value of a recipe fits its width, the accumulator
holds no bit at or above the offset (`Buffer < 2^Offset`) at the start of
every bead, i.e. in the state the main loop reaches after any prefix of the
recipe, hence after every flush; the write of a bead then adds its fields
above the pending bits, which stay as they were below the offset while the
fields stand unchanged above it; and when `encodeInstruction` succeeds the
accumulator is 0 at the end of the loop. -/
theorem accumulator_clean (T : Target) (hT : T.WF) (MI : MCInst) (Desc : MCInstrDesc)
    (Beads OS : List Nat) (F : List MCFixup)
    (hfit : ∀ b ∈ activeBeads Beads, ∀ f ∈ Spec.fields T MI Desc b, f.2 < 2 ^ f.1) :
    (∀ pre rest s, Beads = pre ++ rest → (∀ c ∈ pre, c % 256 ≠ 0) →
      encodeLoop T MI Desc pre ⟨0, 0, 0, OS, F⟩ = .ok s → s.Buffer < 2 ^ s.Offset) ∧
    (∀ pre b rest s s', Beads = pre ++ b :: rest → (∀ c ∈ pre, c % 256 ≠ 0) →
      b % 256 ≠ 0 → encodeLoop T MI Desc pre ⟨0, 0, 0, OS, F⟩ = .ok s →
      beadStep T MI Desc s (b % 256) = .ok s' →
      ∃ fx w, w = s.Buffer + 2 ^ s.Offset *
          Spec.concatAt 0 (Spec.fields T MI Desc (b % 256)) ∧
        s' = flush ⟨w, s.Offset + Spec.width (Spec.fields T MI Desc (b % 256)),
          s.Bytes, s.OS, fx⟩ ∧
        w % 2 ^ s.Offset = s.Buffer ∧
        w / 2 ^ s.Offset = Spec.concatAt 0 (Spec.fields T MI Desc (b % 256))) ∧
    (∀ s r, encodeLoop T MI Desc Beads ⟨0, 0, 0, OS, F⟩ = .ok s →
      encodeInstruction T MI Desc Beads OS F = .ok r → s.Buffer = 0) := by
  have hpre : ∀ pre rest, Beads = pre ++ rest → (∀ c ∈ pre, c % 256 ≠ 0) →
      ∀ b ∈ activeBeads pre, ∀ f ∈ Spec.fields T MI Desc b, f.2 < 2 ^ f.1 := by
    intro pre rest hsplit hnz b hb
    exact hfit b (by rw [hsplit]; exact activeBeads_prefix pre rest hnz b hb)
  refine ⟨?_, ?_, ?_⟩
  · intro pre rest s hsplit hnz hrun
    exact (encodeLoop_clean T hT MI Desc pre OS F s (hpre pre rest hsplit hnz) hrun).2
  · intro pre b rest s s' hsplit hnz hb hrun hstep
    obtain ⟨hO, hc⟩ :=
      encodeLoop_clean T hT MI Desc pre OS F s (hpre pre (b :: rest) hsplit hnz) hrun
    have hfb : ∀ f ∈ Spec.fields T MI Desc (b % 256), f.2 < 2 ^ f.1 := by
      apply hfit
      rw [hsplit, activeBeads_append pre (b :: rest) hnz, activeBeads, if_neg hb]
      exact List.mem_append_right _ (List.mem_cons_self _ _)
    obtain ⟨_, fx, hs'⟩ := beadStep_fields T hT MI Desc s s' (b % 256)
      (Nat.mod_lt _ (by decide)) hO hc hfb hstep
    exact ⟨fx, _, rfl, hs', field_undisturbed _ _ _ hc⟩
  · intro s r hrun hok
    obtain ⟨_, hc⟩ := encodeLoop_clean T hT MI Desc Beads OS F s hfit hrun
    have hO : s.Offset = 0 := by
      unfold encodeInstruction at hok
      by_cases hf : firstBead Beads = 0
      · rw [if_pos hf] at hok; cases hok
      · rw [if_neg hf, hrun] at hok
        by_cases h0 : s.Offset ≠ 0
        · simp only [bind, Except.bind, if_pos h0] at hok
          cases hok
        · exact not_not.mp h0
    rw [hO] at hc
    omega

/-- C20 at the padded example recipe: all fields fit, the accumulator is `0x35`
below `2^8` after three beads, and 0 at the end of the successful run. -/
theorem accumulator_clean_witness :
    (∀ b ∈ activeBeads demoRecipe32, ∀ f ∈ Spec.fields demoTarget demoInst demoDesc b,
      f.2 < 2 ^ f.1) ∧
    encodeLoop demoTarget demoInst demoDesc [0x54, 0x07, 0x06] ⟨0, 0, 0, [], []⟩ =
      .ok ⟨0x35, 8, 0, [], []⟩ ∧
    (0x35 : Nat) < 2 ^ 8 ∧
    encodeLoop demoTarget demoInst demoDesc demoRecipe32 ⟨0, 0, 0, [], []⟩ =
      .ok ⟨0, 0, 4, [0x34, 0x35, 0x00, 0x12], []⟩ ∧
    (0 : Nat) = 0 :=
  ⟨by decide, by decide,
    (accumulator_clean demoTarget (by decide) demoInst demoDesc demoRecipe32 [] []
      (by decide)).1 [0x54, 0x07, 0x06] [0x19, 0x04, 0x04] ⟨0x35, 8, 0, [], []⟩ rfl
      (by decide) (by decide),
    by decide,
    ((accumulator_clean demoTarget (by decide) demoInst demoDesc demoRecipe32 [] []
      (by decide)).2.2 ⟨0, 0, 4, [0x34, 0x35, 0x00, 0x12], []⟩
      ([0x34, 0x35, 0x00, 0x12], []) (by decide) (by decide)).symm⟩

end M680x0
